import Mathlib

/-!
# utfconv: conversions between UTF-8, UTF-16 and UTF-32

A shallow embedding of `src/src/utf.cpp` (namespace `utf`).

* A code unit sequence is a `List Nat`; a unit of the 8-bit form is a number
  below `2^8`, of the 16-bit form below `2^16`, of the 32-bit form below `2^32`
  (`Units8`, `Units16`, `Units32`).
* A cursor `(source, sourceEnd)` is the list of the units from `source` up to
  `sourceEnd`: `*source` is its head, `++source` its tail, `sourceEnd - source`
  its length and `source < sourceEnd` says that it is not empty.
* `char32_t` arithmetic is arithmetic modulo `2^32`, written out with `%`.
* The C++ overloads are told apart by the namespace of the source form
  (`str8`, `u16`, `u32`, and `u8` for the `char8_t` form) for `decode`,
  `is_valid` and the conversions, and of the target form for `encode`.
* The decoders with the suffix `_checked` are the same code with every read
  and every advance of a cursor checked against the end of the sequence.
* The two `while` loops carry a step budget; `none` is returned only when the
  budget is used up, and the public functions give the loop one step for each
  unit of the input.
-/

namespace utf

/-- The conversion `static_cast<uint8_t>`. -/
def uint8_t (x : Nat) : Nat := x % 256

/-- The conversion to `char16_t`. -/
def char16_t (x : Nat) : Nat := x % 65536

/-- The conversion to `char32_t`: every `char32_t` computation is reduced by it. -/
def char32_t (x : Nat) : Nat := x % 4294967296

/-- The table `trailingBytesForUTF8[256]`, row by row as in the source. -/
def trailingBytesForUTF8 : List Nat :=
  [0, 0, 0, 0, 0, 0, 0, 0, 0, 0, 0, 0, 0, 0, 0, 0] ++  -- 00
  [0, 0, 0, 0, 0, 0, 0, 0, 0, 0, 0, 0, 0, 0, 0, 0] ++  -- 10
  [0, 0, 0, 0, 0, 0, 0, 0, 0, 0, 0, 0, 0, 0, 0, 0] ++  -- 20
  [0, 0, 0, 0, 0, 0, 0, 0, 0, 0, 0, 0, 0, 0, 0, 0] ++  -- 30
  [0, 0, 0, 0, 0, 0, 0, 0, 0, 0, 0, 0, 0, 0, 0, 0] ++  -- 40
  [0, 0, 0, 0, 0, 0, 0, 0, 0, 0, 0, 0, 0, 0, 0, 0] ++  -- 50
  [0, 0, 0, 0, 0, 0, 0, 0, 0, 0, 0, 0, 0, 0, 0, 0] ++  -- 60
  [0, 0, 0, 0, 0, 0, 0, 0, 0, 0, 0, 0, 0, 0, 0, 0] ++  -- 70
  [0, 0, 0, 0, 0, 0, 0, 0, 0, 0, 0, 0, 0, 0, 0, 0] ++  -- 80
  [0, 0, 0, 0, 0, 0, 0, 0, 0, 0, 0, 0, 0, 0, 0, 0] ++  -- 90
  [0, 0, 0, 0, 0, 0, 0, 0, 0, 0, 0, 0, 0, 0, 0, 0] ++  -- A0
  [0, 0, 0, 0, 0, 0, 0, 0, 0, 0, 0, 0, 0, 0, 0, 0] ++  -- B0
  [1, 1, 1, 1, 1, 1, 1, 1, 1, 1, 1, 1, 1, 1, 1, 1] ++  -- C0
  [1, 1, 1, 1, 1, 1, 1, 1, 1, 1, 1, 1, 1, 1, 1, 1] ++  -- D0
  [2, 2, 2, 2, 2, 2, 2, 2, 2, 2, 2, 2, 2, 2, 2, 2] ++  -- E0
  [3, 3, 3, 3, 3, 3, 3, 3, 4, 4, 4, 4, 5, 5, 5, 5]     -- F0

/-- The table `offsetsFromUTF8[6]`. -/
def offsetsFromUTF8 : List Nat :=
  [0x00000000, 0x00003080, 0x000E2080, 0x03C82080, 0xFA082080, 0x82082080]

/-- The table `firstByteMark[7]`. -/
def firstByteMark : List Nat := [0x00, 0x00, 0xC0, 0xE0, 0xF0, 0xF8, 0xFC]

def UNI_SUR_HIGH_START : Nat := 0xD800
def UNI_SUR_HIGH_END : Nat := 0xDBFF
def UNI_SUR_LOW_START : Nat := 0xDC00
def UNI_SUR_LOW_END : Nat := 0xDFFF

def UNI_REPLACEMENT_CHAR : Nat := 0x0000FFFD
def UNI_MAX_BMP : Nat := 0x0000FFFF
def UNI_MAX_UTF16 : Nat := 0x0010FFFF
def UNI_MAX_LEGAL_UTF32 : Nat := 0x0010FFFF

def halfShift : Nat := 10
def halfBase : Nat := 0x00010000
def halfMask : Nat := 0x3FF
def byteMask : Nat := 0xBF
def byteMark : Nat := 0x80

/-- The code after the outer `switch` of `isLegalUTF8`. -/
def isLegalUTF8_end (source : List Nat) : Bool :=
  if uint8_t (source.getD 0 0) > 0xF4 then false else true

/-- The label `case 1:` of `isLegalUTF8`. -/
def isLegalUTF8_case1 (source : List Nat) : Bool :=
  if uint8_t (source.getD 0 0) ≥ 0x80 ∧ uint8_t (source.getD 0 0) < 0xC2 then false
  else isLegalUTF8_end source

/-- The label `case 2:` of `isLegalUTF8`, entered with the pointer `srcptr`
(an index from `source`); it falls through to `case 1:`. -/
def isLegalUTF8_case2 (source : List Nat) (srcptr : Nat) : Bool :=
  let srcptr := srcptr - 1
  let a := uint8_t (source.getD srcptr 0)
  if a < 0x80 ∨ a > 0xBF then false
  else
    let lead := uint8_t (source.getD 0 0)
    if lead = 0xE0 then (if a < 0xA0 then false else isLegalUTF8_case1 source)
    else if lead = 0xED then (if a > 0x9F then false else isLegalUTF8_case1 source)
    else if lead = 0xF0 then (if a < 0x90 then false else isLegalUTF8_case1 source)
    else if lead = 0xF4 then (if a > 0x8F then false else isLegalUTF8_case1 source)
    else (if a < 0x80 then false else isLegalUTF8_case1 source)

/-- The label `case 3:` of `isLegalUTF8`; it falls through to `case 2:`. -/
def isLegalUTF8_case3 (source : List Nat) (srcptr : Nat) : Bool :=
  let srcptr := srcptr - 1
  let a := uint8_t (source.getD srcptr 0)
  if a < 0x80 ∨ a > 0xBF then false else isLegalUTF8_case2 source srcptr

/-- The label `case 4:` of `isLegalUTF8`; it falls through to `case 3:`. -/
def isLegalUTF8_case4 (source : List Nat) (srcptr : Nat) : Bool :=
  let srcptr := srcptr - 1
  let a := uint8_t (source.getD srcptr 0)
  if a < 0x80 ∨ a > 0xBF then false else isLegalUTF8_case3 source srcptr

/-- The function `isLegalUTF8(source, length)`. -/
def isLegalUTF8 (source : List Nat) (length : Nat) : Bool :=
  let srcptr := length
  if length = 4 then isLegalUTF8_case4 source srcptr
  else if length = 3 then isLegalUTF8_case3 source srcptr
  else if length = 2 then isLegalUTF8_case2 source srcptr
  else if length = 1 then isLegalUTF8_case1 source
  else false

/-- What one `decode` call leaves: the returned value, the cursor `source`
after the call, and the flag `ok`. -/
structure Decoded where
  ch : Nat
  source : List Nat
  ok : Bool
deriving DecidableEq

/-- The step `ch += static_cast<uint8_t>(*source++); ch <<= 6;` on `(ch, source)`. -/
def decode_add_shift (s : Nat × List Nat) : Nat × List Nat :=
  (char32_t (char32_t (s.1 + uint8_t (s.2.headD 0)) <<< 6), s.2.tail)

/-- The step `ch += static_cast<uint8_t>(*source++);` on `(ch, source)`. -/
def decode_add (s : Nat × List Nat) : Nat × List Nat :=
  (char32_t (s.1 + uint8_t (s.2.headD 0)), s.2.tail)

/-- The decoder `decode(str8_it&, str8_it, bool&)` of the 8-bit form. -/
def str8.decode (source : List Nat) : Decoded :=
  let uchar := uint8_t (source.headD 0)
  let extraBytesToRead := trailingBytesForUTF8.getD uchar 0
  if extraBytesToRead ≥ source.length then ⟨0, source, false⟩
  else if ¬ (isLegalUTF8 source (extraBytesToRead + 1) = true) then ⟨0, source, false⟩
  else
    let s0 : Nat × List Nat := (0, source)
    let s :=
      if extraBytesToRead = 3 then
        decode_add (decode_add_shift (decode_add_shift (decode_add_shift s0)))
      else if extraBytesToRead = 2 then decode_add (decode_add_shift (decode_add_shift s0))
      else if extraBytesToRead = 1 then decode_add (decode_add_shift s0)
      else if extraBytesToRead = 0 then decode_add s0
      else s0
    ⟨char32_t (s.1 + (4294967296 - offsetsFromUTF8.getD extraBytesToRead 0)), s.2, true⟩

/-- The decoder `decode(utf16_it&, utf16_it, bool&)` of the 16-bit form. -/
def u16.decode (source : List Nat) : Decoded :=
  let ch := source.headD 0
  let source := source.tail
  if ch ≥ UNI_SUR_HIGH_START ∧ ch ≤ UNI_SUR_HIGH_END then
    if source ≠ [] then
      let trail := source.headD 0
      if trail ≥ UNI_SUR_LOW_START ∧ trail ≤ UNI_SUR_LOW_END then
        let ch := char32_t (char32_t (char32_t (char32_t ((ch - UNI_SUR_HIGH_START) <<< halfShift)
          + trail) + (4294967296 - UNI_SUR_LOW_START)) + halfBase)
        ⟨ch, source.tail, true⟩
      else ⟨ch, source, false⟩
    else ⟨ch, source, false⟩
  else ⟨ch, source, true⟩

/-- The decoder `decode(utf32_it&, utf32_it, bool&)` of the 32-bit form. -/
def u32.decode (source : List Nat) : Decoded :=
  ⟨source.headD 0, source.tail, true⟩

/-- The step `*--midp = (ch | byteMark) & byteMask; ch >>= 6;` on `(ch, mid)`,
where `mid` lists the bytes from `midp` to the end of the buffer. -/
def encode_put_shift (s : Nat × List Nat) : Nat × List Nat :=
  (s.1 >>> 6, uint8_t ((s.1 ||| byteMark) &&& byteMask) :: s.2)

/-- The step `*--midp = ch | firstByteMark[bytesToWrite];` on `(ch, mid)`. -/
def encode_put_first (bytesToWrite : Nat) (s : Nat × List Nat) : Nat × List Nat :=
  (s.1, uint8_t (s.1 ||| firstByteMark.getD bytesToWrite 0) :: s.2)

/-- The encoder `encode(char32_t, back_insert_iterator<std::string>&)`. -/
def str8.encode (ch : Nat) (target : List Nat) : List Nat :=
  let sel : Nat × Nat :=
    if ch < 0x80 then (1, ch)
    else if ch < 0x800 then (2, ch)
    else if ch ≥ UNI_SUR_HIGH_START ∧ ch ≤ UNI_SUR_LOW_END then (3, UNI_REPLACEMENT_CHAR)
    else if ch < 0x10000 then (3, ch)
    else if ch ≤ UNI_MAX_LEGAL_UTF32 then (4, ch)
    else (3, UNI_REPLACEMENT_CHAR)
  let bytesToWrite := sel.1
  let s0 : Nat × List Nat := (sel.2, [])
  let s :=
    if bytesToWrite = 4 then
      encode_put_first 4 (encode_put_shift (encode_put_shift (encode_put_shift s0)))
    else if bytesToWrite = 3 then encode_put_first 3 (encode_put_shift (encode_put_shift s0))
    else if bytesToWrite = 2 then encode_put_first 2 (encode_put_shift s0)
    else if bytesToWrite = 1 then encode_put_first 1 s0
    else s0
  target ++ s.2.take bytesToWrite

/-- The encoder `encode(char32_t, back_insert_iterator<std::u16string>&)`. -/
def u16.encode (ch : Nat) (target : List Nat) : List Nat :=
  if ch ≤ UNI_MAX_BMP then
    if ch ≥ UNI_SUR_HIGH_START ∧ ch ≤ UNI_SUR_LOW_END then
      target ++ [char16_t UNI_REPLACEMENT_CHAR]
    else target ++ [char16_t ch]
  else if ch > UNI_MAX_UTF16 then target ++ [char16_t UNI_REPLACEMENT_CHAR]
  else
    let ch := char32_t (ch + (4294967296 - halfBase))
    (target ++ [char16_t ((ch >>> halfShift) + UNI_SUR_HIGH_START)])
      ++ [char16_t ((ch &&& halfMask) + UNI_SUR_LOW_START)]

/-- The encoder `encode(char32_t, back_insert_iterator<std::u32string>&)`: the
branch under `if constexpr (false)` is never compiled, the `else` is. -/
def u32.encode (ch : Nat) (target : List Nat) : List Nat :=
  target ++ [ch]

/-- The template `is_valid_impl`, for the decoder `decode` of its source form.
`steps` bounds the turns of the `while` loop. -/
def is_valid_impl (decode : List Nat → Decoded) : Nat → List Nat → Option Bool
  | 0, source => if source ≠ [] then none else some true
  | steps + 1, source =>
    if source ≠ [] then
      let d := decode source
      if ¬ (d.ok = true) then some false
      else is_valid_impl decode steps d.source
    else some true

/-- The template `convert`, for the decoder of its source form and the encoder
of its target form; `out` is the output so far. `steps` bounds the turns of the
`while` loop. -/
def convert (decode : List Nat → Decoded) (encode : Nat → List Nat → List Nat) :
    Nat → List Nat → List Nat → Option (List Nat)
  | 0, source, out => if source ≠ [] then none else some out
  | steps + 1, source, out =>
    if source ≠ [] then
      let d := decode source
      if ¬ (d.ok = true) then some []
      else convert decode encode steps d.source (encode d.ch out)
    else some out

/-- The function `is_valid(std::string_view)`. -/
def str8.is_valid (src : List Nat) : Option Bool := is_valid_impl str8.decode src.length src

/-- The function `is_valid(std::u16string_view)`. -/
def u16.is_valid (src : List Nat) : Option Bool := is_valid_impl u16.decode src.length src

/-- The function `is_valid(std::u32string_view)`: `return true`. -/
def u32.is_valid (_src : List Nat) : Bool := true

/-- The function `as_u16(std::string_view)`. -/
def str8.as_u16 (src : List Nat) : Option (List Nat) :=
  convert str8.decode u16.encode src.length src []

/-- The function `as_u32(std::string_view)`. -/
def str8.as_u32 (src : List Nat) : Option (List Nat) :=
  convert str8.decode u32.encode src.length src []

/-- The function `as_str8(std::u16string_view)`. -/
def u16.as_str8 (src : List Nat) : Option (List Nat) :=
  convert u16.decode str8.encode src.length src []

/-- The function `as_u32(std::u16string_view)`. -/
def u16.as_u32 (src : List Nat) : Option (List Nat) :=
  convert u16.decode u32.encode src.length src []

/-- The function `as_str8(std::u32string_view)`. -/
def u32.as_str8 (src : List Nat) : Option (List Nat) :=
  convert u32.decode str8.encode src.length src []

/-- The function `as_u16(std::u32string_view)`. -/
def u32.as_u16 (src : List Nat) : Option (List Nat) :=
  convert u32.decode u16.encode src.length src []

/-- The decoder `decode(utf8_it&, utf8_it, bool&)` of the `char8_t` 8-bit form
(compiled under `__cpp_lib_char8_t`). -/
def u8.decode (source : List Nat) : Decoded :=
  let uchar := uint8_t (source.headD 0)
  let extraBytesToRead := trailingBytesForUTF8.getD uchar 0
  if extraBytesToRead ≥ source.length then ⟨0, source, false⟩
  else if ¬ (isLegalUTF8 source (extraBytesToRead + 1) = true) then ⟨0, source, false⟩
  else
    let s0 : Nat × List Nat := (0, source)
    let s :=
      if extraBytesToRead = 3 then
        decode_add (decode_add_shift (decode_add_shift (decode_add_shift s0)))
      else if extraBytesToRead = 2 then decode_add (decode_add_shift (decode_add_shift s0))
      else if extraBytesToRead = 1 then decode_add (decode_add_shift s0)
      else if extraBytesToRead = 0 then decode_add s0
      else s0
    ⟨char32_t (s.1 + (4294967296 - offsetsFromUTF8.getD extraBytesToRead 0)), s.2, true⟩

/-- The encoder `encode(char32_t, back_insert_iterator<std::u8string>&)`
(compiled under `__cpp_lib_char8_t`). -/
def u8.encode (ch : Nat) (target : List Nat) : List Nat :=
  let sel : Nat × Nat :=
    if ch < 0x80 then (1, ch)
    else if ch < 0x800 then (2, ch)
    else if ch ≥ UNI_SUR_HIGH_START ∧ ch ≤ UNI_SUR_LOW_END then (3, UNI_REPLACEMENT_CHAR)
    else if ch < 0x10000 then (3, ch)
    else if ch ≤ UNI_MAX_LEGAL_UTF32 then (4, ch)
    else (3, UNI_REPLACEMENT_CHAR)
  let bytesToWrite := sel.1
  let s0 : Nat × List Nat := (sel.2, [])
  let s :=
    if bytesToWrite = 4 then
      encode_put_first 4 (encode_put_shift (encode_put_shift (encode_put_shift s0)))
    else if bytesToWrite = 3 then encode_put_first 3 (encode_put_shift (encode_put_shift s0))
    else if bytesToWrite = 2 then encode_put_first 2 (encode_put_shift s0)
    else if bytesToWrite = 1 then encode_put_first 1 s0
    else s0
  target ++ s.2.take bytesToWrite

/-- The function `is_valid(std::u8string_view)`. -/
def u8.is_valid (src : List Nat) : Option Bool := is_valid_impl u8.decode src.length src

/-- The template `char_conv<CharOut, CharIn>`: a string built from the
`src.size()` units at `src.data()`, read as units of the other type of the
same size. -/
def char_conv (src : List Nat) : List Nat := src.take src.length

/-- The function `as_str8(std::u8string_view)`. -/
def u8.as_str8 (src : List Nat) : List Nat := char_conv src

/-- The function `as_u16(std::u8string_view)`. -/
def u8.as_u16 (src : List Nat) : Option (List Nat) :=
  convert u8.decode u16.encode src.length src []

/-- The function `as_u32(std::u8string_view)`. -/
def u8.as_u32 (src : List Nat) : Option (List Nat) :=
  convert u8.decode u32.encode src.length src []

/-- The function `as_u8(std::u16string_view)`. -/
def u16.as_u8 (src : List Nat) : Option (List Nat) :=
  convert u16.decode u8.encode src.length src []

/-- The function `as_u8(std::u32string_view)`. -/
def u32.as_u8 (src : List Nat) : Option (List Nat) :=
  convert u32.decode u8.encode src.length src []

/-- The function `as_u8(std::string_view)`. -/
def str8.as_u8 (src : List Nat) : List Nat := char_conv src

/-- The accumulation `switch (extraBytesToRead)` of `decode(str8_it)` on its
own: the value of `ch` and the cursor after the switch, before the offset is
subtracted. -/
def decode_accumulate (extraBytesToRead : Nat) (source : List Nat) : Nat × List Nat :=
  let s0 : Nat × List Nat := (0, source)
  if extraBytesToRead = 3 then
    decode_add (decode_add_shift (decode_add_shift (decode_add_shift s0)))
  else if extraBytesToRead = 2 then decode_add (decode_add_shift (decode_add_shift s0))
  else if extraBytesToRead = 1 then decode_add (decode_add_shift s0)
  else if extraBytesToRead = 0 then decode_add s0
  else s0

/-- A checked read `p[i]` of a unit `i` places after the cursor, or of entry
`i` of a table: `none` when index `i` is not before the end. -/
def read_at (source : List Nat) (i : Nat) : Option Nat := source[i]?

/-- A checked advance `++p` of a cursor by one unit: `none` when the cursor
stands at the end already. -/
def advance (source : List Nat) : Option (List Nat) :=
  match source with
  | [] => none
  | _ :: rest => some rest

/-- The code after the outer `switch` of `isLegalUTF8`, with checked reads. -/
def isLegalUTF8_end_checked (source : List Nat) : Option Bool :=
  (read_at source 0).bind fun lead =>
    some (if uint8_t lead > 0xF4 then false else true)

/-- The label `case 1:` of `isLegalUTF8`, with checked reads. -/
def isLegalUTF8_case1_checked (source : List Nat) : Option Bool :=
  (read_at source 0).bind fun lead =>
    if uint8_t lead ≥ 0x80 ∧ uint8_t lead < 0xC2 then some false
    else isLegalUTF8_end_checked source

/-- The label `case 2:` of `isLegalUTF8`, with checked reads. -/
def isLegalUTF8_case2_checked (source : List Nat) (srcptr : Nat) : Option Bool :=
  let srcptr := srcptr - 1
  (read_at source srcptr).bind fun a0 =>
    let a := uint8_t a0
    if a < 0x80 ∨ a > 0xBF then some false
    else
      (read_at source 0).bind fun lead0 =>
        let lead := uint8_t lead0
        if lead = 0xE0 then (if a < 0xA0 then some false else isLegalUTF8_case1_checked source)
        else if lead = 0xED then
          (if a > 0x9F then some false else isLegalUTF8_case1_checked source)
        else if lead = 0xF0 then
          (if a < 0x90 then some false else isLegalUTF8_case1_checked source)
        else if lead = 0xF4 then
          (if a > 0x8F then some false else isLegalUTF8_case1_checked source)
        else (if a < 0x80 then some false else isLegalUTF8_case1_checked source)

/-- The label `case 3:` of `isLegalUTF8`, with checked reads. -/
def isLegalUTF8_case3_checked (source : List Nat) (srcptr : Nat) : Option Bool :=
  let srcptr := srcptr - 1
  (read_at source srcptr).bind fun a0 =>
    let a := uint8_t a0
    if a < 0x80 ∨ a > 0xBF then some false else isLegalUTF8_case2_checked source srcptr

/-- The label `case 4:` of `isLegalUTF8`, with checked reads. -/
def isLegalUTF8_case4_checked (source : List Nat) (srcptr : Nat) : Option Bool :=
  let srcptr := srcptr - 1
  (read_at source srcptr).bind fun a0 =>
    let a := uint8_t a0
    if a < 0x80 ∨ a > 0xBF then some false else isLegalUTF8_case3_checked source srcptr

/-- The function `isLegalUTF8(source, length)` with every read of a unit
checked against the end of the sequence: `none` is an over-read. -/
def isLegalUTF8_checked (source : List Nat) (length : Nat) : Option Bool :=
  let srcptr := length
  if length = 4 then isLegalUTF8_case4_checked source srcptr
  else if length = 3 then isLegalUTF8_case3_checked source srcptr
  else if length = 2 then isLegalUTF8_case2_checked source srcptr
  else if length = 1 then isLegalUTF8_case1_checked source
  else some false

/-- The step `ch += static_cast<uint8_t>(*source++); ch <<= 6;` with a checked
read and a checked advance. -/
def decode_add_shift_checked (s : Nat × List Nat) : Option (Nat × List Nat) :=
  (read_at s.2 0).bind fun b =>
    (advance s.2).bind fun rest =>
      some (char32_t (char32_t (s.1 + uint8_t b) <<< 6), rest)

/-- The step `ch += static_cast<uint8_t>(*source++);` with a checked read and a
checked advance. -/
def decode_add_checked (s : Nat × List Nat) : Option (Nat × List Nat) :=
  (read_at s.2 0).bind fun b =>
    (advance s.2).bind fun rest => some (char32_t (s.1 + uint8_t b), rest)

/-- The decoder `decode(str8_it&, str8_it, bool&)` with every read of a unit or
of a table entry and every advance of the cursor checked: `none` is a read or
an advance past the end. -/
def str8.decode_checked (source : List Nat) : Option Decoded :=
  (read_at source 0).bind fun u0 =>
    let uchar := uint8_t u0
    (read_at trailingBytesForUTF8 uchar).bind fun extraBytesToRead =>
      if extraBytesToRead ≥ source.length then some ⟨0, source, false⟩
      else
        (isLegalUTF8_checked source (extraBytesToRead + 1)).bind fun legal =>
          if ¬ (legal = true) then some ⟨0, source, false⟩
          else
            let s0 : Nat × List Nat := (0, source)
            let s : Option (Nat × List Nat) :=
              if extraBytesToRead = 3 then
                (((decode_add_shift_checked s0).bind decode_add_shift_checked).bind
                  decode_add_shift_checked).bind decode_add_checked
              else if extraBytesToRead = 2 then
                ((decode_add_shift_checked s0).bind decode_add_shift_checked).bind
                  decode_add_checked
              else if extraBytesToRead = 1 then
                (decode_add_shift_checked s0).bind decode_add_checked
              else if extraBytesToRead = 0 then decode_add_checked s0
              else some s0
            s.bind fun s =>
              (read_at offsetsFromUTF8 extraBytesToRead).bind fun offset =>
                some ⟨char32_t (s.1 + (4294967296 - offset)), s.2, true⟩

/-- The decoder `decode(utf16_it&, utf16_it, bool&)` with checked reads and
advances. -/
def u16.decode_checked (source : List Nat) : Option Decoded :=
  (read_at source 0).bind fun ch =>
    (advance source).bind fun source =>
      if ch ≥ UNI_SUR_HIGH_START ∧ ch ≤ UNI_SUR_HIGH_END then
        if source ≠ [] then
          (read_at source 0).bind fun trail =>
            if trail ≥ UNI_SUR_LOW_START ∧ trail ≤ UNI_SUR_LOW_END then
              (advance source).bind fun source' =>
                some ⟨char32_t (char32_t (char32_t (char32_t
                  ((ch - UNI_SUR_HIGH_START) <<< halfShift) + trail)
                  + (4294967296 - UNI_SUR_LOW_START)) + halfBase), source', true⟩
            else some ⟨ch, source, false⟩
        else some ⟨ch, source, false⟩
      else some ⟨ch, source, true⟩

/-- The decoder `decode(utf32_it&, utf32_it, bool&)` with a checked read and a
checked advance. -/
def u32.decode_checked (source : List Nat) : Option Decoded :=
  (read_at source 0).bind fun ch =>
    (advance source).bind fun rest => some ⟨ch, rest, true⟩

/-- Every unit of an 8-bit sequence is below `2^8`. -/
def Units8 (x : List Nat) : Prop := ∀ b ∈ x, b < 256

/-- Every unit of a 16-bit sequence is below `2^16`. -/
def Units16 (x : List Nat) : Prop := ∀ u ∈ x, u < 65536

/-- Every unit of a 32-bit sequence is below `2^32`. -/
def Units32 (x : List Nat) : Prop := ∀ u ∈ x, u < 4294967296

/-! ## Reference encodings and predicates used to state the properties -/

/-- A Unicode scalar value: at most `0x10FFFF` and outside `[0xD800, 0xDFFF]`. -/
def IsScalar (c : Nat) : Prop := c ≤ 0x10FFFF ∧ ¬ (0xD800 ≤ c ∧ c ≤ 0xDFFF)

instance (c : Nat) : Decidable (IsScalar c) := by unfold IsScalar; infer_instance

/-- The code point an encoder writes for the value `c`: `c` itself when it is a
scalar value, U+FFFD otherwise. -/
def substituted (c : Nat) : Nat := if IsScalar c then c else 0xFFFD

/-- Reference UTF-8 bytes of a code point below `0x200000`, by division. -/
def utf8Bytes (c : Nat) : List Nat :=
  if c < 0x80 then [c]
  else if c < 0x800 then [0xC0 + c / 64, 0x80 + c % 64]
  else if c < 0x10000 then [0xE0 + c / 4096, 0x80 + c / 64 % 64, 0x80 + c % 64]
  else [0xF0 + c / 262144, 0x80 + c / 4096 % 64, 0x80 + c / 64 % 64, 0x80 + c % 64]

/-- Reference UTF-16 units of a code point below `0x110000`, by division. -/
def utf16Units (c : Nat) : List Nat :=
  if c < 0x10000 then [c]
  else [0xD800 + (c - 0x10000) / 1024, 0xDC00 + (c - 0x10000) % 1024]

/-- One well-formed UTF-8 byte sequence (Unicode Standard, table 3-7). -/
def Shape8 : List Nat → Prop
  | [b0] => b0 ≤ 0x7F
  | [b0, b1] => (0xC2 ≤ b0 ∧ b0 ≤ 0xDF) ∧ (0x80 ≤ b1 ∧ b1 ≤ 0xBF)
  | [b0, b1, b2] =>
    ((b0 = 0xE0 ∧ (0xA0 ≤ b1 ∧ b1 ≤ 0xBF)) ∨
     (((0xE1 ≤ b0 ∧ b0 ≤ 0xEC) ∨ (0xEE ≤ b0 ∧ b0 ≤ 0xEF)) ∧ (0x80 ≤ b1 ∧ b1 ≤ 0xBF)) ∨
     (b0 = 0xED ∧ (0x80 ≤ b1 ∧ b1 ≤ 0x9F))) ∧ (0x80 ≤ b2 ∧ b2 ≤ 0xBF)
  | [b0, b1, b2, b3] =>
    ((b0 = 0xF0 ∧ (0x90 ≤ b1 ∧ b1 ≤ 0xBF)) ∨
     ((0xF1 ≤ b0 ∧ b0 ≤ 0xF3) ∧ (0x80 ≤ b1 ∧ b1 ≤ 0xBF)) ∨
     (b0 = 0xF4 ∧ (0x80 ≤ b1 ∧ b1 ≤ 0x8F))) ∧ (0x80 ≤ b2 ∧ b2 ≤ 0xBF) ∧ (0x80 ≤ b3 ∧ b3 ≤ 0xBF)
  | _ => False

/-- The code point of one UTF-8 byte sequence, by masking and shifting. -/
def utf8Value : List Nat → Nat
  | [b0] => b0
  | [b0, b1] => b0 % 32 * 64 + b1 % 64
  | [b0, b1, b2] => b0 % 16 * 4096 + b1 % 64 * 64 + b2 % 64
  | [b0, b1, b2, b3] => b0 % 8 * 262144 + b1 % 64 * 4096 + b2 % 64 * 64 + b3 % 64
  | _ => 0

/-- A unit of the high-surrogate range `[0xD800, 0xDBFF]`. -/
def IsHigh (u : Nat) : Prop := 0xD800 ≤ u ∧ u ≤ 0xDBFF

instance (u : Nat) : Decidable (IsHigh u) := by unfold IsHigh; infer_instance

/-- A unit of the low-surrogate range `[0xDC00, 0xDFFF]`. -/
def IsLow (u : Nat) : Prop := 0xDC00 ≤ u ∧ u ≤ 0xDFFF

instance (u : Nat) : Decidable (IsLow u) := by unfold IsLow; infer_instance

/-- The decoder never stands still after a success: the cursor it leaves is
shorter than the cursor it was given. -/
def Progress (decode : List Nat → Decoded) : Prop :=
  ∀ source, source ≠ [] → (decode source).ok = true →
    (decode source).source.length < source.length

/-- The run of successful `decode` calls that takes the cursor `source` to the
end, with the code points it returns in order. -/
inductive Walk (decode : List Nat → Decoded) : List Nat → List Nat → Prop
  | done : Walk decode [] []
  | step (source cps : List Nat) : source ≠ [] → (decode source).ok = true →
      Walk decode (decode source).source cps → Walk decode source ((decode source).ch :: cps)

instance (x : List Nat) : Decidable (Units8 x) := by unfold Units8; infer_instance

instance (x : List Nat) : Decidable (Units16 x) := by unfold Units16; infer_instance

instance (x : List Nat) : Decidable (Units32 x) := by unfold Units32; infer_instance

/-- A concatenation of zero or more well-formed UTF-8 byte sequences. -/
def WellFormed8 (x : List Nat) : Prop :=
  ∃ parts : List (List Nat), (∀ p ∈ parts, Shape8 p) ∧ x = parts.flatten

/-- A conversion result that holds at least one unit. -/
def NonEmptyResult (r : Option (List Nat)) : Prop := ∃ y, r = some y ∧ y ≠ []

/-- No low-surrogate unit of `x` stands alone: each one comes right after a
high-surrogate unit. -/
def NoLoneLow (x : List Nat) : Prop :=
  ∀ i, i < x.length → IsLow (x.getD i 0) → 0 < i ∧ IsHigh (x.getD (i - 1) 0)

instance (x : List Nat) : Decidable (NoLoneLow x) := by unfold NoLoneLow; infer_instance

/-- Every high-surrogate unit of `x` is immediately followed, inside `x`, by a
low-surrogate unit. -/
def HighsPaired (x : List Nat) : Prop :=
  ∀ i, i < x.length → IsHigh (x.getD i 0) → i + 1 < x.length ∧ IsLow (x.getD (i + 1) 0)

instance (x : List Nat) : Decidable (HighsPaired x) := by unfold HighsPaired; infer_instance

/-- Every unit is below `0x80`. -/
def IsAscii (x : List Nat) : Prop := ∀ u ∈ x, u < 0x80

instance (x : List Nat) : Decidable (IsAscii x) := by unfold IsAscii; infer_instance

/-- A byte that no well-formed UTF-8 sequence holds: `0xC0`, `0xC1` or above `0xF4`. -/
def Forbidden (b : Nat) : Prop := b = 0xC0 ∨ b = 0xC1 ∨ b > 0xF4

instance (b : Nat) : Decidable (Forbidden b) := by unfold Forbidden; infer_instance

/-- The accumulated sum of a byte sequence in exact arithmetic, with no
reduction modulo `2^32`: each byte is added after the sum so far is shifted left
by six bits. -/
def utf8Sum (chunk : List Nat) : Nat := chunk.foldl (fun acc b => acc * 64 + b) 0

/-- The mask-and-shift reference: the low 7, 5, 4 or 3 bits of the lead byte
(for 0, 1, 2 or 3 trailing bytes) followed by the low 6 bits of each trailing
byte. -/
def maskAndShift : List Nat → Nat
  | [b0] => b0 % 128
  | [b0, b1] => b0 % 32 * 64 + b1 % 64
  | [b0, b1, b2] => (b0 % 16 * 64 + b1 % 64) * 64 + b2 % 64
  | [b0, b1, b2, b3] => ((b0 % 8 * 64 + b1 % 64) * 64 + b2 % 64) * 64 + b3 % 64
  | _ => 0

/-! ## Bit arithmetic -/

theorem and_mod_two_pow (a b n : Nat) : (a &&& b) % 2 ^ n = (a % 2 ^ n) &&& (b % 2 ^ n) := by
  apply Nat.eq_of_testBit_eq
  intro i
  simp only [Nat.testBit_mod_two_pow, Nat.testBit_and]
  cases decide (i < n) <;> simp

theorem or_mod_two_pow (a b n : Nat) : (a ||| b) % 2 ^ n = (a % 2 ^ n) ||| (b % 2 ^ n) := by
  apply Nat.eq_of_testBit_eq
  intro i
  simp only [Nat.testBit_mod_two_pow, Nat.testBit_or]
  cases decide (i < n) <;> simp

set_option maxRecDepth 100000 in
theorem mark_mask_small : ∀ r, r < 256 → (r ||| 0x80) &&& 0xBF = 0x80 + r % 64 := by
  decide

theorem mark_mask (c : Nat) : uint8_t ((c ||| byteMark) &&& byteMask) = 0x80 + c % 64 := by
  have h := and_mod_two_pow (c ||| 0x80) 0xBF 8
  have h2 := or_mod_two_pow c 0x80 8
  norm_num at h h2
  simp only [uint8_t, byteMark, byteMask]
  rw [h, h2, mark_mask_small _ (Nat.mod_lt _ (by norm_num))]
  omega

theorem or_mark2 : ∀ k, k < 32 → k ||| 0xC0 = 0xC0 + k := by decide
theorem or_mark3 : ∀ k, k < 16 → k ||| 0xE0 = 0xE0 + k := by decide
theorem or_mark4 : ∀ k, k < 8 → k ||| 0xF0 = 0xF0 + k := by decide

theorem and_halfMask (x : Nat) : x &&& halfMask = x % 1024 := by
  have h := Nat.and_pow_two_sub_one_eq_mod x 10
  norm_num at h
  simpa [halfMask] using h

/-! ## The encoders write the reference encodings -/

theorem str8_encode_eq (c : Nat) (target : List Nat) :
    str8.encode c target = target ++ utf8Bytes (substituted c) := by
  have hrepl : target ++ utf8Bytes 0xFFFD = target ++ [0xEF, 0xBF, 0xBD] := by
    simp [utf8Bytes]
  unfold str8.encode substituted IsScalar
  simp only [UNI_SUR_HIGH_START, UNI_SUR_LOW_END, UNI_MAX_LEGAL_UTF32, UNI_REPLACEMENT_CHAR]
  by_cases h1 : c < 0x80
  · have e : uint8_t c = c := by unfold uint8_t; omega
    have hs : c ≤ 0x10FFFF ∧ ¬ (0xD800 ≤ c ∧ c ≤ 0xDFFF) := by omega
    simp [h1, hs, utf8Bytes, encode_put_first, firstByteMark, e]
  · by_cases h2 : c < 0x800
    · have hs : c ≤ 0x10FFFF ∧ ¬ (0xD800 ≤ c ∧ c ≤ 0xDFFF) := by omega
      have e : uint8_t (c / 64 ||| 0xC0) = 0xC0 + c / 64 := by
        rw [or_mark2 _ (by omega)]; unfold uint8_t; omega
      simp [h1, h2, hs, utf8Bytes, encode_put_first, encode_put_shift, firstByteMark,
        mark_mask, Nat.shiftRight_eq_div_pow, e]
    · by_cases h3 : 0xD800 ≤ c ∧ c ≤ 0xDFFF
      · have hs : ¬ (c ≤ 0x10FFFF ∧ ¬ (0xD800 ≤ c ∧ c ≤ 0xDFFF)) := by omega
        rw [if_neg hs, hrepl]
        simp [h1, h2, h3, encode_put_first, encode_put_shift, firstByteMark,
          mark_mask, Nat.shiftRight_eq_div_pow]
        decide
      · by_cases h4 : c < 0x10000
        · have hs : c ≤ 0x10FFFF ∧ ¬ (0xD800 ≤ c ∧ c ≤ 0xDFFF) := by omega
          have e : uint8_t (c / 64 / 64 ||| 0xE0) = 0xE0 + c / 4096 := by
            rw [or_mark3 _ (by omega)]; unfold uint8_t; omega
          simp [h1, h2, h3, h4, hs, utf8Bytes, encode_put_first, encode_put_shift,
            firstByteMark, mark_mask, Nat.shiftRight_eq_div_pow, e]
        · by_cases h5 : c ≤ 0x10FFFF
          · have hs : c ≤ 0x10FFFF ∧ ¬ (0xD800 ≤ c ∧ c ≤ 0xDFFF) := by omega
            have e : uint8_t (c / 64 / 64 / 64 ||| 0xF0) = 0xF0 + c / 262144 := by
              rw [or_mark4 _ (by omega)]; unfold uint8_t; omega
            have e2 : c / 64 / 64 % 64 = c / 4096 % 64 := by omega
            simp [h1, h2, h3, h4, h5, hs, utf8Bytes, encode_put_first, encode_put_shift,
              firstByteMark, mark_mask, Nat.shiftRight_eq_div_pow, e, e2]
          · have hs : ¬ (c ≤ 0x10FFFF ∧ ¬ (0xD800 ≤ c ∧ c ≤ 0xDFFF)) := by omega
            rw [if_neg hs, hrepl]
            simp [h1, h2, h3, h4, h5, encode_put_first, encode_put_shift, firstByteMark,
              mark_mask, Nat.shiftRight_eq_div_pow]
            decide

theorem substituted_scalar {c : Nat} (h : IsScalar c) : substituted c = c := by
  simp [substituted, h]

theorem substituted_other {c : Nat} (h : ¬ IsScalar c) : substituted c = 0xFFFD := by
  simp [substituted, h]

theorem u16_encode_eq (c : Nat) (target : List Nat) :
    u16.encode c target = target ++ utf16Units (substituted c) := by
  unfold u16.encode
  simp only [UNI_SUR_HIGH_START, UNI_SUR_LOW_END, UNI_MAX_UTF16, UNI_REPLACEMENT_CHAR,
    UNI_MAX_BMP, UNI_SUR_LOW_START, halfBase, halfShift, and_halfMask,
    Nat.shiftRight_eq_div_pow, char16_t, char32_t]
  by_cases h1 : c ≤ 0xFFFF
  · by_cases h3 : 0xD800 ≤ c ∧ c ≤ 0xDFFF
    · have hs : ¬ IsScalar c := by unfold IsScalar; omega
      rw [substituted_other hs]
      simp [h1, h3, utf16Units]
    · have hs : IsScalar c := by unfold IsScalar; omega
      have h1' : c < 0x10000 := by omega
      have e : c % 65536 = c := by omega
      rw [substituted_scalar hs]
      simp [h1, h3, h1', e, utf16Units]
  · by_cases h5 : c > 0x10FFFF
    · have hs : ¬ IsScalar c := by unfold IsScalar; omega
      rw [substituted_other hs]
      simp [h1, h5, utf16Units]
    · have hs : IsScalar c := by unfold IsScalar; omega
      have h1' : ¬ c < 0x10000 := by omega
      have e1 : ((c + 4294901760) % 4294967296 / 1024 + 55296) % 65536
          = 0xD800 + (c - 0x10000) / 1024 := by omega
      have e2 : ((c + 4294901760) % 4294967296 % 1024 + 56320) % 65536
          = 0xDC00 + (c - 0x10000) % 1024 := by omega
      rw [substituted_scalar hs]
      simp [h1, h5, h1', e1, e2, utf16Units]

/-! ## The 8-bit decoder -/

set_option maxRecDepth 100000 in
theorem trailingBytes_eq : ∀ b, b < 256 → trailingBytesForUTF8.getD b 0 =
    (if b < 0xC0 then 0 else if b < 0xE0 then 1 else if b < 0xF0 then 2
     else if b < 0xF8 then 3 else if b < 0xFC then 4 else 5) := by
  decide

theorem uint8_t_of_lt {b : Nat} (h : b < 256) : uint8_t b = b := by
  unfold uint8_t; omega

theorem isLegalUTF8_one (b0 : Nat) (tl : List Nat) (h0 : b0 < 256) :
    isLegalUTF8 (b0 :: tl) 1 = true ↔ (b0 < 0x80 ∨ (0xC2 ≤ b0 ∧ b0 ≤ 0xF4)) := by
  simp only [isLegalUTF8, isLegalUTF8_case1, isLegalUTF8_end, List.getD_cons_zero,
    uint8_t_of_lt h0]
  norm_num
  omega

theorem isLegalUTF8_two (b0 b1 : Nat) (tl : List Nat) (h0 : b0 < 256) (h1 : b1 < 256) :
    isLegalUTF8 (b0 :: b1 :: tl) 2 = true ↔
      ((0x80 ≤ b1 ∧ b1 ≤ 0xBF) ∧ (b0 = 0xE0 → 0xA0 ≤ b1) ∧ (b0 = 0xED → b1 ≤ 0x9F) ∧
       (b0 = 0xF0 → 0x90 ≤ b1) ∧ (b0 = 0xF4 → b1 ≤ 0x8F) ∧
       (b0 < 0x80 ∨ (0xC2 ≤ b0 ∧ b0 ≤ 0xF4))) := by
  simp only [isLegalUTF8, isLegalUTF8_case2, isLegalUTF8_case1, isLegalUTF8_end,
    List.getD_cons_zero, List.getD_cons_succ, uint8_t_of_lt h0, uint8_t_of_lt h1]
  norm_num
  split_ifs <;> omega

theorem isLegalUTF8_three (b0 b1 b2 : Nat) (tl : List Nat) (h2 : b2 < 256) :
    isLegalUTF8 (b0 :: b1 :: b2 :: tl) 3 = true ↔
      ((0x80 ≤ b2 ∧ b2 ≤ 0xBF) ∧ isLegalUTF8 (b0 :: b1 :: b2 :: tl) 2 = true) := by
  simp only [isLegalUTF8, isLegalUTF8_case3, List.getD_cons_succ, List.getD_cons_zero,
    uint8_t_of_lt h2]
  norm_num

theorem isLegalUTF8_four (b0 b1 b2 b3 : Nat) (tl : List Nat) (h3 : b3 < 256) :
    isLegalUTF8 (b0 :: b1 :: b2 :: b3 :: tl) 4 = true ↔
      ((0x80 ≤ b3 ∧ b3 ≤ 0xBF) ∧ isLegalUTF8 (b0 :: b1 :: b2 :: b3 :: tl) 3 = true) := by
  simp only [isLegalUTF8, isLegalUTF8_case4, List.getD_cons_succ, List.getD_cons_zero,
    uint8_t_of_lt h3]
  norm_num

theorem isLegalUTF8_long (source : List Nat) (n : Nat) (h : 4 < n) :
    isLegalUTF8 source n = false := by
  unfold isLegalUTF8
  simp only []
  rw [if_neg (by omega), if_neg (by omega), if_neg (by omega), if_neg (by omega)]

theorem str8_decode_one (b0 : Nat) (rest : List Nat) (h : b0 ≤ 0x7F) :
    str8.decode (b0 :: rest) = ⟨b0, rest, true⟩ := by
  have h0 : b0 < 256 := by omega
  have hl := (isLegalUTF8_one b0 rest h0).2 (by omega)
  have ht : trailingBytesForUTF8.getD b0 0 = 0 := by
    rw [trailingBytes_eq b0 h0, if_pos (by omega)]
  unfold str8.decode
  simp only [List.headD_cons, uint8_t_of_lt h0, ht]
  simp [hl, decode_add, offsetsFromUTF8, char32_t, uint8_t_of_lt h0]
  omega

theorem str8_decode_two (b0 b1 : Nat) (rest : List Nat) (h : Shape8 [b0, b1]) :
    str8.decode (b0 :: b1 :: rest) = ⟨utf8Value [b0, b1], rest, true⟩ := by
  simp only [Shape8] at h
  have h0 : b0 < 256 := by omega
  have h1 : b1 < 256 := by omega
  have hl := (isLegalUTF8_two b0 b1 rest h0 h1).2 (by omega)
  have ht : trailingBytesForUTF8.getD b0 0 = 1 := by
    rw [trailingBytes_eq b0 h0, if_neg (by omega), if_pos (by omega)]
  unfold str8.decode
  simp only [List.headD_cons, uint8_t_of_lt h0, ht]
  simp [hl, decode_add, decode_add_shift, offsetsFromUTF8, char32_t, uint8_t_of_lt h0,
    uint8_t_of_lt h1, Nat.shiftLeft_eq, utf8Value]
  omega

theorem str8_decode_three (b0 b1 b2 : Nat) (rest : List Nat) (h : Shape8 [b0, b1, b2]) :
    str8.decode (b0 :: b1 :: b2 :: rest) = ⟨utf8Value [b0, b1, b2], rest, true⟩ := by
  simp only [Shape8] at h
  have h0 : b0 < 256 := by omega
  have h1 : b1 < 256 := by omega
  have h2 : b2 < 256 := by omega
  have hl := (isLegalUTF8_three b0 b1 b2 rest h2).2
    ⟨by omega, (isLegalUTF8_two b0 b1 (b2 :: rest) h0 h1).2 (by omega)⟩
  have ht : trailingBytesForUTF8.getD b0 0 = 2 := by
    rw [trailingBytes_eq b0 h0, if_neg (by omega), if_neg (by omega), if_pos (by omega)]
  unfold str8.decode
  simp only [List.headD_cons, uint8_t_of_lt h0, ht]
  simp [hl, decode_add, decode_add_shift, offsetsFromUTF8, char32_t, uint8_t_of_lt h0,
    uint8_t_of_lt h1, uint8_t_of_lt h2, Nat.shiftLeft_eq, utf8Value]
  omega

theorem str8_decode_four (b0 b1 b2 b3 : Nat) (rest : List Nat)
    (h : Shape8 [b0, b1, b2, b3]) :
    str8.decode (b0 :: b1 :: b2 :: b3 :: rest) = ⟨utf8Value [b0, b1, b2, b3], rest, true⟩ := by
  simp only [Shape8] at h
  have h0 : b0 < 256 := by omega
  have h1 : b1 < 256 := by omega
  have h2 : b2 < 256 := by omega
  have h3 : b3 < 256 := by omega
  have hl := (isLegalUTF8_four b0 b1 b2 b3 rest h3).2
    ⟨by omega, (isLegalUTF8_three b0 b1 b2 (b3 :: rest) h2).2
      ⟨by omega, (isLegalUTF8_two b0 b1 (b2 :: b3 :: rest) h0 h1).2 (by omega)⟩⟩
  have ht : trailingBytesForUTF8.getD b0 0 = 3 := by
    rw [trailingBytes_eq b0 h0, if_neg (by omega), if_neg (by omega), if_neg (by omega),
      if_pos (by omega)]
  unfold str8.decode
  simp only [List.headD_cons, uint8_t_of_lt h0, ht]
  simp [hl, decode_add, decode_add_shift, offsetsFromUTF8, char32_t, uint8_t_of_lt h0,
    uint8_t_of_lt h1, uint8_t_of_lt h2, uint8_t_of_lt h3, Nat.shiftLeft_eq, utf8Value]
  omega

/-- Decoding a well-formed byte sequence followed by anything gives its code
point and leaves the cursor behind it. -/
theorem str8_decode_shape (chunk rest : List Nat) (h : Shape8 chunk) :
    str8.decode (chunk ++ rest) = ⟨utf8Value chunk, rest, true⟩ := by
  match chunk, h with
  | [b0], h => exact str8_decode_one b0 rest h
  | [b0, b1], h => exact str8_decode_two b0 b1 rest h
  | [b0, b1, b2], h => exact str8_decode_three b0 b1 b2 rest h
  | [b0, b1, b2, b3], h => exact str8_decode_four b0 b1 b2 b3 rest h

theorem str8_decode_ok_iff (source : List Nat) :
    (str8.decode source).ok = true ↔
      (trailingBytesForUTF8.getD (uint8_t (source.headD 0)) 0 < source.length ∧
       isLegalUTF8 source (trailingBytesForUTF8.getD (uint8_t (source.headD 0)) 0 + 1) = true) := by
  unfold str8.decode
  simp only []
  split
  · rename_i h1
    simp only [Bool.false_eq_true, false_iff]; omega
  · rename_i h1
    split
    · rename_i h2
      simp only [Bool.false_eq_true, false_iff]; tauto
    · rename_i h2
      simp only [true_iff]; exact ⟨by omega, by simpa using h2⟩

theorem str8_decode_fail (source : List Nat) (h : (str8.decode source).ok ≠ true) :
    str8.decode source = ⟨0, source, false⟩ := by
  have h' := mt (str8_decode_ok_iff source).2 h
  unfold str8.decode
  simp only []
  split
  · rfl
  · rename_i h1
    split
    · rfl
    · rename_i h2
      exact absurd ⟨by omega, by simpa using h2⟩ h'

/-- A successful 8-bit decode has read one well-formed byte sequence. -/
theorem str8_decode_ok_shape (src : List Nat) (hU : Units8 src) (hne : src ≠ [])
    (hok : (str8.decode src).ok = true) :
    ∃ chunk rest, src = chunk ++ rest ∧ Shape8 chunk := by
  obtain ⟨b0, tl, rfl⟩ := List.exists_cons_of_ne_nil hne
  have h0 : b0 < 256 := hU b0 (by simp)
  rw [str8_decode_ok_iff] at hok
  simp only [List.headD_cons, uint8_t_of_lt h0, trailingBytes_eq b0 h0] at hok
  obtain ⟨hlen, hleg⟩ := hok
  by_cases c0 : b0 < 0xC0
  · rw [if_pos c0] at hleg
    have := (isLegalUTF8_one b0 tl h0).1 hleg
    exact ⟨[b0], tl, rfl, by simp only [Shape8]; omega⟩
  · rw [if_neg c0] at hlen hleg
    by_cases c1 : b0 < 0xE0
    · rw [if_pos c1] at hlen hleg
      match tl, hlen, hleg, hU with
      | b1 :: rest, _, hleg, hU =>
        have h1 : b1 < 256 := hU b1 (by simp)
        have := (isLegalUTF8_two b0 b1 rest h0 h1).1 hleg
        exact ⟨[b0, b1], rest, rfl, by simp only [Shape8]; omega⟩
    · rw [if_neg c1] at hlen hleg
      by_cases c2 : b0 < 0xF0
      · rw [if_pos c2] at hlen hleg
        match tl, hlen, hleg, hU with
        | b1 :: b2 :: rest, _, hleg, hU =>
          have h1 : b1 < 256 := hU b1 (by simp)
          have h2 : b2 < 256 := hU b2 (by simp)
          have h := (isLegalUTF8_three b0 b1 b2 rest h2).1 hleg
          have := (isLegalUTF8_two b0 b1 (b2 :: rest) h0 h1).1 h.2
          exact ⟨[b0, b1, b2], rest, rfl, by simp only [Shape8]; omega⟩
      · rw [if_neg c2] at hlen hleg
        by_cases c3 : b0 < 0xF8
        · rw [if_pos c3] at hlen hleg
          match tl, hlen, hleg, hU with
          | b1 :: b2 :: b3 :: rest, _, hleg, hU =>
            have h1 : b1 < 256 := hU b1 (by simp)
            have h2 : b2 < 256 := hU b2 (by simp)
            have h3 : b3 < 256 := hU b3 (by simp)
            have h := (isLegalUTF8_four b0 b1 b2 b3 rest h3).1 hleg
            have h' := (isLegalUTF8_three b0 b1 b2 (b3 :: rest) h2).1 h.2
            have := (isLegalUTF8_two b0 b1 (b2 :: b3 :: rest) h0 h1).1 h'.2
            exact ⟨[b0, b1, b2, b3], rest, rfl, by simp only [Shape8]; omega⟩
        · rw [if_neg c3] at hleg
          rw [isLegalUTF8_long _ _ (by split_ifs <;> omega)] at hleg
          exact absurd hleg (by simp)

/-- The code point of a well-formed byte sequence is a scalar value whose
reference encoding is that sequence. -/
theorem shape8_value (chunk : List Nat) (h : Shape8 chunk) :
    IsScalar (utf8Value chunk) ∧ utf8Bytes (utf8Value chunk) = chunk := by
  match chunk, h with
  | [b0], h =>
    simp only [Shape8] at h
    simp only [utf8Value, utf8Bytes, IsScalar]
    exact ⟨by omega, by rw [if_pos (by omega)]⟩
  | [b0, b1], h =>
    simp only [Shape8] at h
    simp only [utf8Value, utf8Bytes, IsScalar]
    refine ⟨by omega, ?_⟩
    rw [if_neg (by omega), if_pos (by omega)]
    congr 1
    · omega
    · congr 1; omega
  | [b0, b1, b2], h =>
    simp only [Shape8] at h
    simp only [utf8Value, utf8Bytes, IsScalar]
    refine ⟨by omega, ?_⟩
    rw [if_neg (by omega), if_neg (by omega), if_pos (by omega)]
    congr 1
    · omega
    · congr 1
      · omega
      · congr 1; omega
  | [b0, b1, b2, b3], h =>
    simp only [Shape8] at h
    simp only [utf8Value, utf8Bytes, IsScalar]
    refine ⟨by omega, ?_⟩
    rw [if_neg (by omega), if_neg (by omega), if_neg (by omega)]
    congr 1
    · omega
    · congr 1
      · omega
      · congr 1
        · omega
        · congr 1; omega

/-- The reference encoding of a scalar value is a well-formed byte sequence
whose code point is that value. -/
theorem utf8Bytes_shape (c : Nat) (h : IsScalar c) :
    Shape8 (utf8Bytes c) ∧ utf8Value (utf8Bytes c) = c := by
  unfold IsScalar at h
  unfold utf8Bytes
  split_ifs with h1 h2 h3
  · exact ⟨by simp only [Shape8]; omega, rfl⟩
  · exact ⟨by simp only [Shape8]; omega, by simp only [utf8Value]; omega⟩
  · exact ⟨by simp only [Shape8]; omega, by simp only [utf8Value]; omega⟩
  · exact ⟨by simp only [Shape8]; omega, by simp only [utf8Value]; omega⟩

theorem utf8Bytes_ne_nil (c : Nat) : utf8Bytes c ≠ [] := by
  unfold utf8Bytes
  split_ifs <;> simp

theorem utf16Units_ne_nil (c : Nat) : utf16Units c ≠ [] := by
  unfold utf16Units
  split_ifs <;> simp

/-! ## The two loops -/

theorem is_valid_impl_of_walk {decode : List Nat → Decoded} (hp : Progress decode)
    {source cps : List Nat} (hw : Walk decode source cps) :
    ∀ steps, source.length ≤ steps → is_valid_impl decode steps source = some true := by
  induction hw with
  | done => intro steps _; cases steps <;> simp [is_valid_impl]
  | step source cps hne hok _ ih =>
    intro steps hlen
    have hpos : 0 < source.length := List.length_pos.2 hne
    obtain ⟨n, rfl⟩ : ∃ n, steps = n + 1 := ⟨steps - 1, by omega⟩
    have := hp source hne hok
    simp only [is_valid_impl, if_pos hne, hok, not_true_eq_false, if_false]
    exact ih n (by omega)

theorem convert_of_walk {decode : List Nat → Decoded} (hp : Progress decode)
    (encode : Nat → List Nat → List Nat) {source cps : List Nat}
    (hw : Walk decode source cps) :
    ∀ steps out, source.length ≤ steps →
      convert decode encode steps source out = some (cps.foldl (fun t c => encode c t) out) := by
  induction hw with
  | done => intro steps out _; cases steps <;> simp [convert]
  | step source cps hne hok _ ih =>
    intro steps out hlen
    have hpos : 0 < source.length := List.length_pos.2 hne
    obtain ⟨n, rfl⟩ : ∃ n, steps = n + 1 := ⟨steps - 1, by omega⟩
    have := hp source hne hok
    simp only [convert, if_pos hne, hok, not_true_eq_false, if_false, List.foldl_cons]
    exact ih n _ (by omega)

theorem walk_of_is_valid_impl {decode : List Nat → Decoded} :
    ∀ steps source, is_valid_impl decode steps source = some true →
      ∃ cps, Walk decode source cps := by
  intro steps
  induction steps with
  | zero =>
    intro source h
    by_cases hne : source ≠ []
    · simp [is_valid_impl, hne] at h
    · rw [not_not] at hne; subst hne; exact ⟨[], Walk.done⟩
  | succ n ih =>
    intro source h
    by_cases hne : source ≠ []
    · by_cases hok : (decode source).ok = true
      · simp only [is_valid_impl, if_pos hne, hok, not_true_eq_false, if_false] at h
        obtain ⟨cps, hw⟩ := ih _ h
        exact ⟨_, Walk.step source cps hne hok hw⟩
      · simp [is_valid_impl, hne, hok] at h
    · rw [not_not] at hne; subst hne; exact ⟨[], Walk.done⟩

theorem loops_of_no_walk {decode : List Nat → Decoded} (hp : Progress decode)
    (encode : Nat → List Nat → List Nat) :
    ∀ steps source, source.length ≤ steps → (¬ ∃ cps, Walk decode source cps) →
      is_valid_impl decode steps source = some false ∧
      ∀ out, convert decode encode steps source out = some [] := by
  intro steps
  induction steps with
  | zero =>
    intro source hlen hno
    have : source = [] := List.length_eq_zero.1 (by omega)
    subst this
    exact absurd ⟨[], Walk.done⟩ hno
  | succ n ih =>
    intro source hlen hno
    by_cases hne : source ≠ []
    · by_cases hok : (decode source).ok = true
      · have := hp source hne hok
        have hno' : ¬ ∃ cps, Walk decode (decode source).source cps := by
          rintro ⟨cps, hw⟩
          exact hno ⟨_, Walk.step source cps hne hok hw⟩
        have h := ih _ (by omega) hno'
        simp only [is_valid_impl, convert, if_pos hne, hok, not_true_eq_false, if_false]
        exact ⟨h.1, fun out => h.2 _⟩
      · simp [is_valid_impl, convert, hne, hok]
    · rw [not_not] at hne; subst hne
      exact absurd ⟨[], Walk.done⟩ hno

/-- With one step for each unit the validation loop always ends, and it
accepts exactly the inputs that have a walk. -/
theorem is_valid_impl_iff_walk {decode : List Nat → Decoded} (hp : Progress decode)
    (source : List Nat) :
    (is_valid_impl decode source.length source = some true ↔ ∃ cps, Walk decode source cps) ∧
    (is_valid_impl decode source.length source = some true ∨
     is_valid_impl decode source.length source = some false) := by
  by_cases h : ∃ cps, Walk decode source cps
  · obtain ⟨cps, hw⟩ := h
    have := is_valid_impl_of_walk hp hw _ (le_refl _)
    exact ⟨⟨fun _ => ⟨cps, hw⟩, fun _ => this⟩, Or.inl this⟩
  · have := (loops_of_no_walk hp (fun _ t => t) _ source (le_refl _) h).1
    exact ⟨⟨fun h' => absurd (walk_of_is_valid_impl _ _ h') h, fun h' => absurd h' h⟩,
      Or.inr this⟩

theorem walk_unique {decode : List Nat → Decoded} {source cps : List Nat}
    (hw : Walk decode source cps) : ∀ cps', Walk decode source cps' → cps = cps' := by
  induction hw with
  | done =>
    intro cps' hw'
    cases hw' with
    | done => rfl
    | step _ _ hne _ _ => exact absurd rfl hne
  | step source cps hne hok _ ih =>
    intro cps' hw'
    cases hw' with
    | done => exact absurd rfl hne
    | step _ cps'' _ _ hw'' => rw [ih _ hw'']

/-- A list of code points, each written by `enc` and read back by `decode`,
is the walk of its encoding. -/
theorem walk_flatMap {decode : List Nat → Decoded} (enc : Nat → List Nat) (P : Nat → Prop)
    (hne : ∀ c, enc c ≠ [])
    (hdec : ∀ c rest, P c → decode (enc c ++ rest) = ⟨c, rest, true⟩) :
    ∀ cps : List Nat, (∀ c ∈ cps, P c) → Walk decode (cps.flatMap enc) cps := by
  intro cps
  induction cps with
  | nil => intro _; exact Walk.done
  | cons c cps ih =>
    intro h
    have hc := hdec c (cps.flatMap enc) (h c (by simp))
    have hw := ih (fun c' hc' => h c' (by simp [hc']))
    have hstep := @Walk.step decode (enc c ++ cps.flatMap enc) cps
      (by simp [hne c]) (by rw [hc]) (by rw [hc]; exact hw)
    rw [hc] at hstep
    simpa [List.flatMap_cons] using hstep

/-! ## What the encoders append -/

theorem foldl_str8_encode (cps out : List Nat) :
    cps.foldl (fun t c => str8.encode c t) out
      = out ++ cps.flatMap (fun c => utf8Bytes (substituted c)) := by
  induction cps generalizing out with
  | nil => simp
  | cons c cps ih => rw [List.foldl_cons, ih, str8_encode_eq]; simp

theorem foldl_u16_encode (cps out : List Nat) :
    cps.foldl (fun t c => u16.encode c t) out
      = out ++ cps.flatMap (fun c => utf16Units (substituted c)) := by
  induction cps generalizing out with
  | nil => simp
  | cons c cps ih => rw [List.foldl_cons, ih, u16_encode_eq]; simp

theorem foldl_u32_encode (cps out : List Nat) :
    cps.foldl (fun t c => u32.encode c t) out = out ++ cps := by
  induction cps generalizing out with
  | nil => simp
  | cons c cps ih => rw [List.foldl_cons, ih]; simp [u32.encode]

theorem flatMap_substituted (enc : Nat → List Nat) (cps : List Nat)
    (h : ∀ c ∈ cps, IsScalar c) :
    cps.flatMap (fun c => enc (substituted c)) = cps.flatMap enc := by
  induction cps with
  | nil => rfl
  | cons c cps ih =>
    simp only [List.flatMap_cons]
    rw [substituted_scalar (h c (by simp)), ih (fun c' hc' => h c' (by simp [hc']))]

/-! ## Progress of the decoders -/

/-- A successful 8-bit decode moves the cursor over the lead byte and its
trailing bytes, at most three. -/
theorem str8_decode_source (source : List Nat) (hok : (str8.decode source).ok = true) :
    trailingBytesForUTF8.getD (uint8_t (source.headD 0)) 0 ≤ 3 ∧
    (str8.decode source).source
      = source.drop (trailingBytesForUTF8.getD (uint8_t (source.headD 0)) 0 + 1) := by
  obtain ⟨hlen, hleg⟩ := (str8_decode_ok_iff source).1 hok
  have hk : trailingBytesForUTF8.getD (uint8_t (source.headD 0)) 0 ≤ 3 := by
    by_contra hc
    rw [isLegalUTF8_long _ _ (by omega)] at hleg
    exact absurd hleg (by simp)
  refine ⟨hk, ?_⟩
  unfold str8.decode
  simp only []
  generalize trailingBytesForUTF8.getD (uint8_t (source.headD 0)) 0 = k at hlen hleg hk
  rw [if_neg (by omega), if_neg (by simpa using hleg)]
  have h4 : ∀ l : List Nat, l.tail.tail.tail.tail = l.drop 4 := by
    intro l; rcases l with _ | ⟨a, _ | ⟨b, _ | ⟨c, _ | ⟨d, l⟩⟩⟩⟩ <;> simp
  have h3 : ∀ l : List Nat, l.tail.tail.tail = l.drop 3 := by
    intro l; rcases l with _ | ⟨a, _ | ⟨b, _ | ⟨c, l⟩⟩⟩ <;> simp
  have h2 : ∀ l : List Nat, l.tail.tail = l.drop 2 := by
    intro l; rcases l with _ | ⟨a, _ | ⟨b, l⟩⟩ <;> simp
  have h1 : ∀ l : List Nat, l.tail = l.drop 1 := by
    intro l; rcases l with _ | ⟨a, l⟩ <;> simp
  obtain rfl | rfl | rfl | rfl : k = 0 ∨ k = 1 ∨ k = 2 ∨ k = 3 := by omega
  · exact h1 source
  · exact h2 source
  · exact h3 source
  · exact h4 source

theorem str8_progress : Progress str8.decode := by
  intro source hne hok
  have hpos : 0 < source.length := List.length_pos.2 hne
  rw [(str8_decode_source source hok).2, List.length_drop]
  omega

theorem u16_decode_plain (u : Nat) (rest : List Nat) (h : ¬ IsHigh u) :
    u16.decode (u :: rest) = ⟨u, rest, true⟩ := by
  unfold IsHigh at h
  unfold u16.decode
  simp only [List.headD_cons, List.tail_cons, UNI_SUR_HIGH_START, UNI_SUR_HIGH_END]
  rw [if_neg (by omega)]

theorem u16_decode_pair (hi lo : Nat) (rest : List Nat) (h : IsHigh hi) (l : IsLow lo) :
    u16.decode (hi :: lo :: rest)
      = ⟨0x10000 + (hi - 0xD800) * 1024 + (lo - 0xDC00), rest, true⟩ := by
  unfold IsHigh at h
  unfold IsLow at l
  unfold u16.decode
  simp only [List.headD_cons, List.tail_cons, UNI_SUR_HIGH_START, UNI_SUR_HIGH_END,
    UNI_SUR_LOW_START, UNI_SUR_LOW_END, halfShift, halfBase, char32_t, Nat.shiftLeft_eq]
  rw [if_pos (by omega), if_pos (by simp), if_pos (by omega)]
  simp only [Decoded.mk.injEq, and_true]
  omega

theorem u16_decode_unpaired (hi : Nat) (rest : List Nat) (h : IsHigh hi)
    (hrest : ∀ lo tl, rest = lo :: tl → ¬ IsLow lo) :
    u16.decode (hi :: rest) = ⟨hi, rest, false⟩ := by
  unfold IsHigh at h
  unfold u16.decode
  simp only [List.headD_cons, List.tail_cons, UNI_SUR_HIGH_START, UNI_SUR_HIGH_END,
    UNI_SUR_LOW_START, UNI_SUR_LOW_END]
  rw [if_pos (by omega)]
  rcases rest with _ | ⟨lo, tl⟩
  · simp
  · have := hrest lo tl rfl
    unfold IsLow at this
    rw [if_pos (by simp), List.headD_cons, if_neg (by omega)]

theorem u16_progress : Progress u16.decode := by
  intro source hne hok
  obtain ⟨u, rest, rfl⟩ := List.exists_cons_of_ne_nil hne
  by_cases hu : IsHigh u
  · rcases rest with _ | ⟨lo, tl⟩
    · rw [u16_decode_unpaired u [] hu (by simp)] at hok
      exact absurd hok (by simp)
    · by_cases hl : IsLow lo
      · rw [u16_decode_pair u lo tl hu hl]; simp; omega
      · rw [u16_decode_unpaired u (lo :: tl) hu
          (by intro lo' tl' e; cases e; exact hl)] at hok
        exact absurd hok (by simp)
  · rw [u16_decode_plain u rest hu]; simp

theorem u32_progress : Progress u32.decode := by
  intro source hne _
  obtain ⟨u, rest, rfl⟩ := List.exists_cons_of_ne_nil hne
  simp [u32.decode]

/-- Every 32-bit sequence is its own walk. -/
theorem u32_walk (x : List Nat) : Walk u32.decode x x := by
  have h := @walk_flatMap u32.decode (fun c => [c]) (fun _ => True)
    (by simp) (by intro c rest _; simp [u32.decode]) x (by simp)
  have e : x.flatMap (fun c => [c]) = x := by
    induction x with
    | nil => rfl
    | cons a x ih => simp [List.flatMap_cons, ih]
  rwa [e] at h

/-- The 16-bit decoder reads back the reference UTF-16 units of a scalar value. -/
theorem u16_decode_utf16Units (c : Nat) (rest : List Nat) (h : IsScalar c) :
    u16.decode (utf16Units c ++ rest) = ⟨c, rest, true⟩ := by
  unfold IsScalar at h
  unfold utf16Units
  split_ifs with h1
  · exact u16_decode_plain c rest (by unfold IsHigh; omega)
  · have := u16_decode_pair (0xD800 + (c - 0x10000) / 1024) (0xDC00 + (c - 0x10000) % 1024)
      rest (by unfold IsHigh; omega) (by unfold IsLow; omega)
    simp only [List.cons_append, List.nil_append]
    rw [this]
    simp only [Decoded.mk.injEq, and_true]
    omega

/-- The 8-bit decoder reads back the reference UTF-8 bytes of a scalar value. -/
theorem str8_decode_utf8Bytes (c : Nat) (rest : List Nat) (h : IsScalar c) :
    str8.decode (utf8Bytes c ++ rest) = ⟨c, rest, true⟩ := by
  have hs := utf8Bytes_shape c h
  rw [str8_decode_shape _ rest hs.1, hs.2]

theorem walk_u16_of_scalars (cps : List Nat) (h : ∀ c ∈ cps, IsScalar c) :
    Walk u16.decode (cps.flatMap utf16Units) cps :=
  walk_flatMap utf16Units IsScalar utf16Units_ne_nil
    (fun c rest hc => u16_decode_utf16Units c rest hc) cps h

theorem walk_str8_of_scalars (cps : List Nat) (h : ∀ c ∈ cps, IsScalar c) :
    Walk str8.decode (cps.flatMap utf8Bytes) cps :=
  walk_flatMap utf8Bytes IsScalar utf8Bytes_ne_nil
    (fun c rest hc => str8_decode_utf8Bytes c rest hc) cps h

/-- The walk of a valid 8-bit sequence yields scalar values only, and the
sequence is the concatenation of their reference encodings. -/
theorem walk_str8_spec {x cps : List Nat} (hw : Walk str8.decode x cps) (hU : Units8 x) :
    (∀ c ∈ cps, IsScalar c) ∧ x = cps.flatMap utf8Bytes := by
  induction hw with
  | done => simp
  | step source cps hne hok _ ih =>
    obtain ⟨chunk, rest, rfl, hs⟩ := str8_decode_ok_shape source hU hne hok
    have hd := str8_decode_shape chunk rest hs
    have hv := shape8_value chunk hs
    rw [hd] at ih ⊢
    simp only at ih ⊢
    have hU' : Units8 rest := fun b hb => hU b (by simp [hb])
    obtain ⟨ih1, ih2⟩ := ih hU'
    refine ⟨?_, ?_⟩
    · intro c hc
      rcases List.mem_cons.1 hc with rfl | hc
      · exact hv.1
      · exact ih1 c hc
    · rw [List.flatMap_cons, hv.2, ← ih2]

/-! ## The conversions along a walk -/

theorem str8_is_valid_iff (x : List Nat) :
    str8.is_valid x = some true ↔ ∃ cps, Walk str8.decode x cps :=
  (is_valid_impl_iff_walk str8_progress x).1

theorem u16_is_valid_iff (x : List Nat) :
    u16.is_valid x = some true ↔ ∃ cps, Walk u16.decode x cps :=
  (is_valid_impl_iff_walk u16_progress x).1

theorem str8_is_valid_total (x : List Nat) :
    str8.is_valid x = some true ∨ str8.is_valid x = some false :=
  (is_valid_impl_iff_walk str8_progress x).2

theorem u16_is_valid_total (x : List Nat) :
    u16.is_valid x = some true ∨ u16.is_valid x = some false :=
  (is_valid_impl_iff_walk u16_progress x).2

theorem str8_as_u16_of_walk {x cps : List Nat} (hw : Walk str8.decode x cps) :
    str8.as_u16 x = some (cps.flatMap (fun c => utf16Units (substituted c))) := by
  unfold str8.as_u16
  rw [convert_of_walk str8_progress _ hw _ _ (le_refl _), foldl_u16_encode, List.nil_append]

theorem str8_as_u32_of_walk {x cps : List Nat} (hw : Walk str8.decode x cps) :
    str8.as_u32 x = some cps := by
  unfold str8.as_u32
  rw [convert_of_walk str8_progress _ hw _ _ (le_refl _), foldl_u32_encode, List.nil_append]

theorem u16_as_str8_of_walk {x cps : List Nat} (hw : Walk u16.decode x cps) :
    u16.as_str8 x = some (cps.flatMap (fun c => utf8Bytes (substituted c))) := by
  unfold u16.as_str8
  rw [convert_of_walk u16_progress _ hw _ _ (le_refl _), foldl_str8_encode, List.nil_append]

theorem u16_as_u32_of_walk {x cps : List Nat} (hw : Walk u16.decode x cps) :
    u16.as_u32 x = some cps := by
  unfold u16.as_u32
  rw [convert_of_walk u16_progress _ hw _ _ (le_refl _), foldl_u32_encode, List.nil_append]

theorem u32_as_str8_eq (x : List Nat) :
    u32.as_str8 x = some (x.flatMap (fun c => utf8Bytes (substituted c))) := by
  unfold u32.as_str8
  rw [convert_of_walk u32_progress _ (u32_walk x) _ _ (le_refl _), foldl_str8_encode,
    List.nil_append]

theorem u32_as_u16_eq (x : List Nat) :
    u32.as_u16 x = some (x.flatMap (fun c => utf16Units (substituted c))) := by
  unfold u32.as_u16
  rw [convert_of_walk u32_progress _ (u32_walk x) _ _ (le_refl _), foldl_u16_encode,
    List.nil_append]

theorem str8_invalid (x : List Nat) (h : str8.is_valid x ≠ some true) :
    str8.is_valid x = some false ∧ str8.as_u16 x = some [] ∧ str8.as_u32 x = some [] := by
  have hno : ¬ ∃ cps, Walk str8.decode x cps := fun hw => h ((str8_is_valid_iff x).2 hw)
  exact ⟨(loops_of_no_walk str8_progress u16.encode _ x (le_refl _) hno).1,
    (loops_of_no_walk str8_progress u16.encode _ x (le_refl _) hno).2 [],
    (loops_of_no_walk str8_progress u32.encode _ x (le_refl _) hno).2 []⟩

theorem u16_invalid (x : List Nat) (h : u16.is_valid x ≠ some true) :
    u16.is_valid x = some false ∧ u16.as_str8 x = some [] ∧ u16.as_u32 x = some [] := by
  have hno : ¬ ∃ cps, Walk u16.decode x cps := fun hw => h ((u16_is_valid_iff x).2 hw)
  exact ⟨(loops_of_no_walk u16_progress str8.encode _ x (le_refl _) hno).1,
    (loops_of_no_walk u16_progress str8.encode _ x (le_refl _) hno).2 [],
    (loops_of_no_walk u16_progress u32.encode _ x (le_refl _) hno).2 []⟩

theorem walk_ne_nil {decode : List Nat → Decoded} {x cps : List Nat}
    (hw : Walk decode x cps) (hne : x ≠ []) : cps ≠ [] := by
  cases hw with
  | done => exact absurd rfl hne
  | step _ _ _ _ _ => simp

theorem flatMap_ne_nil (enc : Nat → List Nat) (henc : ∀ c, enc c ≠ []) (cps : List Nat)
    (h : cps ≠ []) : cps.flatMap enc ≠ [] := by
  obtain ⟨c, tl, rfl⟩ := List.exists_cons_of_ne_nil h
  simp [List.flatMap_cons, henc c]

theorem length_le_flatMap (enc : Nat → List Nat) (henc : ∀ c, enc c ≠ []) (cps : List Nat) :
    cps.length ≤ (cps.flatMap enc).length := by
  induction cps with
  | nil => simp
  | cons c cps ih =>
    have := List.length_pos.2 (henc c)
    simp only [List.flatMap_cons, List.length_append, List.length_cons]
    omega

/-! ## C1 -/

/-- C1: UTF-8 round trip. For every 8-bit sequence `x` that `is_valid` accepts,
`as_str8 (as_u16 x) = x` and `as_str8 (as_u32 x) = x`, byte for byte; `x` may
hold NUL bytes anywhere. -/
theorem utf8_round_trip (x : List Nat) (hx : Units8 x) (hv : str8.is_valid x = some true) :
    (str8.as_u16 x).bind u16.as_str8 = some x ∧
    (str8.as_u32 x).bind u32.as_str8 = some x := by
  obtain ⟨cps, hw⟩ := (str8_is_valid_iff x).1 hv
  obtain ⟨hsc, hx'⟩ := walk_str8_spec hw hx
  constructor
  · rw [str8_as_u16_of_walk hw, flatMap_substituted utf16Units cps hsc, Option.some_bind,
      u16_as_str8_of_walk (walk_u16_of_scalars cps hsc), flatMap_substituted utf8Bytes cps hsc,
      ← hx']
  · rw [str8_as_u32_of_walk hw, Option.some_bind, u32_as_str8_eq,
      flatMap_substituted utf8Bytes cps hsc, ← hx']

theorem utf8_round_trip_witness :
    Units8 [0x61, 0x00, 0xC2, 0xA2, 0xE2, 0x82, 0xAC, 0xF0, 0x90, 0x8D, 0x88] ∧
    str8.is_valid [0x61, 0x00, 0xC2, 0xA2, 0xE2, 0x82, 0xAC, 0xF0, 0x90, 0x8D, 0x88] = some true ∧
    (str8.as_u16 [0x61, 0x00, 0xC2, 0xA2, 0xE2, 0x82, 0xAC, 0xF0, 0x90, 0x8D, 0x88]).bind
        u16.as_str8 = some [0x61, 0x00, 0xC2, 0xA2, 0xE2, 0x82, 0xAC, 0xF0, 0x90, 0x8D, 0x88] ∧
    (str8.as_u32 [0x61, 0x00, 0xC2, 0xA2, 0xE2, 0x82, 0xAC, 0xF0, 0x90, 0x8D, 0x88]).bind
        u32.as_str8 = some [0x61, 0x00, 0xC2, 0xA2, 0xE2, 0x82, 0xAC, 0xF0, 0x90, 0x8D, 0x88] :=
  ⟨by decide, by decide,
    utf8_round_trip [0x61, 0x00, 0xC2, 0xA2, 0xE2, 0x82, 0xAC, 0xF0, 0x90, 0x8D, 0x88]
      (by decide) (by decide)⟩

/-! ## C2 -/

theorem shape8_ne_nil {p : List Nat} (h : Shape8 p) : p ≠ [] := by
  rintro rfl
  simp [Shape8] at h

theorem walk_str8_of_parts (parts : List (List Nat)) (h : ∀ p ∈ parts, Shape8 p) :
    Walk str8.decode parts.flatten (parts.map utf8Value) := by
  induction parts with
  | nil => exact Walk.done
  | cons p ps ih =>
    have hp := h p (by simp)
    have hd := str8_decode_shape p ps.flatten hp
    have hw := ih (fun q hq => h q (by simp [hq]))
    have hstep := @Walk.step str8.decode (p ++ ps.flatten) (ps.map utf8Value)
      (by simp [shape8_ne_nil hp]) (by rw [hd]) (by rw [hd]; exact hw)
    rw [hd] at hstep
    simpa using hstep

theorem wellFormed8_iff_walk (x : List Nat) (hx : Units8 x) :
    WellFormed8 x ↔ ∃ cps, Walk str8.decode x cps := by
  constructor
  · rintro ⟨parts, hp, rfl⟩
    exact ⟨_, walk_str8_of_parts parts hp⟩
  · rintro ⟨cps, hw⟩
    obtain ⟨hsc, hx'⟩ := walk_str8_spec hw hx
    refine ⟨cps.map utf8Bytes, ?_, ?_⟩
    · intro p hp
      obtain ⟨c, hc, rfl⟩ := List.mem_map.1 hp
      exact (utf8Bytes_shape c (hsc c hc)).1
    · rw [hx', List.flatMap_def]

/-- C2: UTF-8 validity is exactly well-formedness. For every 8-bit sequence `x`,
`is_valid x` is true if and only if `x` is a concatenation of zero or more byte
sequences of the shapes `[00..7F]`, `[C2..DF][80..BF]`, `[E0][A0..BF][80..BF]`,
`[E1..EC or EE..EF][80..BF][80..BF]`, `[ED][80..9F][80..BF]`,
`[F0][90..BF][80..BF][80..BF]`, `[F1..F3][80..BF][80..BF][80..BF]`,
`[F4][80..8F][80..BF][80..BF]`; otherwise it is false. -/
theorem utf8_valid_iff_well_formed (x : List Nat) (hx : Units8 x) :
    (str8.is_valid x = some true ↔ WellFormed8 x) ∧
    (str8.is_valid x = some false ↔ ¬ WellFormed8 x) := by
  have h1 : str8.is_valid x = some true ↔ WellFormed8 x := by
    rw [str8_is_valid_iff, wellFormed8_iff_walk x hx]
  refine ⟨h1, ?_⟩
  constructor
  · intro hf hw
    rw [h1.2 hw] at hf
    exact absurd hf (by simp)
  · intro hn
    exact (str8_invalid x (fun hv => hn (h1.1 hv))).1

theorem utf8_valid_iff_well_formed_witness :
    Units8 [0x24, 0xE0, 0xA0, 0x80, 0xF4, 0x8F, 0xBF, 0xBF] ∧
    str8.is_valid [0x24, 0xE0, 0xA0, 0x80, 0xF4, 0x8F, 0xBF, 0xBF] = some true ∧
    WellFormed8 [0x24, 0xE0, 0xA0, 0x80, 0xF4, 0x8F, 0xBF, 0xBF] ∧
    Units8 [0x24, 0xE0, 0x9F, 0x80] ∧
    str8.is_valid [0x24, 0xE0, 0x9F, 0x80] = some false ∧
    ¬ WellFormed8 [0x24, 0xE0, 0x9F, 0x80] :=
  ⟨by decide, by decide,
   (utf8_valid_iff_well_formed [0x24, 0xE0, 0xA0, 0x80, 0xF4, 0x8F, 0xBF, 0xBF]
     (by decide)).1.1 (by decide),
   by decide, by decide,
   (utf8_valid_iff_well_formed [0x24, 0xE0, 0x9F, 0x80] (by decide)).2.1 (by decide)⟩

/-! ## C3 -/

theorem nonEmptyResult_of_walk {decode : List Nat → Decoded} {x cps : List Nat}
    (hw : Walk decode x cps) (hne : x ≠ []) (enc : Nat → List Nat) (henc : ∀ c, enc c ≠ [])
    (r : Option (List Nat)) (hr : r = some (cps.flatMap enc)) : NonEmptyResult r :=
  ⟨_, hr, flatMap_ne_nil enc henc cps (walk_ne_nil hw hne)⟩

theorem not_nonEmptyResult_nil : ¬ NonEmptyResult (some []) := by
  rintro ⟨y, hy, hne⟩
  cases hy
  exact hne rfl

/-- C3: validity agreement and all-or-nothing conversion. For every non-empty
sequence `x` of the 8-bit, 16-bit or 32-bit form and each conversion out of its
form, the result is non-empty if and only if `is_valid x` is true, and when
`is_valid x` is not true the result is the empty sequence, never a part of the
output. -/
theorem validity_agreement (x : List Nat) (hne : x ≠ []) :
    ((NonEmptyResult (str8.as_u16 x) ↔ str8.is_valid x = some true) ∧
     (NonEmptyResult (str8.as_u32 x) ↔ str8.is_valid x = some true) ∧
     (str8.is_valid x ≠ some true →
        str8.is_valid x = some false ∧ str8.as_u16 x = some [] ∧ str8.as_u32 x = some [])) ∧
    ((NonEmptyResult (u16.as_str8 x) ↔ u16.is_valid x = some true) ∧
     (NonEmptyResult (u16.as_u32 x) ↔ u16.is_valid x = some true) ∧
     (u16.is_valid x ≠ some true →
        u16.is_valid x = some false ∧ u16.as_str8 x = some [] ∧ u16.as_u32 x = some [])) ∧
    ((NonEmptyResult (u32.as_str8 x) ↔ u32.is_valid x = true) ∧
     (NonEmptyResult (u32.as_u16 x) ↔ u32.is_valid x = true)) := by
  have h8 := fun c => utf8Bytes_ne_nil (substituted c)
  have h16 := fun c => utf16Units_ne_nil (substituted c)
  have h32 : ∀ c : Nat, (fun c => [c]) c ≠ [] := by intro c; simp
  have e32 : ∀ cps : List Nat, cps = cps.flatMap (fun c => [c]) := by
    intro cps
    induction cps with
    | nil => rfl
    | cons a l ih => simp [List.flatMap_cons, ← ih]
  refine ⟨⟨?_, ?_, str8_invalid x⟩, ⟨?_, ?_, u16_invalid x⟩, ?_, ?_⟩
  · constructor
    · intro hr
      by_contra hv
      rw [(str8_invalid x hv).2.1] at hr
      exact not_nonEmptyResult_nil hr
    · intro hv
      obtain ⟨cps, hw⟩ := (str8_is_valid_iff x).1 hv
      exact nonEmptyResult_of_walk hw hne _ h16 _ (str8_as_u16_of_walk hw)
  · constructor
    · intro hr
      by_contra hv
      rw [(str8_invalid x hv).2.2] at hr
      exact not_nonEmptyResult_nil hr
    · intro hv
      obtain ⟨cps, hw⟩ := (str8_is_valid_iff x).1 hv
      exact nonEmptyResult_of_walk hw hne _ h32 _ (by rw [str8_as_u32_of_walk hw, ← e32])
  · constructor
    · intro hr
      by_contra hv
      rw [(u16_invalid x hv).2.1] at hr
      exact not_nonEmptyResult_nil hr
    · intro hv
      obtain ⟨cps, hw⟩ := (u16_is_valid_iff x).1 hv
      exact nonEmptyResult_of_walk hw hne _ h8 _ (u16_as_str8_of_walk hw)
  · constructor
    · intro hr
      by_contra hv
      rw [(u16_invalid x hv).2.2] at hr
      exact not_nonEmptyResult_nil hr
    · intro hv
      obtain ⟨cps, hw⟩ := (u16_is_valid_iff x).1 hv
      exact nonEmptyResult_of_walk hw hne _ h32 _ (by rw [u16_as_u32_of_walk hw, ← e32])
  · exact ⟨fun _ => rfl, fun _ => nonEmptyResult_of_walk (u32_walk x) hne _ h8 _ (u32_as_str8_eq x)⟩
  · exact ⟨fun _ => rfl, fun _ => nonEmptyResult_of_walk (u32_walk x) hne _ h16 _ (u32_as_u16_eq x)⟩

theorem validity_agreement_witness :
    [0x61, 0x62, 0xE0, 0x9F, 0x9F] ≠ [] ∧
    (str8.is_valid [0x61, 0x62, 0xE0, 0x9F, 0x9F] = some false ∧
     str8.as_u16 [0x61, 0x62, 0xE0, 0x9F, 0x9F] = some [] ∧
     str8.as_u32 [0x61, 0x62, 0xE0, 0x9F, 0x9F] = some []) ∧
    (NonEmptyResult (u16.as_str8 [0x61, 0x62, 0xE0, 0x9F, 0x9F]) ↔
      u16.is_valid [0x61, 0x62, 0xE0, 0x9F, 0x9F] = some true) :=
  ⟨by decide,
   (validity_agreement [0x61, 0x62, 0xE0, 0x9F, 0x9F] (by decide)).1.2.2 (by decide),
   (validity_agreement [0x61, 0x62, 0xE0, 0x9F, 0x9F] (by decide)).2.1.1⟩

/-! ## C4 -/

/-- C4: UTF-32 round trip. For every 32-bit sequence `x` all of whose units are
Unicode scalar values, `as_u32 (as_str8 x) = x` and `as_u32 (as_u16 x) = x`. -/
theorem utf32_round_trip (x : List Nat) (hx : ∀ c ∈ x, IsScalar c) :
    (u32.as_str8 x).bind str8.as_u32 = some x ∧
    (u32.as_u16 x).bind u16.as_u32 = some x := by
  constructor
  · rw [u32_as_str8_eq, flatMap_substituted utf8Bytes x hx, Option.some_bind,
      str8_as_u32_of_walk (walk_str8_of_scalars x hx)]
  · rw [u32_as_u16_eq, flatMap_substituted utf16Units x hx, Option.some_bind,
      u16_as_u32_of_walk (walk_u16_of_scalars x hx)]

theorem utf32_round_trip_witness :
    (∀ c ∈ [0x24, 0, 0xA2, 0x20AC, 0xD7FF, 0xE000, 0x10348, 0x10FFFF], IsScalar c) ∧
    (u32.as_str8 [0x24, 0, 0xA2, 0x20AC, 0xD7FF, 0xE000, 0x10348, 0x10FFFF]).bind str8.as_u32
      = some [0x24, 0, 0xA2, 0x20AC, 0xD7FF, 0xE000, 0x10348, 0x10FFFF] ∧
    (u32.as_u16 [0x24, 0, 0xA2, 0x20AC, 0xD7FF, 0xE000, 0x10348, 0x10FFFF]).bind u16.as_u32
      = some [0x24, 0, 0xA2, 0x20AC, 0xD7FF, 0xE000, 0x10348, 0x10FFFF] :=
  ⟨by decide,
   utf32_round_trip [0x24, 0, 0xA2, 0x20AC, 0xD7FF, 0xE000, 0x10348, 0x10FFFF] (by decide)⟩

/-! ## C5 -/

theorem noLoneLow_tail {u : Nat} {rest : List Nat} (hn : NoLoneLow (u :: rest))
    (hu : ¬ IsHigh u) : NoLoneLow rest := by
  intro i hi hlow
  have h := hn (i + 1) (by simp only [List.length_cons]; omega)
    (by simpa only [List.getD_cons_succ] using hlow)
  rcases i with _ | j
  · exact absurd (by simpa using h.2) hu
  · exact ⟨by omega, by simpa using h.2⟩

theorem noLoneLow_tail_tail {u lo : Nat} {tl : List Nat} (hn : NoLoneLow (u :: lo :: tl))
    (hl : IsLow lo) : NoLoneLow tl := by
  intro i hi hlow
  have h := hn (i + 2) (by simp only [List.length_cons]; omega)
    (by simpa only [List.getD_cons_succ] using hlow)
  rcases i with _ | j
  · have h2 : IsHigh lo := by simpa using h.2
    unfold IsHigh at h2
    unfold IsLow at hl
    omega
  · exact ⟨by omega, by simpa using h.2⟩

/-- The walk of a 16-bit sequence without a lone low surrogate yields scalar
values only, and the sequence is the concatenation of their reference units. -/
theorem walk_u16_spec {x cps : List Nat} (hw : Walk u16.decode x cps) (hU : Units16 x)
    (hn : NoLoneLow x) : (∀ c ∈ cps, IsScalar c) ∧ x = cps.flatMap utf16Units := by
  induction hw with
  | done => simp
  | step source cps hne hok _ ih =>
    obtain ⟨u, rest, rfl⟩ := List.exists_cons_of_ne_nil hne
    have hu16 : u < 65536 := hU u (by simp)
    have hnl : ¬ IsLow u := fun hl => absurd (hn 0 (by simp) (by simpa using hl)).1 (by omega)
    by_cases hu : IsHigh u
    · rcases rest with _ | ⟨lo, tl⟩
      · rw [u16_decode_unpaired u [] hu (by simp)] at hok
        exact absurd hok (by simp)
      · by_cases hl : IsLow lo
        · rw [u16_decode_pair u lo tl hu hl] at ih ⊢
          simp only at ih ⊢
          obtain ⟨ih1, ih2⟩ := ih (fun b hb => hU b (by simp [hb])) (noLoneLow_tail_tail hn hl)
          unfold IsHigh at hu
          unfold IsLow at hl
          refine ⟨?_, ?_⟩
          · intro c hc
            rcases List.mem_cons.1 hc with h | hc
            · rw [h]; unfold IsScalar; omega
            · exact ih1 c hc
          · rw [List.flatMap_cons, ← ih2]
            unfold utf16Units
            rw [if_neg (by omega)]
            simp only [List.cons_append, List.nil_append, List.cons.injEq, and_true, true_and]
            omega
        · rw [u16_decode_unpaired u (lo :: tl) hu
            (by intro lo' tl' e; cases e; exact hl)] at hok
          exact absurd hok (by simp)
    · rw [u16_decode_plain u rest hu] at ih ⊢
      simp only at ih ⊢
      obtain ⟨ih1, ih2⟩ := ih (fun b hb => hU b (by simp [hb])) (noLoneLow_tail hn hu)
      unfold IsHigh at hu
      unfold IsLow at hnl
      refine ⟨?_, ?_⟩
      · intro c hc
        rcases List.mem_cons.1 hc with rfl | hc
        · unfold IsScalar; omega
        · exact ih1 c hc
      · rw [List.flatMap_cons, ← ih2]
        unfold utf16Units
        rw [if_pos (by omega)]
        rfl

/-- C5, as the code has it: UTF-16 round trip. For every 16-bit sequence `x`
that `is_valid` accepts and in which every low-surrogate unit comes right after
a high-surrogate unit, `as_u16 (as_str8 x) = x` and `as_u16 (as_u32 x) = x`. -/
theorem utf16_round_trip (x : List Nat) (hx : Units16 x) (hv : u16.is_valid x = some true)
    (hn : NoLoneLow x) :
    (u16.as_str8 x).bind str8.as_u16 = some x ∧
    (u16.as_u32 x).bind u32.as_u16 = some x := by
  obtain ⟨cps, hw⟩ := (u16_is_valid_iff x).1 hv
  obtain ⟨hsc, hx'⟩ := walk_u16_spec hw hx hn
  constructor
  · rw [u16_as_str8_of_walk hw, flatMap_substituted utf8Bytes cps hsc, Option.some_bind,
      str8_as_u16_of_walk (walk_str8_of_scalars cps hsc),
      flatMap_substituted utf16Units cps hsc, ← hx']
  · rw [u16_as_u32_of_walk hw, Option.some_bind, u32_as_u16_eq,
      flatMap_substituted utf16Units cps hsc, ← hx']

theorem utf16_round_trip_witness :
    Units16 [0x24, 0, 0x20AC, 0xD800, 0xDF48, 0xDBFF, 0xDFFF, 0xFFFD] ∧
    u16.is_valid [0x24, 0, 0x20AC, 0xD800, 0xDF48, 0xDBFF, 0xDFFF, 0xFFFD] = some true ∧
    NoLoneLow [0x24, 0, 0x20AC, 0xD800, 0xDF48, 0xDBFF, 0xDFFF, 0xFFFD] ∧
    (u16.as_str8 [0x24, 0, 0x20AC, 0xD800, 0xDF48, 0xDBFF, 0xDFFF, 0xFFFD]).bind str8.as_u16
      = some [0x24, 0, 0x20AC, 0xD800, 0xDF48, 0xDBFF, 0xDFFF, 0xFFFD] ∧
    (u16.as_u32 [0x24, 0, 0x20AC, 0xD800, 0xDF48, 0xDBFF, 0xDFFF, 0xFFFD]).bind u32.as_u16
      = some [0x24, 0, 0x20AC, 0xD800, 0xDF48, 0xDBFF, 0xDFFF, 0xFFFD] :=
  ⟨by decide, by decide, by decide,
   utf16_round_trip [0x24, 0, 0x20AC, 0xD800, 0xDF48, 0xDBFF, 0xDFFF, 0xFFFD]
     (by decide) (by decide) (by decide)⟩

/-- C5 as stated fails at the one-unit sequence `[0xDC00]`: it is a 16-bit
sequence that `is_valid` accepts, and both round trips return `[0xFFFD]`. -/
theorem utf16_round_trip_lone_low :
    Units16 [0xDC00] ∧ u16.is_valid [0xDC00] = some true ∧
    (u16.as_str8 [0xDC00]).bind str8.as_u16 = some [0xFFFD] ∧
    (u16.as_u32 [0xDC00]).bind u32.as_u16 = some [0xFFFD] ∧
    (u16.as_str8 [0xDC00]).bind str8.as_u16 ≠ some [0xDC00] ∧
    (u16.as_u32 [0xDC00]).bind u32.as_u16 ≠ some [0xDC00] := by
  decide

/-! ## C6 -/

theorem utf8Bytes_replacement : utf8Bytes 0xFFFD = [0xEF, 0xBF, 0xBD] := by decide

theorem utf16Units_replacement : utf16Units 0xFFFD = [0xFFFD] := by decide

/-- C6: replacement substitution preserves the surroundings. For all 32-bit
sequences `a` and `b` and every unit `c` above `0x10FFFF` or in
`[0xD800, 0xDFFF]`, `as_str8 (a ++ [c] ++ b) = as_str8 a ++ [0xEF, 0xBF, 0xBD] ++
as_str8 b` and `as_u16 (a ++ [c] ++ b) = as_u16 a ++ [0xFFFD] ++ as_u16 b`. -/
theorem replacement_substitution (a b : List Nat) (c : Nat)
    (hc : c > 0x10FFFF ∨ (0xD800 ≤ c ∧ c ≤ 0xDFFF)) :
    (∃ A B, u32.as_str8 a = some A ∧ u32.as_str8 b = some B ∧
      u32.as_str8 (a ++ [c] ++ b) = some (A ++ [0xEF, 0xBF, 0xBD] ++ B)) ∧
    (∃ A B, u32.as_u16 a = some A ∧ u32.as_u16 b = some B ∧
      u32.as_u16 (a ++ [c] ++ b) = some (A ++ [0xFFFD] ++ B)) := by
  have hs : substituted c = 0xFFFD := substituted_other (by unfold IsScalar; omega)
  constructor
  · refine ⟨_, _, u32_as_str8_eq a, u32_as_str8_eq b, ?_⟩
    rw [u32_as_str8_eq]
    simp only [List.flatMap_append, List.flatMap_cons, List.flatMap_nil, List.append_nil, hs,
      utf8Bytes_replacement]
  · refine ⟨_, _, u32_as_u16_eq a, u32_as_u16_eq b, ?_⟩
    rw [u32_as_u16_eq]
    simp only [List.flatMap_append, List.flatMap_cons, List.flatMap_nil, List.append_nil, hs,
      utf16Units_replacement]

theorem replacement_substitution_witness :
    (0x110000 > 0x10FFFF ∨ (0xD800 ≤ 0x110000 ∧ 0x110000 ≤ 0xDFFF)) ∧
    (∃ A B, u32.as_str8 [0x61, 0x62] = some A ∧ u32.as_str8 [0x63, 0x64] = some B ∧
      u32.as_str8 ([0x61, 0x62] ++ [0x110000] ++ [0x63, 0x64])
        = some (A ++ [0xEF, 0xBF, 0xBD] ++ B)) ∧
    (∃ A B, u32.as_u16 [0x61, 0x62] = some A ∧ u32.as_u16 [0x63, 0x64] = some B ∧
      u32.as_u16 ([0x61, 0x62] ++ [0x110000] ++ [0x63, 0x64]) = some (A ++ [0xFFFD] ++ B)) :=
  ⟨by decide, replacement_substitution [0x61, 0x62] [0x63, 0x64] 0x110000 (by decide)⟩

/-! ## C7 -/

/-- C7: `is_valid` on a 32-bit sequence is true for every input, surrogate
values and values above `0x10FFFF` included, and `as_str8` and `as_u16` of a
32-bit sequence never fail: the result has at least as many units as the input. -/
theorem u32_always_valid (x : List Nat) :
    u32.is_valid x = true ∧
    (∃ y, u32.as_str8 x = some y ∧ x.length ≤ y.length) ∧
    (∃ y, u32.as_u16 x = some y ∧ x.length ≤ y.length) :=
  ⟨rfl,
   ⟨_, u32_as_str8_eq x, length_le_flatMap _ (fun c => utf8Bytes_ne_nil (substituted c)) x⟩,
   ⟨_, u32_as_u16_eq x, length_le_flatMap _ (fun c => utf16Units_ne_nil (substituted c)) x⟩⟩

theorem u32_always_valid_witness :
    u32.is_valid [0xD800, 0x110000, 0xFFFFFFFF, 0x41] = true ∧
    u32.as_str8 [0xD800, 0x110000, 0xFFFFFFFF, 0x41]
      = some [0xEF, 0xBF, 0xBD, 0xEF, 0xBF, 0xBD, 0xEF, 0xBF, 0xBD, 0x41] ∧
    u32.as_u16 [0xD800, 0x110000, 0xFFFFFFFF, 0x41] = some [0xFFFD, 0xFFFD, 0xFFFD, 0x41] ∧
    (∃ y, u32.as_str8 [0xD800, 0x110000, 0xFFFFFFFF, 0x41] = some y ∧ 4 ≤ y.length) :=
  ⟨by decide, by decide, by decide,
   (u32_always_valid [0xD800, 0x110000, 0xFFFFFFFF, 0x41]).2.1⟩

/-! ## C8 -/

theorem walk_exists_iff {decode : List Nat → Decoded} {source : List Nat} (hne : source ≠ []) :
    (∃ cps, Walk decode source cps) ↔
      ((decode source).ok = true ∧ ∃ cps, Walk decode (decode source).source cps) := by
  constructor
  · rintro ⟨cps, hw⟩
    cases hw with
    | done => exact absurd rfl hne
    | step _ cps' _ hok hw' => exact ⟨hok, cps', hw'⟩
  · rintro ⟨hok, cps, hw⟩
    exact ⟨_, Walk.step source cps hne hok hw⟩

theorem highsPaired_plain {u : Nat} (rest : List Nat) (hu : ¬ IsHigh u) :
    HighsPaired (u :: rest) ↔ HighsPaired rest := by
  constructor
  · intro h i hi hh
    have := h (i + 1) (by simp only [List.length_cons]; omega)
      (by simpa only [List.getD_cons_succ] using hh)
    simp only [List.length_cons, List.getD_cons_succ] at this
    exact ⟨by omega, this.2⟩
  · intro h i hi hh
    rcases i with _ | j
    · exact absurd (by simpa using hh) hu
    · simp only [List.length_cons] at hi
      have := h j (by omega) (by simpa only [List.getD_cons_succ] using hh)
      simp only [List.length_cons, List.getD_cons_succ]
      exact ⟨by omega, this.2⟩

theorem highsPaired_pair {u lo : Nat} (tl : List Nat) (hl : IsLow lo) :
    HighsPaired (u :: lo :: tl) ↔ HighsPaired tl := by
  have hlo : ¬ IsHigh lo := by unfold IsHigh; unfold IsLow at hl; omega
  constructor
  · intro h i hi hh
    have := h (i + 2) (by simp only [List.length_cons]; omega)
      (by simpa only [List.getD_cons_succ] using hh)
    simp only [List.length_cons, List.getD_cons_succ] at this
    exact ⟨by omega, this.2⟩
  · intro h i hi hh
    rcases i with _ | _ | j
    · simp only [List.length_cons, List.getD_cons_succ, List.getD_cons_zero]
      exact ⟨by omega, hl⟩
    · exact absurd (by simpa using hh) hlo
    · simp only [List.length_cons] at hi
      have := h j (by omega) (by simpa only [List.getD_cons_succ] using hh)
      simp only [List.length_cons, List.getD_cons_succ]
      exact ⟨by omega, this.2⟩

theorem highsPaired_unpaired {u : Nat} (rest : List Nat) (hu : IsHigh u)
    (hrest : ∀ lo tl, rest = lo :: tl → ¬ IsLow lo) : ¬ HighsPaired (u :: rest) := by
  intro h
  have h0 := h 0 (by simp) (by simpa using hu)
  rcases rest with _ | ⟨lo, tl⟩
  · simp at h0
  · exact hrest lo tl rfl (by simpa using h0.2)

theorem walk_u16_iff_highsPaired :
    ∀ n (x : List Nat), x.length ≤ n → ((∃ cps, Walk u16.decode x cps) ↔ HighsPaired x) := by
  intro n
  induction n with
  | zero =>
    intro x hx
    have : x = [] := List.length_eq_zero.1 (by omega)
    subst this
    exact ⟨fun _ i hi => absurd hi (by simp), fun _ => ⟨[], Walk.done⟩⟩
  | succ n ih =>
    intro x hx
    rcases x with _ | ⟨u, rest⟩
    · exact ⟨fun _ i hi => absurd hi (by simp), fun _ => ⟨[], Walk.done⟩⟩
    · simp only [List.length_cons] at hx
      rw [walk_exists_iff (by simp)]
      by_cases hu : IsHigh u
      · rcases rest with _ | ⟨lo, tl⟩
        · rw [u16_decode_unpaired u [] hu (by simp)]
          have := highsPaired_unpaired [] hu (by simp)
          simp [this]
        · by_cases hl : IsLow lo
          · rw [u16_decode_pair u lo tl hu hl, highsPaired_pair tl hl]
            simp only [List.length_cons] at hx
            simpa using ih tl (by omega)
          · have hr : ∀ lo' tl', lo :: tl = lo' :: tl' → ¬ IsLow lo' := by
              intro lo' tl' e; cases e; exact hl
            rw [u16_decode_unpaired u (lo :: tl) hu hr]
            have := highsPaired_unpaired (lo :: tl) hu hr
            simp [this]
      · rw [u16_decode_plain u rest hu, highsPaired_plain rest hu]
        simpa using ih rest (by omega)

/-- C8: UTF-16 validity. For every 16-bit sequence `x`, `is_valid x` is true if
and only if every unit of `x` in `[0xD800, 0xDBFF]` is immediately followed,
inside `x`, by a unit in `[0xDC00, 0xDFFF]`, and false otherwise; a low
surrogate that no high surrogate precedes does not make a sequence invalid. -/
theorem utf16_valid_iff_highs_paired (x : List Nat) :
    (u16.is_valid x = some true ↔ HighsPaired x) ∧
    (u16.is_valid x = some false ↔ ¬ HighsPaired x) ∧
    (∀ s, IsLow s → u16.is_valid (s :: x) = u16.is_valid x) := by
  have h1 : u16.is_valid x = some true ↔ HighsPaired x := by
    rw [u16_is_valid_iff, walk_u16_iff_highsPaired _ x (le_refl _)]
  refine ⟨h1, ⟨?_, ?_⟩, ?_⟩
  · intro hf hp
    rw [h1.2 hp] at hf
    exact absurd hf (by simp)
  · intro hn
    exact (u16_invalid x (fun hv => hn (h1.1 hv))).1
  · intro s hs
    have hsn : ¬ IsHigh s := by unfold IsHigh; unfold IsLow at hs; omega
    simp [u16.is_valid, is_valid_impl, u16_decode_plain s x hsn]

theorem utf16_valid_iff_highs_paired_witness :
    u16.is_valid [0xDC00, 0x41, 0xD800, 0xDF48, 0xDFFF] = some true ∧
    HighsPaired [0xDC00, 0x41, 0xD800, 0xDF48, 0xDFFF] ∧
    u16.is_valid [0x41, 0xD800, 0x42] = some false ∧
    ¬ HighsPaired [0x41, 0xD800, 0x42] ∧
    (u16.is_valid [0xD800, 0xD800, 0xDC00] = some true ↔ HighsPaired [0xD800, 0xD800, 0xDC00]) :=
  ⟨by decide, by decide, by decide, by decide,
   (utf16_valid_iff_highs_paired [0xD800, 0xD800, 0xDC00]).1⟩

/-! ## C9 -/

theorem no_walk_lone_high (u : Nat) (hh : IsHigh u) : ¬ ∃ cps, Walk u16.decode [u] cps := by
  rw [walk_exists_iff (by simp), u16_decode_unpaired u [] hh (by simp)]
  simp

/-- C9: lone surrogates. For every low surrogate `s` the one-unit sequence `[s]`
is valid, `as_u32 [s] = [s]` and `as_str8 [s] = [0xEF, 0xBF, 0xBD]`; for every
high surrogate `h` the sequence `[h]` is invalid and `as_u32 [h]` and
`as_str8 [h]` are empty. -/
theorem lone_surrogate (u : Nat) :
    (IsLow u → u16.is_valid [u] = some true ∧ u16.as_u32 [u] = some [u] ∧
      u16.as_str8 [u] = some [0xEF, 0xBF, 0xBD]) ∧
    (IsHigh u → u16.is_valid [u] = some false ∧ u16.as_u32 [u] = some [] ∧
      u16.as_str8 [u] = some []) := by
  constructor
  · intro hl
    have hn : ¬ IsHigh u := by unfold IsHigh; unfold IsLow at hl; omega
    have hs : substituted u = 0xFFFD :=
      substituted_other (by unfold IsScalar; unfold IsLow at hl; omega)
    have hd := u16_decode_plain u [] hn
    have hw : Walk u16.decode [u] [u] := by
      have := @Walk.step u16.decode [u] [] (by simp) (by rw [hd])
        (by rw [hd]; exact Walk.done)
      rwa [hd] at this
    refine ⟨(u16_is_valid_iff [u]).2 ⟨_, hw⟩, u16_as_u32_of_walk hw, ?_⟩
    rw [u16_as_str8_of_walk hw]
    simp only [List.flatMap_cons, List.flatMap_nil, List.append_nil, hs, utf8Bytes_replacement]
  · intro hh
    have hno : u16.is_valid [u] ≠ some true := by
      intro hv
      exact no_walk_lone_high u hh ((u16_is_valid_iff [u]).1 hv)
    obtain ⟨h1, h2, h3⟩ := u16_invalid [u] hno
    exact ⟨h1, h3, h2⟩

theorem lone_surrogate_witness :
    (IsLow 0xDC00 ∧ u16.is_valid [0xDC00] = some true ∧ u16.as_u32 [0xDC00] = some [0xDC00] ∧
      u16.as_str8 [0xDC00] = some [0xEF, 0xBF, 0xBD]) ∧
    (IsHigh 0xD800 ∧ u16.is_valid [0xD800] = some false ∧ u16.as_u32 [0xD800] = some [] ∧
      u16.as_str8 [0xD800] = some []) :=
  ⟨⟨by decide, (lone_surrogate 0xDC00).1 (by decide)⟩,
   ⟨by decide, (lone_surrogate 0xD800).2 (by decide)⟩⟩

/-! ## C10 -/

/-- C10: surrogate pairing. For every code point `c` with
`0x10000 ≤ c ≤ 0x10FFFF`, `as_u16 [c]` is the pair
`[0xD800 + ((c - 0x10000) >> 10), 0xDC00 + ((c - 0x10000) & 0x3FF)]`, `as_u32` of
that pair is `[c]`, and `as_str8` of that pair equals `as_str8 [c]`, which has
four bytes. -/
theorem surrogate_pairing (c : Nat) (hc : 0x10000 ≤ c ∧ c ≤ 0x10FFFF) :
    u32.as_u16 [c]
      = some [0xD800 + ((c - 0x10000) >>> 10), 0xDC00 + ((c - 0x10000) &&& 0x3FF)] ∧
    u16.as_u32 [0xD800 + ((c - 0x10000) >>> 10), 0xDC00 + ((c - 0x10000) &&& 0x3FF)]
      = some [c] ∧
    u16.as_str8 [0xD800 + ((c - 0x10000) >>> 10), 0xDC00 + ((c - 0x10000) &&& 0x3FF)]
      = u32.as_str8 [c] ∧
    (∃ b0 b1 b2 b3, u32.as_str8 [c] = some [b0, b1, b2, b3]) := by
  have hs : IsScalar c := by unfold IsScalar; omega
  have hsc : ∀ d ∈ [c], IsScalar d := by intro d hd; rw [List.mem_singleton.1 hd]; exact hs
  have hm := and_halfMask (c - 0x10000)
  unfold halfMask at hm
  have hu : [0xD800 + ((c - 0x10000) >>> 10), 0xDC00 + ((c - 0x10000) &&& 0x3FF)]
      = [c].flatMap utf16Units := by
    rw [hm, Nat.shiftRight_eq_div_pow]
    simp only [List.flatMap_cons, List.flatMap_nil, List.append_nil]
    unfold utf16Units
    rw [if_neg (by omega)]
  have hw := walk_u16_of_scalars [c] hsc
  have h8 : u32.as_str8 [c] = some (utf8Bytes c) := by
    rw [u32_as_str8_eq, flatMap_substituted utf8Bytes [c] hsc]
    simp only [List.flatMap_cons, List.flatMap_nil, List.append_nil]
  rw [hu]
  refine ⟨?_, u16_as_u32_of_walk hw, ?_, ?_⟩
  · rw [u32_as_u16_eq, flatMap_substituted utf16Units [c] hsc]
  · rw [u16_as_str8_of_walk hw, u32_as_str8_eq]
  · rw [h8]
    unfold utf8Bytes
    rw [if_neg (by omega), if_neg (by omega), if_neg (by omega)]
    exact ⟨_, _, _, _, rfl⟩

theorem surrogate_pairing_witness :
    (0x10000 ≤ 0x10348 ∧ 0x10348 ≤ 0x10FFFF) ∧
    u32.as_u16 [0x10348] = some [0xD800, 0xDF48] ∧
    u16.as_u32 [0xD800, 0xDF48] = some [0x10348] ∧
    u16.as_str8 [0xD800, 0xDF48] = u32.as_str8 [0x10348] ∧
    u32.as_str8 [0x10348] = some [0xF0, 0x90, 0x8D, 0x88] :=
  ⟨by decide, (surrogate_pairing 0x10348 (by decide)).1,
   (surrogate_pairing 0x10348 (by decide)).2.1, (surrogate_pairing 0x10348 (by decide)).2.2.1,
   by decide⟩

/-! ## The `char8_t` variants -/

theorem u8_decode_eq : u8.decode = str8.decode := rfl

theorem u8_encode_eq : u8.encode = str8.encode := rfl

theorem char_conv_eq (x : List Nat) : char_conv x = x := by
  unfold char_conv
  exact List.take_length x

theorem u8_is_valid_eq (x : List Nat) : u8.is_valid x = str8.is_valid x := rfl

theorem u8_as_u16_eq (x : List Nat) : u8.as_u16 x = str8.as_u16 x := rfl

theorem u8_as_u32_eq (x : List Nat) : u8.as_u32 x = str8.as_u32 x := rfl

theorem u16_as_u8_eq (y : List Nat) : u16.as_u8 y = u16.as_str8 y := rfl

theorem u32_as_u8_eq (y : List Nat) : u32.as_u8 y = u32.as_str8 y := rfl

/-! ## C11 -/

theorem substituted_ascii {c : Nat} (h : c < 0x80) : substituted c = c :=
  substituted_scalar (by unfold IsScalar; omega)

theorem flatMap_single (x : List Nat) : x.flatMap (fun c => [c]) = x := by
  induction x with
  | nil => rfl
  | cons a x ih => simp [List.flatMap_cons, ih]

theorem flatMap_utf8Bytes_ascii (x : List Nat) (h : IsAscii x) :
    x.flatMap (fun c => utf8Bytes (substituted c)) = x := by
  induction x with
  | nil => rfl
  | cons a x ih =>
    have ha : a < 0x80 := h a (by simp)
    rw [List.flatMap_cons, ih (fun u hu => h u (by simp [hu])), substituted_ascii ha]
    unfold utf8Bytes
    rw [if_pos ha]
    rfl

theorem flatMap_utf16Units_ascii (x : List Nat) (h : IsAscii x) :
    x.flatMap (fun c => utf16Units (substituted c)) = x := by
  induction x with
  | nil => rfl
  | cons a x ih =>
    have ha : a < 0x80 := h a (by simp)
    rw [List.flatMap_cons, ih (fun u hu => h u (by simp [hu])), substituted_ascii ha]
    unfold utf16Units
    rw [if_pos (by omega)]
    rfl

theorem walk_str8_ascii (x : List Nat) (h : IsAscii x) : Walk str8.decode x x := by
  have hw := @walk_flatMap str8.decode (fun c => [c]) (fun c => c < 0x80) (by simp)
    (by intro c rest hc; exact str8_decode_one c rest (by omega)) x h
  rwa [flatMap_single] at hw

theorem walk_u16_ascii (x : List Nat) (h : IsAscii x) : Walk u16.decode x x := by
  have hw := @walk_flatMap u16.decode (fun c => [c]) (fun c => c < 0x80) (by simp)
    (by intro c rest hc; exact u16_decode_plain c rest (by unfold IsHigh; omega)) x h
  rwa [flatMap_single] at hw

/-- C11: ASCII pass-through. For every sequence `x` all of whose units are
below `0x80`, read in any of the forms, `is_valid x` is true and every
conversion of `x` to another form returns a sequence of the same length with the
same unit values, that is `x` itself. -/
theorem ascii_pass_through (x : List Nat) (h : IsAscii x) :
    (str8.is_valid x = some true ∧ str8.as_u16 x = some x ∧ str8.as_u32 x = some x ∧
      str8.as_u8 x = x) ∧
    (u8.is_valid x = some true ∧ u8.as_u16 x = some x ∧ u8.as_u32 x = some x ∧
      u8.as_str8 x = x) ∧
    (u16.is_valid x = some true ∧ u16.as_str8 x = some x ∧ u16.as_u8 x = some x ∧
      u16.as_u32 x = some x) ∧
    (u32.is_valid x = true ∧ u32.as_str8 x = some x ∧ u32.as_u8 x = some x ∧
      u32.as_u16 x = some x) := by
  have w8 := walk_str8_ascii x h
  have w16 := walk_u16_ascii x h
  have e8 := flatMap_utf8Bytes_ascii x h
  have e16 := flatMap_utf16Units_ascii x h
  have a1 : str8.is_valid x = some true := (str8_is_valid_iff x).2 ⟨x, w8⟩
  have a2 : str8.as_u16 x = some x := by rw [str8_as_u16_of_walk w8, e16]
  have a3 : str8.as_u32 x = some x := str8_as_u32_of_walk w8
  have b1 : u16.is_valid x = some true := (u16_is_valid_iff x).2 ⟨x, w16⟩
  have b2 : u16.as_str8 x = some x := by rw [u16_as_str8_of_walk w16, e8]
  have b3 : u16.as_u32 x = some x := u16_as_u32_of_walk w16
  have c2 : u32.as_str8 x = some x := by rw [u32_as_str8_eq, e8]
  have c3 : u32.as_u16 x = some x := by rw [u32_as_u16_eq, e16]
  refine ⟨⟨a1, a2, a3, char_conv_eq x⟩, ⟨?_, ?_, ?_, char_conv_eq x⟩, ⟨b1, b2, ?_, b3⟩,
    ⟨rfl, c2, ?_, c3⟩⟩
  · rw [u8_is_valid_eq]; exact a1
  · rw [u8_as_u16_eq]; exact a2
  · rw [u8_as_u32_eq]; exact a3
  · rw [u16_as_u8_eq]; exact b2
  · rw [u32_as_u8_eq]; exact c2

theorem ascii_pass_through_witness :
    IsAscii [0x61, 0x73, 0x63, 0x69, 0x69] ∧
    (str8.is_valid [0x61, 0x73, 0x63, 0x69, 0x69] = some true ∧
     str8.as_u16 [0x61, 0x73, 0x63, 0x69, 0x69] = some [0x61, 0x73, 0x63, 0x69, 0x69] ∧
     str8.as_u32 [0x61, 0x73, 0x63, 0x69, 0x69] = some [0x61, 0x73, 0x63, 0x69, 0x69] ∧
     str8.as_u8 [0x61, 0x73, 0x63, 0x69, 0x69] = [0x61, 0x73, 0x63, 0x69, 0x69]) :=
  ⟨by decide, (ascii_pass_through [0x61, 0x73, 0x63, 0x69, 0x69] (by decide)).1⟩

/-! ## C12 -/

/-- In a well-formed byte sequence every byte after the lead is a continuation
byte. -/
theorem shape8_tail {chunk : List Nat} (h : Shape8 chunk) :
    ∀ b ∈ chunk.tail, 0x80 ≤ b ∧ b ≤ 0xBF := by
  match chunk, h with
  | [b0], h => intro b hb; simp at hb
  | [b0, b1], h =>
    simp only [Shape8] at h
    intro b hb
    simp only [List.tail_cons, List.mem_singleton] at hb
    subst hb; omega
  | [b0, b1, b2], h =>
    simp only [Shape8] at h
    intro b hb
    simp only [List.tail_cons, List.mem_cons, List.mem_singleton, List.not_mem_nil,
      or_false] at hb
    rcases hb with hb | hb <;> subst hb <;> omega
  | [b0, b1, b2, b3], h =>
    simp only [Shape8] at h
    intro b hb
    simp only [List.tail_cons, List.mem_cons, List.mem_singleton, List.not_mem_nil,
      or_false] at hb
    rcases hb with hb | hb | hb <;> subst hb <;> omega

theorem trailingBytes_pos {L : Nat} (hL : L < 256) (hn : 1 ≤ trailingBytesForUTF8.getD L 0) :
    0xC0 ≤ L := by
  rw [trailingBytes_eq L hL] at hn
  by_contra hc
  rw [if_pos (by omega)] at hn
  omega

/-- No walk runs over a lead byte that has fewer bytes after it than its
trailing count. -/
theorem no_walk_truncated (L : Nat) (t : List Nat) (hL : L < 256)
    (hk : t.length < trailingBytesForUTF8.getD L 0) {src cps : List Nat}
    (hw : Walk str8.decode src cps) :
    Units8 src → ∀ p, src = p ++ L :: t → False := by
  have hC0 : 0xC0 ≤ L := trailingBytes_pos hL (by omega)
  induction hw with
  | done => intro _ p hp; simp at hp
  | step source cps hne hok _ ih =>
    intro hU p hp
    rcases p with _ | ⟨a, p'⟩
    · rw [List.nil_append] at hp
      have h := ((str8_decode_ok_iff source).1 hok).1
      rw [hp] at h
      simp only [List.headD_cons, uint8_t_of_lt hL, List.length_cons] at h
      omega
    · obtain ⟨chunk, rest, hsrc, hs⟩ := str8_decode_ok_shape source hU hne hok
      have hd := str8_decode_shape chunk rest hs
      rw [hsrc, hd] at ih
      simp only at ih
      have hU' : Units8 rest := fun b hb => hU b (by rw [hsrc]; simp [hb])
      rw [hsrc] at hp
      rcases List.append_eq_append_iff.1 hp with ⟨a', h1, h2⟩ | ⟨c', h1, h2⟩
      · exact ih hU' a' h2
      · rcases c' with _ | ⟨l, c''⟩
        · rw [List.nil_append] at h2
          exact ih hU' [] (by rw [← h2]; rfl)
        · have hl : l = L := by
            have := congrArg List.head? h2
            simpa using this.symm
          have hmem : L ∈ chunk.tail := by
            rw [h1, hl]
            simp
          have := shape8_tail hs L hmem
          omega

/-- C12: a truncated final sequence is rejected. For every 8-bit sequence `p`,
every byte `L` whose table trailing count `n` is at least 1 (so `L ≥ 0xC0`) and
every byte sequence `t` of length `k < n`, `is_valid (p ++ [L] ++ t)` is false
and `as_u16` and `as_u32` of it are empty. -/
theorem truncated_rejected (p t : List Nat) (L : Nat) (hp : Units8 p) (hL : L < 256)
    (ht : Units8 t) (hn : 1 ≤ trailingBytesForUTF8.getD L 0)
    (hk : t.length < trailingBytesForUTF8.getD L 0) :
    0xC0 ≤ L ∧
    str8.is_valid (p ++ [L] ++ t) = some false ∧
    str8.as_u16 (p ++ [L] ++ t) = some [] ∧
    str8.as_u32 (p ++ [L] ++ t) = some [] := by
  have hU : Units8 (p ++ [L] ++ t) := by
    intro b hb
    simp only [List.append_assoc, List.mem_append, List.mem_singleton] at hb
    rcases hb with hb | hb | hb
    · exact hp b hb
    · rw [hb]; exact hL
    · exact ht b hb
  have hno : str8.is_valid (p ++ [L] ++ t) ≠ some true := by
    intro hv
    obtain ⟨cps, hw⟩ := (str8_is_valid_iff _).1 hv
    exact no_walk_truncated L t hL hk hw hU p (by simp)
  exact ⟨trailingBytes_pos hL hn, str8_invalid _ hno⟩

theorem truncated_rejected_witness :
    (Units8 [0x61, 0x62] ∧ 0xE2 < 256 ∧ Units8 [0x8F] ∧
      1 ≤ trailingBytesForUTF8.getD 0xE2 0 ∧
      [0x8F].length < trailingBytesForUTF8.getD 0xE2 0) ∧
    (0xC0 ≤ 0xE2 ∧
     str8.is_valid [0x61, 0x62, 0xE2, 0x8F] = some false ∧
     str8.as_u16 [0x61, 0x62, 0xE2, 0x8F] = some [] ∧
     str8.as_u32 [0x61, 0x62, 0xE2, 0x8F] = some []) :=
  ⟨by decide,
   truncated_rejected [0x61, 0x62] [0x8F] 0xE2 (by decide) (by decide) (by decide)
     (by decide) (by decide)⟩

/-! ## C13 -/

/-- C13: boundary byte sequences. `is_valid` is true for `E0 A0 80`, `ED 9F 80`,
`F0 90 80 80` and `F4 8F BF BF`, and false for `E0 9F 80`, `ED A0 80`,
`F0 8F 80 80`, `F4 90 80 80` and the single byte `80`; `as_u32` maps `E0 A0 80`
to `[0x0800]`, `ED 9F 80` to `[0xD7C0]`, `F0 90 80 80` to `[0x10000]` and
`F4 8F 80 80` to `[0x10F000]`, and returns the empty sequence for each rejected
one. -/
theorem boundary_byte_sequences :
    (str8.is_valid [0xE0, 0xA0, 0x80] = some true ∧
     str8.is_valid [0xED, 0x9F, 0x80] = some true ∧
     str8.is_valid [0xF0, 0x90, 0x80, 0x80] = some true ∧
     str8.is_valid [0xF4, 0x8F, 0xBF, 0xBF] = some true) ∧
    (str8.is_valid [0xE0, 0x9F, 0x80] = some false ∧
     str8.is_valid [0xED, 0xA0, 0x80] = some false ∧
     str8.is_valid [0xF0, 0x8F, 0x80, 0x80] = some false ∧
     str8.is_valid [0xF4, 0x90, 0x80, 0x80] = some false ∧
     str8.is_valid [0x80] = some false) ∧
    (str8.as_u32 [0xE0, 0xA0, 0x80] = some [0x0800] ∧
     str8.as_u32 [0xED, 0x9F, 0x80] = some [0xD7C0] ∧
     str8.as_u32 [0xF0, 0x90, 0x80, 0x80] = some [0x10000] ∧
     str8.as_u32 [0xF4, 0x8F, 0x80, 0x80] = some [0x10F000]) ∧
    (str8.as_u32 [0xE0, 0x9F, 0x80] = some [] ∧
     str8.as_u32 [0xED, 0xA0, 0x80] = some [] ∧
     str8.as_u32 [0xF0, 0x8F, 0x80, 0x80] = some [] ∧
     str8.as_u32 [0xF4, 0x90, 0x80, 0x80] = some [] ∧
     str8.as_u32 [0x80] = some []) := by
  decide

/-! ## C14 -/

theorem shape8_bytes {chunk : List Nat} (h : Shape8 chunk) : ∀ b ∈ chunk, ¬ Forbidden b := by
  have ht := shape8_tail h
  unfold Forbidden
  match chunk, h with
  | [b0], h =>
    simp only [Shape8] at h
    intro b hb
    simp only [List.mem_singleton] at hb
    subst hb; omega
  | b0 :: b1 :: tl, h =>
    have h0 : 0xC2 ≤ b0 ∧ b0 ≤ 0xF4 := by
      match tl, h with
      | [], h => simp only [Shape8] at h; omega
      | [b2], h => simp only [Shape8] at h; omega
      | [b2, b3], h => simp only [Shape8] at h; omega
    intro b hb
    rcases List.mem_cons.1 hb with hb | hb
    · subst hb; omega
    · have := ht b (by simpa using hb)
      omega

theorem wellFormed8_bytes {x : List Nat} (h : WellFormed8 x) : ∀ b ∈ x, ¬ Forbidden b := by
  obtain ⟨parts, hp, rfl⟩ := h
  intro b hb
  obtain ⟨p, hpm, hbp⟩ := List.mem_flatten.1 hb
  exact shape8_bytes (hp p hpm) b hbp

theorem str8_decode_continuation (b : Nat) (rest : List Nat) (hb : 0x80 ≤ b ∧ b ≤ 0xBF) :
    (str8.decode (b :: rest)).ok ≠ true := by
  intro hok
  have hb' : b < 256 := by omega
  have h := ((str8_decode_ok_iff (b :: rest)).1 hok).2
  simp only [List.headD_cons, uint8_t_of_lt hb', trailingBytes_eq b hb'] at h
  rw [if_pos (by omega)] at h
  have := (isLegalUTF8_one b rest hb').1 h
  omega

/-- C14: forbidden bytes. For every 8-bit sequence `x` that holds, at any
position, a byte equal to `0xC0` or `0xC1` or above `0xF4`, `is_valid x` is
false and `as_u16 x` and `as_u32 x` are empty; and every 8-bit sequence whose
first byte lies in `[0x80, 0xBF]` is invalid. -/
theorem forbidden_bytes (x : List Nat) (hx : Units8 x) :
    ((∃ b ∈ x, Forbidden b) →
      str8.is_valid x = some false ∧ str8.as_u16 x = some [] ∧ str8.as_u32 x = some []) ∧
    ((0x80 ≤ x.headD 0 ∧ x.headD 0 ≤ 0xBF) →
      str8.is_valid x = some false ∧ str8.as_u16 x = some [] ∧ str8.as_u32 x = some []) := by
  constructor
  · rintro ⟨b, hb, hf⟩
    apply str8_invalid
    intro hv
    have hw := (wellFormed8_iff_walk x hx).2 ((str8_is_valid_iff x).1 hv)
    exact wellFormed8_bytes hw b hb hf
  · intro hh
    apply str8_invalid
    intro hv
    rcases x with _ | ⟨b, rest⟩
    · simp at hh
    · have hw := (str8_is_valid_iff _).1 hv
      rw [walk_exists_iff (by simp)] at hw
      exact str8_decode_continuation b rest (by simpa using hh) hw.1

theorem forbidden_bytes_witness :
    Units8 [0x61, 0x62, 0xFF, 0x2D] ∧ (∃ b ∈ [0x61, 0x62, 0xFF, 0x2D], Forbidden b) ∧
    (str8.is_valid [0x61, 0x62, 0xFF, 0x2D] = some false ∧
     str8.as_u16 [0x61, 0x62, 0xFF, 0x2D] = some [] ∧
     str8.as_u32 [0x61, 0x62, 0xFF, 0x2D] = some []) ∧
    Units8 [0xBF, 0x61] ∧
    (str8.is_valid [0xBF, 0x61] = some false ∧
     str8.as_u16 [0xBF, 0x61] = some [] ∧
     str8.as_u32 [0xBF, 0x61] = some []) :=
  ⟨by decide, by decide,
   (forbidden_bytes [0x61, 0x62, 0xFF, 0x2D] (by decide)).1 (by decide),
   by decide,
   (forbidden_bytes [0xBF, 0x61] (by decide)).2 (by decide)⟩

/-! ## C15 -/

/-- C15: empty input. For each source form `is_valid` of the empty sequence is
true and every conversion of the empty sequence is the empty sequence. -/
theorem empty_input :
    (str8.is_valid [] = some true ∧ str8.as_u16 [] = some [] ∧ str8.as_u32 [] = some [] ∧
      str8.as_u8 [] = []) ∧
    (u8.is_valid [] = some true ∧ u8.as_u16 [] = some [] ∧ u8.as_u32 [] = some [] ∧
      u8.as_str8 [] = []) ∧
    (u16.is_valid [] = some true ∧ u16.as_str8 [] = some [] ∧ u16.as_u8 [] = some [] ∧
      u16.as_u32 [] = some []) ∧
    (u32.is_valid [] = true ∧ u32.as_str8 [] = some [] ∧ u32.as_u8 [] = some [] ∧
      u32.as_u16 [] = some []) := by
  decide

/-! ## C16 -/

/-- C16, as the code has it: the two byte-compatible conversions decode
nothing. For every non-empty 8-bit sequence `x`, `as_u8 x` (char to char8_t) and
`as_str8 x` (char8_t to char) are non-empty whether or not `is_valid x` is true;
so each of them is non-empty exactly when `is_valid x` is true if and only if
`x` is valid. -/
theorem byte_compatible_agreement (x : List Nat) (hne : x ≠ []) :
    str8.as_u8 x ≠ [] ∧ u8.as_str8 x ≠ [] ∧
    ((str8.as_u8 x ≠ [] ↔ str8.is_valid x = some true) ↔ str8.is_valid x = some true) ∧
    ((u8.as_str8 x ≠ [] ↔ u8.is_valid x = some true) ↔ u8.is_valid x = some true) := by
  have h1 : str8.as_u8 x ≠ [] := by unfold str8.as_u8; rw [char_conv_eq]; exact hne
  have h2 : u8.as_str8 x ≠ [] := by unfold u8.as_str8; rw [char_conv_eq]; exact hne
  exact ⟨h1, h2, ⟨fun h => h.1 h1, fun h => ⟨fun _ => h, fun _ => h1⟩⟩,
    ⟨fun h => h.1 h2, fun h => ⟨fun _ => h, fun _ => h2⟩⟩⟩

theorem byte_compatible_agreement_witness :
    [0x61, 0x80] ≠ [] ∧ str8.as_u8 [0x61, 0x80] ≠ [] ∧ u8.as_str8 [0x61, 0x80] ≠ [] ∧
    str8.is_valid [0x61, 0x80] = some false ∧ u8.is_valid [0x61, 0x80] = some false :=
  ⟨by decide, (byte_compatible_agreement [0x61, 0x80] (by decide)).1,
   (byte_compatible_agreement [0x61, 0x80] (by decide)).2.1, by decide, by decide⟩

/-- C16 as stated fails at the one-byte sequence `[0x80]`: it is non-empty and
invalid, and both byte-compatible conversions return it unchanged instead of
the empty sequence. -/
theorem byte_compatible_invalid_kept :
    Units8 [0x80] ∧ [0x80] ≠ [] ∧
    str8.is_valid [0x80] = some false ∧ str8.as_u8 [0x80] = [0x80] ∧
    u8.is_valid [0x80] = some false ∧ u8.as_str8 [0x80] = [0x80] ∧
    ¬ (str8.as_u8 [0x80] ≠ [] ↔ str8.is_valid [0x80] = some true) ∧
    ¬ (u8.as_str8 [0x80] ≠ [] ↔ u8.is_valid [0x80] = some true) := by
  decide

/-! ## C17 -/

/-- C17: the byte-compatible conversions are pure re-tagging. For every 8-bit
sequence `x`, valid or not, `as_u8 x` and `as_str8 x` have the length of `x` and
the byte values of `x`, so `as_str8 (as_u8 x) = x`. -/
theorem byte_compatible_retagging (x : List Nat) :
    (str8.as_u8 x = x ∧ (str8.as_u8 x).length = x.length) ∧
    (u8.as_str8 x = x ∧ (u8.as_str8 x).length = x.length) ∧
    u8.as_str8 (str8.as_u8 x) = x := by
  have h1 : str8.as_u8 x = x := char_conv_eq x
  have h2 : u8.as_str8 x = x := char_conv_eq x
  refine ⟨⟨h1, by rw [h1]⟩, ⟨h2, by rw [h2]⟩, ?_⟩
  rw [h1, h2]

/-! ## C18 -/

/-- C18: the char and char8_t variants behave identically. For every byte
sequence `x`, `is_valid`, `as_u16` and `as_u32` give the same result for the
char form and the char8_t form, and for every 16-bit or 32-bit sequence `y`,
`as_u8 y` and `as_str8 y` hold the same byte values. -/
theorem char8_variants_agree (x y : List Nat) :
    (u8.is_valid x = str8.is_valid x ∧ u8.as_u16 x = str8.as_u16 x ∧
      u8.as_u32 x = str8.as_u32 x) ∧
    (u16.as_u8 y = u16.as_str8 y ∧ u32.as_u8 y = u32.as_str8 y) ∧
    (u8.decode x = str8.decode x ∧ ∀ c, u8.encode c y = str8.encode c y) :=
  ⟨⟨u8_is_valid_eq x, u8_as_u16_eq x, u8_as_u32_eq x⟩, ⟨u16_as_u8_eq y, u32_as_u8_eq y⟩,
   ⟨by rw [u8_decode_eq], fun c => by rw [u8_encode_eq]⟩⟩

/-! ## C19 -/

theorem utf8Bytes_length (c : Nat) :
    (utf8Bytes c).length =
      if c < 0x80 then 1 else if c < 0x800 then 2 else if c < 0x10000 then 3 else 4 := by
  unfold utf8Bytes
  split_ifs <;> rfl

theorem utf16Units_length (c : Nat) :
    (utf16Units c).length = if c < 0x10000 then 1 else 2 := by
  unfold utf16Units
  split_ifs <;> rfl

/-- C19: encoder unit counts. For every value `c`, the 8-bit encoder appends
exactly 1 unit if `c < 0x80`, 2 if `0x80 ≤ c < 0x800`, 3 if
`0x800 ≤ c < 0x10000` or `c > 0x10FFFF`, and 4 if `0x10000 ≤ c ≤ 0x10FFFF`; the
16-bit encoder appends exactly 2 units if `0x10000 ≤ c ≤ 0x10FFFF` and exactly 1
otherwise; the 32-bit encoder appends exactly the unit `c`. No encoder appends
zero units. -/
theorem encoder_unit_counts (c : Nat) (target : List Nat) :
    (∃ units, str8.encode c target = target ++ units ∧
      (c < 0x80 → units.length = 1) ∧
      (0x80 ≤ c ∧ c < 0x800 → units.length = 2) ∧
      ((0x800 ≤ c ∧ c < 0x10000) ∨ c > 0x10FFFF → units.length = 3) ∧
      (0x10000 ≤ c ∧ c ≤ 0x10FFFF → units.length = 4) ∧ units ≠ []) ∧
    (∃ units, u16.encode c target = target ++ units ∧
      (0x10000 ≤ c ∧ c ≤ 0x10FFFF → units.length = 2) ∧
      (¬ (0x10000 ≤ c ∧ c ≤ 0x10FFFF) → units.length = 1) ∧ units ≠ []) ∧
    u32.encode c target = target ++ [c] := by
  refine ⟨⟨_, str8_encode_eq c target, ?_⟩, ⟨_, u16_encode_eq c target, ?_⟩, rfl⟩
  · rw [← List.length_pos, utf8Bytes_length]
    unfold substituted IsScalar
    refine ⟨?_, ?_, ?_, ?_, ?_⟩ <;> intros <;> split_ifs <;> omega
  · rw [← List.length_pos, utf16Units_length]
    unfold substituted IsScalar
    refine ⟨?_, ?_, ?_⟩ <;> intros <;> split_ifs <;> omega

theorem encoder_unit_counts_witness :
    str8.encode 0x7F [0x61] = [0x61, 0x7F] ∧
    str8.encode 0x20AC [0x61] = [0x61, 0xE2, 0x82, 0xAC] ∧
    str8.encode 0x110000 [0x61] = [0x61, 0xEF, 0xBF, 0xBD] ∧
    u16.encode 0x10348 [0x61] = [0x61, 0xD800, 0xDF48] ∧
    u32.encode 0x110000 [0x61] = [0x61, 0x110000] :=
  ⟨by decide, by decide, by decide, by decide, (encoder_unit_counts 0x110000 [0x61]).2.2⟩

/-! ## C20 -/

theorem and_3F (x : Nat) : x &&& 0x3F = x % 64 := by
  have h := Nat.and_pow_two_sub_one_eq_mod x 6
  norm_num at h
  exact h

theorem mark_or : ∀ r, r < 64 → 0x80 ||| r = 0x80 + r := by decide

theorem mark2_or : ∀ k, k < 32 → 0xC0 ||| k = 0xC0 + k := by decide

theorem mark3_or : ∀ k, k < 16 → 0xE0 ||| k = 0xE0 + k := by decide

theorem mark4_or : ∀ k, k < 8 → 0xF0 ||| k = 0xF0 + k := by decide

theorem utf8Bytes_tail (c : Nat) : ∀ b ∈ (utf8Bytes c).tail, 0x80 ≤ b ∧ b ≤ 0xBF := by
  unfold utf8Bytes
  intro b hb
  split_ifs at hb <;>
    simp only [List.tail_cons, List.mem_cons, List.mem_singleton, List.not_mem_nil,
      or_false] at hb
  · rw [hb]; omega
  · rcases hb with hb | hb <;> rw [hb] <;> omega
  · rcases hb with hb | hb | hb <;> rw [hb] <;> omega

/-- C20: the 8-bit encoder is bit-exact standard UTF-8. For every Unicode
scalar value `c`, `as_str8 [c]` is `[c]` if `c < 0x80`;
`[0xC0 | (c >> 6), 0x80 | (c & 0x3F)]` if `c < 0x800`;
`[0xE0 | (c >> 12), 0x80 | ((c >> 6) & 0x3F), 0x80 | (c & 0x3F)]` if
`c < 0x10000`; and
`[0xF0 | (c >> 18), 0x80 | ((c >> 12) & 0x3F), 0x80 | ((c >> 6) & 0x3F), 0x80 | (c & 0x3F)]`
otherwise; every byte after the lead lies in `[0x80, 0xBF]`. -/
theorem utf8_bit_exact (c : Nat) (hs : IsScalar c) :
    u32.as_str8 [c] = some
      (if c < 0x80 then [c]
       else if c < 0x800 then [0xC0 ||| (c >>> 6), 0x80 ||| (c &&& 0x3F)]
       else if c < 0x10000 then
         [0xE0 ||| (c >>> 12), 0x80 ||| ((c >>> 6) &&& 0x3F), 0x80 ||| (c &&& 0x3F)]
       else
         [0xF0 ||| (c >>> 18), 0x80 ||| ((c >>> 12) &&& 0x3F),
          0x80 ||| ((c >>> 6) &&& 0x3F), 0x80 ||| (c &&& 0x3F)]) ∧
    (∀ y, u32.as_str8 [c] = some y → ∀ b ∈ y.tail, 0x80 ≤ b ∧ b ≤ 0xBF) := by
  have h8 : u32.as_str8 [c] = some (utf8Bytes c) := by
    rw [u32_as_str8_eq]
    simp only [List.flatMap_cons, List.flatMap_nil, List.append_nil, substituted_scalar hs]
  have hmax : c ≤ 0x10FFFF := hs.1
  constructor
  · rw [h8]
    congr 1
    unfold utf8Bytes
    simp only [and_3F, Nat.shiftRight_eq_div_pow]
    split_ifs with h1 h2 h3
    · rfl
    · rw [mark2_or _ (by omega), mark_or _ (by omega)]
    · rw [mark3_or _ (by omega), mark_or _ (by omega), mark_or _ (by omega)]
    · rw [mark4_or _ (by omega), mark_or _ (by omega), mark_or _ (by omega),
        mark_or _ (by omega)]
  · intro y hy
    rw [h8] at hy
    cases hy
    exact utf8Bytes_tail c

theorem utf8_bit_exact_witness :
    IsScalar 0x20AC ∧ u32.as_str8 [0x20AC] = some [0xE2, 0x82, 0xAC] ∧
    (∀ y, u32.as_str8 [0x20AC] = some y → ∀ b ∈ y.tail, 0x80 ≤ b ∧ b ≤ 0xBF) :=
  ⟨by decide, (utf8_bit_exact 0x20AC (by decide)).1, (utf8_bit_exact 0x20AC (by decide)).2⟩

/-! ## The loops and the 16-bit decoder, once more -/

/-- With a budget of at least one step for each unit, both loops end with a
result, the same as with exactly one step for each unit. -/
theorem loops_total {decode : List Nat → Decoded} (hp : Progress decode)
    (encode : Nat → List Nat → List Nat) (source out : List Nat) (steps : Nat)
    (h : source.length ≤ steps) :
    (∃ v, is_valid_impl decode source.length source = some v ∧
      is_valid_impl decode steps source = some v) ∧
    (∃ r, convert decode encode source.length source out = some r ∧
      convert decode encode steps source out = some r) := by
  by_cases hw : ∃ cps, Walk decode source cps
  · obtain ⟨cps, hw⟩ := hw
    exact ⟨⟨true, is_valid_impl_of_walk hp hw _ (le_refl _), is_valid_impl_of_walk hp hw _ h⟩,
      ⟨_, convert_of_walk hp encode hw _ out (le_refl _), convert_of_walk hp encode hw _ out h⟩⟩
  · have h1 := loops_of_no_walk hp encode _ source (le_refl _) hw
    have h2 := loops_of_no_walk hp encode _ source h hw
    exact ⟨⟨false, h1.1, h2.1⟩, ⟨[], h1.2 out, h2.2 out⟩⟩

/-- What a successful 16-bit decode has read: one unit that is not a high
surrogate, or a high surrogate and the low surrogate after it. -/
theorem u16_decode_ok_cases (source : List Nat) (hne : source ≠ [])
    (hok : (u16.decode source).ok = true) :
    (∃ u rest, source = u :: rest ∧ ¬ IsHigh u ∧ u16.decode source = ⟨u, rest, true⟩) ∨
    (∃ hi lo rest, source = hi :: lo :: rest ∧ IsHigh hi ∧ IsLow lo ∧
      u16.decode source = ⟨0x10000 + (hi - 0xD800) * 1024 + (lo - 0xDC00), rest, true⟩) := by
  obtain ⟨u, rest, rfl⟩ := List.exists_cons_of_ne_nil hne
  by_cases hu : IsHigh u
  · rcases rest with _ | ⟨lo, tl⟩
    · rw [u16_decode_unpaired u [] hu (by simp)] at hok
      exact absurd hok (by simp)
    · by_cases hl : IsLow lo
      · exact Or.inr ⟨u, lo, tl, rfl, hu, hl, u16_decode_pair u lo tl hu hl⟩
      · rw [u16_decode_unpaired u (lo :: tl) hu
          (by intro lo' tl' e; cases e; exact hl)] at hok
        exact absurd hok (by simp)
  · exact Or.inl ⟨u, rest, rfl, hu, u16_decode_plain u rest hu⟩

/-! ## C21 -/

theorem str8_decode_eq_accumulate (source : List Nat) (hok : (str8.decode source).ok = true) :
    str8.decode source =
      ⟨char32_t ((decode_accumulate (trailingBytesForUTF8.getD (uint8_t (source.headD 0)) 0)
          source).1 + (4294967296 - offsetsFromUTF8.getD
            (trailingBytesForUTF8.getD (uint8_t (source.headD 0)) 0) 0)),
        (decode_accumulate (trailingBytesForUTF8.getD (uint8_t (source.headD 0)) 0) source).2,
        true⟩ := by
  obtain ⟨hlen, hleg⟩ := (str8_decode_ok_iff source).1 hok
  unfold str8.decode decode_accumulate
  simp only []
  rw [if_neg (by omega), if_neg (by simpa using hleg)]

/-- The table count of the lead byte of a well-formed sequence is its number of
trailing bytes. -/
theorem shape8_count {chunk : List Nat} (h : Shape8 chunk) :
    trailingBytesForUTF8.getD (uint8_t (chunk.headD 0)) 0 + 1 = chunk.length := by
  match chunk, h with
  | [b0], h =>
    simp only [Shape8] at h
    have h0 : b0 < 256 := by omega
    simp only [List.headD_cons, uint8_t_of_lt h0, trailingBytes_eq b0 h0, List.length_cons,
      List.length_nil]
    rw [if_pos (by omega)]
  | [b0, b1], h =>
    simp only [Shape8] at h
    have h0 : b0 < 256 := by omega
    simp only [List.headD_cons, uint8_t_of_lt h0, trailingBytes_eq b0 h0, List.length_cons,
      List.length_nil]
    rw [if_neg (by omega), if_pos (by omega)]
  | [b0, b1, b2], h =>
    simp only [Shape8] at h
    have h0 : b0 < 256 := by omega
    simp only [List.headD_cons, uint8_t_of_lt h0, trailingBytes_eq b0 h0, List.length_cons,
      List.length_nil]
    rw [if_neg (by omega), if_neg (by omega), if_pos (by omega)]
  | [b0, b1, b2, b3], h =>
    simp only [Shape8] at h
    have h0 : b0 < 256 := by omega
    simp only [List.headD_cons, uint8_t_of_lt h0, trailingBytes_eq b0 h0, List.length_cons,
      List.length_nil]
    rw [if_neg (by omega), if_neg (by omega), if_neg (by omega), if_pos (by omega)]

theorem headD_append_of_ne_nil {chunk : List Nat} (h : chunk ≠ []) (rest : List Nat) :
    (chunk ++ rest).headD 0 = chunk.headD 0 := by
  obtain ⟨a, l, rfl⟩ := List.exists_cons_of_ne_nil h
  rfl

/-- On a well-formed sequence the accumulation does not wrap around, reaches
at least the offset, and the difference is the mask-and-shift value. -/
theorem shape8_accumulate {chunk : List Nat} (h : Shape8 chunk) (rest : List Nat) :
    (decode_accumulate (chunk.length - 1) (chunk ++ rest)).1 = utf8Sum chunk ∧
    offsetsFromUTF8.getD (chunk.length - 1) 0 ≤ utf8Sum chunk ∧
    utf8Sum chunk - offsetsFromUTF8.getD (chunk.length - 1) 0 = maskAndShift chunk ∧
    utf8Value chunk = maskAndShift chunk := by
  match chunk, h with
  | [b0], h =>
    simp only [Shape8] at h
    have h0 : b0 < 256 := by omega
    simp [decode_accumulate, decode_add, utf8Sum, maskAndShift, utf8Value, offsetsFromUTF8,
      char32_t, uint8_t_of_lt h0]
    omega
  | [b0, b1], h =>
    simp only [Shape8] at h
    have h0 : b0 < 256 := by omega
    have h1 : b1 < 256 := by omega
    simp [decode_accumulate, decode_add, decode_add_shift, utf8Sum, maskAndShift, utf8Value,
      offsetsFromUTF8, char32_t, uint8_t_of_lt h0, uint8_t_of_lt h1, Nat.shiftLeft_eq]
    omega
  | [b0, b1, b2], h =>
    simp only [Shape8] at h
    have h0 : b0 < 256 := by omega
    have h1 : b1 < 256 := by omega
    have h2 : b2 < 256 := by omega
    simp [decode_accumulate, decode_add, decode_add_shift, utf8Sum, maskAndShift, utf8Value,
      offsetsFromUTF8, char32_t, uint8_t_of_lt h0, uint8_t_of_lt h1, uint8_t_of_lt h2,
      Nat.shiftLeft_eq]
    omega
  | [b0, b1, b2, b3], h =>
    simp only [Shape8] at h
    have h0 : b0 < 256 := by omega
    have h1 : b1 < 256 := by omega
    have h2 : b2 < 256 := by omega
    have h3 : b3 < 256 := by omega
    simp [decode_accumulate, decode_add, decode_add_shift, utf8Sum, maskAndShift, utf8Value,
      offsetsFromUTF8, char32_t, uint8_t_of_lt h0, uint8_t_of_lt h1, uint8_t_of_lt h2,
      uint8_t_of_lt h3, Nat.shiftLeft_eq]
    omega

/-- C21: the 8-bit decoder's accumulate-then-subtract arithmetic. For every
byte sequence that the legality check accepts, with lead `b0` and `n` trailing
bytes (`n` the table count of `b0`), `n ≤ 3`, the accumulated sum is the exact
sum (no 32-bit wraparound) and is at least `offsetsFromUTF8[n]`, and the decoded
code point, the sum less the offset, is the low 7, 5, 4 or 3 bits of `b0`
followed by the low 6 bits of each trailing byte. -/
theorem decode_arithmetic (source : List Nat) (n : Nat) (hU : Units8 source)
    (hn : trailingBytesForUTF8.getD (uint8_t (source.headD 0)) 0 = n)
    (hlen : n < source.length) (hleg : isLegalUTF8 source (n + 1) = true) :
    n ≤ 3 ∧
    (decode_accumulate n source).1 = utf8Sum (source.take (n + 1)) ∧
    offsetsFromUTF8.getD n 0 ≤ (decode_accumulate n source).1 ∧
    (str8.decode source).ch = (decode_accumulate n source).1 - offsetsFromUTF8.getD n 0 ∧
    (str8.decode source).ch = maskAndShift (source.take (n + 1)) := by
  have hne : source ≠ [] := by
    intro h; rw [h] at hlen; simp at hlen
  have hok : (str8.decode source).ok = true :=
    (str8_decode_ok_iff source).2 ⟨by rw [hn]; exact hlen, by rw [hn]; exact hleg⟩
  obtain ⟨chunk, rest, rfl, hs⟩ := str8_decode_ok_shape source hU hne hok
  have hc := shape8_count hs
  rw [headD_append_of_ne_nil (shape8_ne_nil hs)] at hn
  rw [hn] at hc
  have hc' : chunk.length = n + 1 := by omega
  have hn' : chunk.length - 1 = n := by omega
  have hacc := shape8_accumulate hs rest
  rw [hn'] at hacc
  have htake : (chunk ++ rest).take (n + 1) = chunk := by
    rw [← hc']; exact List.take_left chunk rest
  have hd := str8_decode_shape chunk rest hs
  have hlen4 : chunk.length ≤ 4 := by
    match chunk, hs with
    | [_], _ => simp
    | [_, _], _ => simp
    | [_, _, _], _ => simp
    | [_, _, _, _], _ => simp
  rw [htake, hd, hacc.1]
  refine ⟨by omega, rfl, hacc.2.1, ?_, hacc.2.2.2⟩
  show utf8Value chunk = _
  rw [hacc.2.2.2, hacc.2.2.1]

theorem decode_arithmetic_witness :
    (Units8 [0xE2, 0x82, 0xAC, 0x41] ∧
     trailingBytesForUTF8.getD (uint8_t ([0xE2, 0x82, 0xAC, 0x41].headD 0)) 0 = 2 ∧
     2 < [0xE2, 0x82, 0xAC, 0x41].length ∧
     isLegalUTF8 [0xE2, 0x82, 0xAC, 0x41] (2 + 1) = true) ∧
    (decode_accumulate 2 [0xE2, 0x82, 0xAC, 0x41]).1 = 0xE412C ∧
    offsetsFromUTF8.getD 2 0 = 0xE2080 ∧
    (str8.decode [0xE2, 0x82, 0xAC, 0x41]).ch = 0x20AC ∧
    (str8.decode [0xE2, 0x82, 0xAC, 0x41]).ch
      = maskAndShift ([0xE2, 0x82, 0xAC, 0x41].take (2 + 1)) :=
  ⟨by decide, by decide, by decide, by decide,
   (decode_arithmetic [0xE2, 0x82, 0xAC, 0x41] 2 (by decide) (by decide) (by decide)
     (by decide)).2.2.2.2⟩

/-! ## C22 -/

theorem shape8_value_range {chunk : List Nat} (h : Shape8 chunk) :
    (1 ≤ chunk.length ∧ chunk.length ≤ 4) ∧
    (chunk.length = 1 → utf8Value chunk ≤ 0x7F) ∧
    (chunk.length = 2 → 0x80 ≤ utf8Value chunk ∧ utf8Value chunk ≤ 0x7FF) ∧
    (chunk.length = 3 → 0x800 ≤ utf8Value chunk ∧ utf8Value chunk ≤ 0xFFFF) ∧
    (chunk.length = 4 → 0x10000 ≤ utf8Value chunk ∧ utf8Value chunk ≤ 0x10FFFF) := by
  match chunk, h with
  | [b0], h =>
    simp only [Shape8] at h
    simp only [utf8Value, List.length_cons, List.length_nil]
    omega
  | [b0, b1], h =>
    simp only [Shape8] at h
    simp only [utf8Value, List.length_cons, List.length_nil]
    omega
  | [b0, b1, b2], h =>
    simp only [Shape8] at h
    simp only [utf8Value, List.length_cons, List.length_nil]
    omega
  | [b0, b1, b2, b3], h =>
    simp only [Shape8] at h
    simp only [utf8Value, List.length_cons, List.length_nil]
    omega

/-- C22: successful 8-bit decoding yields only shortest-form scalar values. For
every 8-bit sequence `x` that `is_valid` accepts, every unit of `as_u32 x` is at
most `0x10FFFF` and outside `[0xD800, 0xDFFF]`; and a code point decoded from a
1-, 2-, 3- or 4-byte sequence lies in `[0, 0x7F]`, `[0x80, 0x7FF]`,
`[0x800, 0xFFFF]` or `[0x10000, 0x10FFFF]` respectively. -/
theorem shortest_form_scalars (x src : List Nat) (hx : Units8 x) (hsrc : Units8 src) :
    (str8.is_valid x = some true →
      ∃ cps, str8.as_u32 x = some cps ∧ ∀ c ∈ cps, IsScalar c) ∧
    (src ≠ [] → (str8.decode src).ok = true →
      IsScalar (str8.decode src).ch ∧
      ∃ k, src.length = (str8.decode src).source.length + k ∧ (1 ≤ k ∧ k ≤ 4) ∧
        (k = 1 → (str8.decode src).ch ≤ 0x7F) ∧
        (k = 2 → 0x80 ≤ (str8.decode src).ch ∧ (str8.decode src).ch ≤ 0x7FF) ∧
        (k = 3 → 0x800 ≤ (str8.decode src).ch ∧ (str8.decode src).ch ≤ 0xFFFF) ∧
        (k = 4 → 0x10000 ≤ (str8.decode src).ch ∧ (str8.decode src).ch ≤ 0x10FFFF)) := by
  constructor
  · intro hv
    obtain ⟨cps, hw⟩ := (str8_is_valid_iff x).1 hv
    exact ⟨cps, str8_as_u32_of_walk hw, (walk_str8_spec hw hx).1⟩
  · intro hne hok
    obtain ⟨chunk, rest, rfl, hs⟩ := str8_decode_ok_shape src hsrc hne hok
    rw [str8_decode_shape chunk rest hs]
    have hr := shape8_value_range hs
    exact ⟨(shape8_value chunk hs).1, chunk.length, by simp [Nat.add_comm], hr.1, hr.2⟩

theorem shortest_form_scalars_witness :
    (Units8 [0x24, 0xC2, 0xA2, 0xE2, 0x82, 0xAC, 0xF0, 0x90, 0x8D, 0x88] ∧
     Units8 [0xC2, 0xA2, 0x24]) ∧
    str8.as_u32 [0x24, 0xC2, 0xA2, 0xE2, 0x82, 0xAC, 0xF0, 0x90, 0x8D, 0x88]
      = some [0x24, 0xA2, 0x20AC, 0x10348] ∧
    (∃ cps, str8.as_u32 [0x24, 0xC2, 0xA2, 0xE2, 0x82, 0xAC, 0xF0, 0x90, 0x8D, 0x88] = some cps ∧
      ∀ c ∈ cps, IsScalar c) ∧
    IsScalar (str8.decode [0xC2, 0xA2, 0x24]).ch :=
  ⟨by decide, by decide,
   (shortest_form_scalars [0x24, 0xC2, 0xA2, 0xE2, 0x82, 0xAC, 0xF0, 0x90, 0x8D, 0x88]
     [0xC2, 0xA2, 0x24] (by decide) (by decide)).1 (by decide),
   ((shortest_form_scalars [0x24, 0xC2, 0xA2, 0xE2, 0x82, 0xAC, 0xF0, 0x90, 0x8D, 0x88]
     [0xC2, 0xA2, 0x24] (by decide) (by decide)).2 (by decide) (by decide)).1⟩

/-! ## C23 -/

theorem substituted_isScalar (c : Nat) : IsScalar (substituted c) := by
  unfold substituted
  split_ifs with h
  · exact h
  · decide

theorem flatMap_substituted_map (enc : Nat → List Nat) (cps : List Nat) :
    cps.flatMap (fun c => enc (substituted c)) = (cps.map substituted).flatMap enc := by
  induction cps with
  | nil => rfl
  | cons c cps ih => simp only [List.flatMap_cons, List.map_cons, ih]

theorem map_substituted_scalars (cps : List Nat) : ∀ c ∈ cps.map substituted, IsScalar c := by
  intro c hc
  obtain ⟨d, _, rfl⟩ := List.mem_map.1 hc
  exact substituted_isScalar d

theorem noLoneLow_nil : NoLoneLow [] := by
  intro i hi
  simp at hi

theorem noLoneLow_cons_plain {u : Nat} {rest : List Nat} (hn : NoLoneLow rest)
    (hl : ¬ IsLow u) : NoLoneLow (u :: rest) := by
  intro i hi hlow
  rcases i with _ | j
  · exact absurd (by simpa using hlow) hl
  · simp only [List.length_cons] at hi
    have h := hn j (by omega) (by simpa only [List.getD_cons_succ] using hlow)
    rcases j with _ | k
    · exact absurd h.1 (by omega)
    · exact ⟨by omega, by simpa using h.2⟩

theorem noLoneLow_cons_pair {hi lo : Nat} {rest : List Nat} (hn : NoLoneLow rest)
    (hh : IsHigh hi) : NoLoneLow (hi :: lo :: rest) := by
  have hnl : ¬ IsLow hi := by unfold IsLow; unfold IsHigh at hh; omega
  intro i hi' hlow
  rcases i with _ | _ | j
  · exact absurd (by simpa using hlow) hnl
  · exact ⟨by omega, by simpa using hh⟩
  · simp only [List.length_cons] at hi'
    have h := hn j (by omega) (by simpa only [List.getD_cons_succ] using hlow)
    rcases j with _ | k
    · exact absurd h.1 (by omega)
    · exact ⟨by omega, by simpa using h.2⟩

theorem noLoneLow_utf16Units (cps : List Nat) (h : ∀ c ∈ cps, IsScalar c) :
    NoLoneLow (cps.flatMap utf16Units) := by
  induction cps with
  | nil => exact noLoneLow_nil
  | cons c cps ih =>
    have hc : IsScalar c := h c (by simp)
    have ih' := ih (fun d hd => h d (by simp [hd]))
    unfold IsScalar at hc
    rw [List.flatMap_cons]
    unfold utf16Units
    split_ifs with h1
    · exact noLoneLow_cons_plain ih' (by unfold IsLow; omega)
    · exact noLoneLow_cons_pair ih' (by unfold IsHigh; omega)

/-- What any conversion to the 16-bit form returns is valid and has every
surrogate unit in a pair. -/
theorem utf16_output_ok (cps : List Nat) :
    u16.is_valid (cps.flatMap (fun c => utf16Units (substituted c))) = some true ∧
    HighsPaired (cps.flatMap (fun c => utf16Units (substituted c))) ∧
    NoLoneLow (cps.flatMap (fun c => utf16Units (substituted c))) := by
  rw [flatMap_substituted_map]
  have hs := map_substituted_scalars cps
  have hw := walk_u16_of_scalars _ hs
  exact ⟨(u16_is_valid_iff _).2 ⟨_, hw⟩,
    (walk_u16_iff_highsPaired _ _ (le_refl _)).1 ⟨_, hw⟩, noLoneLow_utf16Units _ hs⟩

theorem utf8_output_ok (cps : List Nat) :
    str8.is_valid (cps.flatMap (fun c => utf8Bytes (substituted c))) = some true := by
  rw [flatMap_substituted_map]
  exact (str8_is_valid_iff _).2 ⟨_, walk_str8_of_scalars _ (map_substituted_scalars cps)⟩

theorem str8_as_u16_shape (x : List Nat) :
    ∃ cps : List Nat, str8.as_u16 x = some (cps.flatMap (fun c => utf16Units (substituted c))) := by
  by_cases hv : str8.is_valid x = some true
  · obtain ⟨cps, hw⟩ := (str8_is_valid_iff x).1 hv
    exact ⟨cps, str8_as_u16_of_walk hw⟩
  · exact ⟨[], (str8_invalid x hv).2.1⟩

theorem u16_as_str8_shape (x : List Nat) :
    ∃ cps : List Nat, u16.as_str8 x = some (cps.flatMap (fun c => utf8Bytes (substituted c))) := by
  by_cases hv : u16.is_valid x = some true
  · obtain ⟨cps, hw⟩ := (u16_is_valid_iff x).1 hv
    exact ⟨cps, u16_as_str8_of_walk hw⟩
  · exact ⟨[], (u16_invalid x hv).2.1⟩

/-- C23: conversion output is always well-formed in the target form. For every
32-bit sequence `x`, out-of-range and surrogate values included,
`is_valid (as_str8 x)` and `is_valid (as_u16 x)` are true; for every 16-bit `x`,
`is_valid (as_str8 x)` is true; for every 8-bit `x`, `is_valid (as_u16 x)` is
true; and no output of `as_u16` holds an unpaired surrogate unit. -/
theorem output_well_formed (x : List Nat) :
    (∃ y, u32.as_str8 x = some y ∧ str8.is_valid y = some true) ∧
    (∃ y, u32.as_u16 x = some y ∧ u16.is_valid y = some true ∧
      HighsPaired y ∧ NoLoneLow y) ∧
    (∃ y, u16.as_str8 x = some y ∧ str8.is_valid y = some true) ∧
    (∃ y, str8.as_u16 x = some y ∧ u16.is_valid y = some true ∧
      HighsPaired y ∧ NoLoneLow y) := by
  refine ⟨⟨_, u32_as_str8_eq x, utf8_output_ok x⟩, ⟨_, u32_as_u16_eq x, utf16_output_ok x⟩,
    ?_, ?_⟩
  · obtain ⟨cps, h⟩ := u16_as_str8_shape x
    exact ⟨_, h, utf8_output_ok cps⟩
  · obtain ⟨cps, h⟩ := str8_as_u16_shape x
    exact ⟨_, h, utf16_output_ok cps⟩

theorem output_well_formed_witness :
    u32.as_u16 [0xD800, 0x10348, 0x110000, 0xDC00] = some [0xFFFD, 0xD800, 0xDF48, 0xFFFD, 0xFFFD] ∧
    u16.is_valid [0xFFFD, 0xD800, 0xDF48, 0xFFFD, 0xFFFD] = some true ∧
    u16.as_str8 [0xDC00, 0x41] = some [0xEF, 0xBF, 0xBD, 0x41] ∧
    str8.is_valid [0xEF, 0xBF, 0xBD, 0x41] = some true ∧
    (∃ y, u32.as_u16 [0xD800, 0x10348, 0x110000, 0xDC00] = some y ∧
      u16.is_valid y = some true ∧ HighsPaired y ∧ NoLoneLow y) :=
  ⟨by decide, by decide, by decide, by decide,
   (output_well_formed [0xD800, 0x10348, 0x110000, 0xDC00]).2.1⟩

/-! ## C24 -/

/-- C24: every conversion factors through UTF-32. For every 8-bit sequence `x`,
`as_u16 x = as_u16 (as_u32 x)`, and for every 16-bit sequence `y`,
`as_str8 y = as_str8 (as_u32 y)`; both sides are empty when the input is
invalid. -/
theorem factors_through_utf32 (x y : List Nat) :
    (str8.as_u16 x = (str8.as_u32 x).bind u32.as_u16 ∧
      (str8.is_valid x ≠ some true →
        str8.as_u16 x = some [] ∧ (str8.as_u32 x).bind u32.as_u16 = some [])) ∧
    (u16.as_str8 y = (u16.as_u32 y).bind u32.as_str8 ∧
      (u16.is_valid y ≠ some true →
        u16.as_str8 y = some [] ∧ (u16.as_u32 y).bind u32.as_str8 = some [])) := by
  have e1 : u32.as_u16 [] = some [] := by decide
  have e2 : u32.as_str8 [] = some [] := by decide
  have hx : str8.is_valid x ≠ some true →
      str8.as_u16 x = some [] ∧ (str8.as_u32 x).bind u32.as_u16 = some [] := by
    intro hv
    obtain ⟨_, h2, h3⟩ := str8_invalid x hv
    exact ⟨h2, by rw [h3, Option.some_bind, e1]⟩
  have hy : u16.is_valid y ≠ some true →
      u16.as_str8 y = some [] ∧ (u16.as_u32 y).bind u32.as_str8 = some [] := by
    intro hv
    obtain ⟨_, h2, h3⟩ := u16_invalid y hv
    exact ⟨h2, by rw [h3, Option.some_bind, e2]⟩
  refine ⟨⟨?_, hx⟩, ⟨?_, hy⟩⟩
  · by_cases hv : str8.is_valid x = some true
    · obtain ⟨cps, hw⟩ := (str8_is_valid_iff x).1 hv
      rw [str8_as_u16_of_walk hw, str8_as_u32_of_walk hw, Option.some_bind, u32_as_u16_eq]
    · rw [(hx hv).1, (hx hv).2]
  · by_cases hv : u16.is_valid y = some true
    · obtain ⟨cps, hw⟩ := (u16_is_valid_iff y).1 hv
      rw [u16_as_str8_of_walk hw, u16_as_u32_of_walk hw, Option.some_bind, u32_as_str8_eq]
    · rw [(hy hv).1, (hy hv).2]

theorem factors_through_utf32_witness :
    str8.as_u16 [0x24, 0xF0, 0x90, 0x8D, 0x88] = some [0x24, 0xD800, 0xDF48] ∧
    str8.as_u32 [0x24, 0xF0, 0x90, 0x8D, 0x88] = some [0x24, 0x10348] ∧
    u32.as_u16 [0x24, 0x10348] = some [0x24, 0xD800, 0xDF48] ∧
    u16.as_str8 [0xDC00] = (u16.as_u32 [0xDC00]).bind u32.as_str8 ∧
    (str8.as_u16 [0x61, 0xFF] = some [] ∧
      (str8.as_u32 [0x61, 0xFF]).bind u32.as_u16 = some []) :=
  ⟨by decide, by decide, by decide,
   (factors_through_utf32 [] [0xDC00]).2.1,
   (factors_through_utf32 [0x61, 0xFF] []).1.2 (by decide)⟩

/-! ## C25 -/

/-- A walk of `a` goes on into whatever follows `a`, when every successful
decode inside `a` reads the same units with more units behind them. -/
theorem walk_append {decode : List Nat → Decoded} (Inv : List Nat → Prop)
    (hstep : ∀ a, Inv a → a ≠ [] → (decode a).ok = true →
      Inv (decode a).source ∧
      ∀ b, decode (a ++ b) = ⟨(decode a).ch, (decode a).source ++ b, true⟩)
    {a cpsA : List Nat} (hw : Walk decode a cpsA) :
    Inv a → ∀ b,
      (∀ cpsB, Walk decode b cpsB → Walk decode (a ++ b) (cpsA ++ cpsB)) ∧
      ((∃ cps, Walk decode (a ++ b) cps) → ∃ cps, Walk decode b cps) := by
  induction hw with
  | done => intro _ b; exact ⟨fun cpsB h => h, fun h => h⟩
  | step source cps hne hok _ ih =>
    intro hinv b
    obtain ⟨hinv', hd⟩ := hstep source hinv hne hok
    have hne' : source ++ b ≠ [] := by simp [hne]
    have ih' := ih hinv' b
    constructor
    · intro cpsB hB
      have hs := @Walk.step decode (source ++ b) (cps ++ cpsB) hne' (by rw [hd b])
        (by rw [hd b]; exact ih'.1 cpsB hB)
      rw [hd b] at hs
      exact hs
    · intro h
      rw [walk_exists_iff hne', hd b] at h
      exact ih'.2 h.2

theorem str8_decode_append (a : List Nat) (hU : Units8 a) (hne : a ≠ [])
    (hok : (str8.decode a).ok = true) :
    Units8 (str8.decode a).source ∧
    ∀ b, str8.decode (a ++ b) = ⟨(str8.decode a).ch, (str8.decode a).source ++ b, true⟩ := by
  obtain ⟨chunk, rest, rfl, hs⟩ := str8_decode_ok_shape a hU hne hok
  rw [str8_decode_shape chunk rest hs]
  refine ⟨fun u hu => hU u (by simp [hu]), fun b => ?_⟩
  rw [List.append_assoc, str8_decode_shape chunk (rest ++ b) hs]

theorem u16_decode_append (a : List Nat) (hne : a ≠ []) (hok : (u16.decode a).ok = true) :
    True ∧
    ∀ b, u16.decode (a ++ b) = ⟨(u16.decode a).ch, (u16.decode a).source ++ b, true⟩ := by
  refine ⟨trivial, fun b => ?_⟩
  rcases u16_decode_ok_cases a hne hok with ⟨u, rest, rfl, hu, hd⟩ |
    ⟨hi, lo, rest, rfl, hh, hl, hd⟩
  · rw [hd]
    exact u16_decode_plain u (rest ++ b) hu
  · rw [hd]
    exact u16_decode_pair hi lo (rest ++ b) hh hl

theorem option_bool_eq_of_iff {p q : Option Bool}
    (hp : p = some true ∨ p = some false) (hq : q = some true ∨ q = some false)
    (h : p = some true ↔ q = some true) : p = q := by
  rcases hp with hp | hp <;> rcases hq with hq | hq
  · rw [hp, hq]
  · rw [h.1 hp] at hq; exact absurd hq (by simp)
  · rw [h.2 hq] at hp; exact absurd hp (by simp)
  · rw [hp, hq]

/-- C25: validation and conversion distribute over concatenation after a valid
prefix. For `a` and `b` of the 8-bit form, or of the 16-bit form, with
`is_valid a` true, `is_valid (a ++ b) = is_valid b`, and when `is_valid b` is
true as well each conversion of `a ++ b` is the conversion of `a` followed by
the conversion of `b`; for 32-bit sources `as_str8` and `as_u16` of `a ++ b` are
those of `a` followed by those of `b`, for all `a` and `b`. -/
theorem valid_concat_distributes (a b : List Nat) :
    (Units8 a → str8.is_valid a = some true →
      str8.is_valid (a ++ b) = str8.is_valid b ∧
      (str8.is_valid b = some true →
        (∃ A B, str8.as_u32 a = some A ∧ str8.as_u32 b = some B ∧
          str8.as_u32 (a ++ b) = some (A ++ B)) ∧
        (∃ A B, str8.as_u16 a = some A ∧ str8.as_u16 b = some B ∧
          str8.as_u16 (a ++ b) = some (A ++ B)))) ∧
    (u16.is_valid a = some true →
      u16.is_valid (a ++ b) = u16.is_valid b ∧
      (u16.is_valid b = some true →
        (∃ A B, u16.as_u32 a = some A ∧ u16.as_u32 b = some B ∧
          u16.as_u32 (a ++ b) = some (A ++ B)) ∧
        (∃ A B, u16.as_str8 a = some A ∧ u16.as_str8 b = some B ∧
          u16.as_str8 (a ++ b) = some (A ++ B)))) ∧
    ((∃ A B, u32.as_str8 a = some A ∧ u32.as_str8 b = some B ∧
        u32.as_str8 (a ++ b) = some (A ++ B)) ∧
     (∃ A B, u32.as_u16 a = some A ∧ u32.as_u16 b = some B ∧
        u32.as_u16 (a ++ b) = some (A ++ B))) := by
  refine ⟨?_, ?_, ?_⟩
  · intro hU hv
    obtain ⟨cpsA, hwA⟩ := (str8_is_valid_iff a).1 hv
    have happ := walk_append Units8 str8_decode_append hwA hU b
    constructor
    · apply option_bool_eq_of_iff (str8_is_valid_total _) (str8_is_valid_total _)
      rw [str8_is_valid_iff, str8_is_valid_iff]
      exact ⟨happ.2, fun ⟨cps, h⟩ => ⟨_, happ.1 cps h⟩⟩
    · intro hvb
      obtain ⟨cpsB, hwB⟩ := (str8_is_valid_iff b).1 hvb
      have hw := happ.1 cpsB hwB
      refine ⟨⟨_, _, str8_as_u32_of_walk hwA, str8_as_u32_of_walk hwB,
        str8_as_u32_of_walk hw⟩, ⟨_, _, str8_as_u16_of_walk hwA, str8_as_u16_of_walk hwB, ?_⟩⟩
      rw [str8_as_u16_of_walk hw, List.flatMap_append]
  · intro hv
    obtain ⟨cpsA, hwA⟩ := (u16_is_valid_iff a).1 hv
    have happ := walk_append (fun _ => True)
      (fun a _ hne hok => u16_decode_append a hne hok) hwA trivial b
    constructor
    · apply option_bool_eq_of_iff (u16_is_valid_total _) (u16_is_valid_total _)
      rw [u16_is_valid_iff, u16_is_valid_iff]
      exact ⟨happ.2, fun ⟨cps, h⟩ => ⟨_, happ.1 cps h⟩⟩
    · intro hvb
      obtain ⟨cpsB, hwB⟩ := (u16_is_valid_iff b).1 hvb
      have hw := happ.1 cpsB hwB
      refine ⟨⟨_, _, u16_as_u32_of_walk hwA, u16_as_u32_of_walk hwB,
        u16_as_u32_of_walk hw⟩, ⟨_, _, u16_as_str8_of_walk hwA, u16_as_str8_of_walk hwB, ?_⟩⟩
      rw [u16_as_str8_of_walk hw, List.flatMap_append]
  · refine ⟨⟨_, _, u32_as_str8_eq a, u32_as_str8_eq b, ?_⟩,
      ⟨_, _, u32_as_u16_eq a, u32_as_u16_eq b, ?_⟩⟩
    · rw [u32_as_str8_eq, List.flatMap_append]
    · rw [u32_as_u16_eq, List.flatMap_append]

theorem valid_concat_distributes_witness :
    Units8 [0x61, 0xC2, 0xA2] ∧ str8.is_valid [0x61, 0xC2, 0xA2] = some true ∧
    str8.is_valid ([0x61, 0xC2, 0xA2] ++ [0xA2, 0x62]) = str8.is_valid [0xA2, 0x62] ∧
    str8.is_valid [0xA2, 0x62] = some false ∧
    str8.as_u32 ([0x61, 0xC2, 0xA2] ++ [0xE2, 0x82, 0xAC]) = some ([0x61, 0xA2] ++ [0x20AC]) :=
  ⟨by decide, by decide,
   ((valid_concat_distributes [0x61, 0xC2, 0xA2] [0xA2, 0x62]).1 (by decide) (by decide)).1,
   by decide, by decide⟩

/-! ## C26 -/

theorem read_at_cons_zero (a : Nat) (l : List Nat) : read_at (a :: l) 0 = some a := by
  simp [read_at]

theorem read_at_cons_succ (a : Nat) (l : List Nat) (i : Nat) :
    read_at (a :: l) (i + 1) = read_at l i := by
  simp [read_at]

theorem read_at_lt (l : List Nat) (i : Nat) (h : i < l.length) :
    read_at l i = some (l.getD i 0) := by
  simp [read_at, List.getD, List.getElem?_eq_getElem h]

theorem advance_cons (a : Nat) (l : List Nat) : advance (a :: l) = some l := rfl

theorem isLegalUTF8_end_checked_eq (source : List Nat) (h : 0 < source.length) :
    isLegalUTF8_end_checked source = some (isLegalUTF8_end source) := by
  unfold isLegalUTF8_end_checked isLegalUTF8_end
  rw [read_at_lt source 0 h, Option.some_bind]

theorem isLegalUTF8_case1_checked_eq (source : List Nat) (h : 0 < source.length) :
    isLegalUTF8_case1_checked source = some (isLegalUTF8_case1 source) := by
  unfold isLegalUTF8_case1_checked isLegalUTF8_case1
  rw [read_at_lt source 0 h, Option.some_bind, isLegalUTF8_end_checked_eq source h]
  split_ifs <;> rfl

theorem isLegalUTF8_case2_checked_eq (source : List Nat) (srcptr : Nat) (h0 : 0 < srcptr - 1)
    (h : srcptr - 1 < source.length) :
    isLegalUTF8_case2_checked source srcptr = some (isLegalUTF8_case2 source srcptr) := by
  unfold isLegalUTF8_case2_checked isLegalUTF8_case2
  simp only []
  rw [read_at_lt source _ h, Option.some_bind, read_at_lt source 0 (by omega), Option.some_bind,
    isLegalUTF8_case1_checked_eq source (by omega)]
  split_ifs <;> rfl

theorem isLegalUTF8_case3_checked_eq (source : List Nat) (srcptr : Nat)
    (h0 : 0 < srcptr - 1 - 1) (h : srcptr - 1 < source.length) :
    isLegalUTF8_case3_checked source srcptr = some (isLegalUTF8_case3 source srcptr) := by
  unfold isLegalUTF8_case3_checked isLegalUTF8_case3
  simp only []
  rw [read_at_lt source _ h, Option.some_bind,
    isLegalUTF8_case2_checked_eq source (srcptr - 1) h0 (by omega)]
  split_ifs <;> rfl

theorem isLegalUTF8_case4_checked_eq (source : List Nat) (srcptr : Nat)
    (h0 : 0 < srcptr - 1 - 1 - 1) (h : srcptr - 1 < source.length) :
    isLegalUTF8_case4_checked source srcptr = some (isLegalUTF8_case4 source srcptr) := by
  unfold isLegalUTF8_case4_checked isLegalUTF8_case4
  simp only []
  rw [read_at_lt source _ h, Option.some_bind,
    isLegalUTF8_case3_checked_eq source (srcptr - 1) h0 (by omega)]
  split_ifs <;> rfl

/-- When more than `n` units remain, `isLegalUTF8 (source, n + 1)` reads inside
the sequence only. -/
theorem isLegalUTF8_checked_eq (source : List Nat) (n : Nat) (h : n < source.length) :
    isLegalUTF8_checked source (n + 1) = some (isLegalUTF8 source (n + 1)) := by
  unfold isLegalUTF8_checked isLegalUTF8
  simp only []
  split_ifs with h4 h3 h2 h1
  · exact isLegalUTF8_case4_checked_eq source _ (by omega) (by omega)
  · exact isLegalUTF8_case3_checked_eq source _ (by omega) (by omega)
  · exact isLegalUTF8_case2_checked_eq source _ (by omega) (by omega)
  · exact isLegalUTF8_case1_checked_eq source (by omega)
  · rfl

theorem decode_add_checked_cons (c b : Nat) (rest : List Nat) :
    decode_add_checked (c, b :: rest) = some (decode_add (c, b :: rest)) := by
  simp [decode_add_checked, decode_add, read_at, advance]

theorem decode_add_shift_checked_cons (c b : Nat) (rest : List Nat) :
    decode_add_shift_checked (c, b :: rest) = some (decode_add_shift (c, b :: rest)) := by
  simp [decode_add_shift_checked, decode_add_shift, read_at, advance]

theorem decode_add_snd (c b : Nat) (rest : List Nat) :
    decode_add_shift (c, b :: rest) = ((decode_add_shift (c, b :: rest)).1, rest) := rfl

set_option maxRecDepth 100000 in
theorem trailingBytes_length : trailingBytesForUTF8.length = 256 := by decide

/-- The 8-bit decoder makes no read and no advance past the end. -/
theorem str8_decode_checked_eq (source : List Nat) (hne : source ≠ []) :
    str8.decode_checked source = some (str8.decode source) := by
  obtain ⟨b0, tl, rfl⟩ := List.exists_cons_of_ne_nil hne
  have hlt : uint8_t b0 < trailingBytesForUTF8.length := by
    rw [trailingBytes_length]; unfold uint8_t; omega
  unfold str8.decode_checked str8.decode
  simp only [read_at_cons_zero, Option.some_bind, List.headD_cons]
  rw [read_at_lt _ _ hlt, Option.some_bind]
  by_cases hlen : trailingBytesForUTF8.getD (uint8_t b0) 0 ≥ (b0 :: tl).length
  · simp only [hlen, if_true]
  · simp only [hlen, if_false]
    rw [isLegalUTF8_checked_eq _ _ (by omega), Option.some_bind]
    by_cases hleg : isLegalUTF8 (b0 :: tl) (trailingBytesForUTF8.getD (uint8_t b0) 0 + 1) = true
    · simp only [hleg, not_true_eq_false, if_false]
      have hk3 : trailingBytesForUTF8.getD (uint8_t b0) 0 ≤ 3 := by
        by_contra hc
        rw [isLegalUTF8_long _ _ (by omega)] at hleg
        exact absurd hleg (by simp)
      have hoff : read_at offsetsFromUTF8 (trailingBytesForUTF8.getD (uint8_t b0) 0)
          = some (offsetsFromUTF8.getD (trailingBytesForUTF8.getD (uint8_t b0) 0) 0) :=
        read_at_lt _ _ (by
          have : offsetsFromUTF8.length = 6 := rfl
          omega)
      simp only [List.length_cons] at hlen
      rw [hoff]
      obtain hk | hk | hk | hk : trailingBytesForUTF8.getD (uint8_t b0) 0 = 0 ∨
          trailingBytesForUTF8.getD (uint8_t b0) 0 = 1 ∨
          trailingBytesForUTF8.getD (uint8_t b0) 0 = 2 ∨
          trailingBytesForUTF8.getD (uint8_t b0) 0 = 3 := by omega
      · simp only [hk, decode_add_checked_cons, Option.some_bind]
        rfl
      · rw [hk] at hlen
        obtain ⟨b1, tl, rfl⟩ := List.exists_cons_of_ne_nil
          (List.length_pos.1 (by omega : 0 < tl.length))
        simp only [hk, decode_add_shift_checked_cons, Option.some_bind]
        rw [decode_add_snd]
        simp only [decode_add_checked_cons, Option.some_bind]
        rfl
      · rw [hk] at hlen
        obtain ⟨b1, tl, rfl⟩ := List.exists_cons_of_ne_nil
          (List.length_pos.1 (by omega : 0 < tl.length))
        simp only [List.length_cons] at hlen
        obtain ⟨b2, tl, rfl⟩ := List.exists_cons_of_ne_nil
          (List.length_pos.1 (by omega : 0 < tl.length))
        simp only [hk, decode_add_shift_checked_cons, Option.some_bind]
        rw [decode_add_snd]
        simp only [decode_add_shift_checked_cons, Option.some_bind]
        rw [decode_add_snd]
        simp only [decode_add_checked_cons, Option.some_bind]
        rfl
      · rw [hk] at hlen
        obtain ⟨b1, tl, rfl⟩ := List.exists_cons_of_ne_nil
          (List.length_pos.1 (by omega : 0 < tl.length))
        simp only [List.length_cons] at hlen
        obtain ⟨b2, tl, rfl⟩ := List.exists_cons_of_ne_nil
          (List.length_pos.1 (by omega : 0 < tl.length))
        simp only [List.length_cons] at hlen
        obtain ⟨b3, tl, rfl⟩ := List.exists_cons_of_ne_nil
          (List.length_pos.1 (by omega : 0 < tl.length))
        simp only [hk, decode_add_shift_checked_cons, Option.some_bind]
        rw [decode_add_snd]
        simp only [decode_add_shift_checked_cons, Option.some_bind]
        rw [decode_add_snd]
        simp only [decode_add_shift_checked_cons, Option.some_bind]
        rw [decode_add_snd]
        simp only [decode_add_checked_cons, Option.some_bind]
        rfl
    · simp only [hleg, Bool.false_eq_true, not_false_eq_true, if_true]

/-- The 16-bit decoder makes no read and no advance past the end. -/
theorem u16_decode_checked_eq (source : List Nat) (hne : source ≠ []) :
    u16.decode_checked source = some (u16.decode source) := by
  obtain ⟨u, rest, rfl⟩ := List.exists_cons_of_ne_nil hne
  unfold u16.decode_checked u16.decode
  simp only [read_at_cons_zero, advance_cons, Option.some_bind, List.headD_cons,
    List.tail_cons]
  by_cases hu : u ≥ UNI_SUR_HIGH_START ∧ u ≤ UNI_SUR_HIGH_END
  · simp only [hu, and_self, if_true]
    rcases rest with _ | ⟨lo, tl⟩
    · simp
    · simp only [ne_eq, reduceCtorEq, not_false_eq_true, if_true, read_at_cons_zero,
        advance_cons, Option.some_bind, List.headD_cons, List.tail_cons]
      split_ifs <;> rfl
  · simp only [hu, if_false]

theorem u32_decode_checked_eq (source : List Nat) (hne : source ≠ []) :
    u32.decode_checked source = some (u32.decode source) := by
  obtain ⟨u, rest, rfl⟩ := List.exists_cons_of_ne_nil hne
  simp [u32.decode_checked, u32.decode, read_at, advance]

theorem str8_decode_cursor (source : List Nat) :
    ∃ k, k ≤ source.length ∧ (str8.decode source).source = source.drop k := by
  by_cases hok : (str8.decode source).ok = true
  · have h := str8_decode_source source hok
    have hl := ((str8_decode_ok_iff source).1 hok).1
    exact ⟨_, by omega, h.2⟩
  · exact ⟨0, by omega, by rw [str8_decode_fail source hok]; rfl⟩

theorem u16_decode_cursor (source : List Nat) (hne : source ≠ []) :
    ∃ k, k ≤ source.length ∧ (u16.decode source).source = source.drop k := by
  obtain ⟨u, rest, rfl⟩ := List.exists_cons_of_ne_nil hne
  by_cases hu : IsHigh u
  · rcases rest with _ | ⟨lo, tl⟩
    · exact ⟨1, by simp, by rw [u16_decode_unpaired u [] hu (by simp)]; rfl⟩
    · by_cases hl : IsLow lo
      · exact ⟨2, by simp, by rw [u16_decode_pair u lo tl hu hl]; rfl⟩
      · exact ⟨1, by simp, by
          rw [u16_decode_unpaired u (lo :: tl) hu (by intro lo' tl' e; cases e; exact hl)]
          rfl⟩
  · exact ⟨1, by simp, by rw [u16_decode_plain u rest hu]; rfl⟩

/-- C26: no over-read. For every source sequence and every cursor strictly
before the end, one decode call of the 8-bit, 16-bit or 32-bit form reads only
units before the end (the decoder with checked reads and advances returns the
same result, never `none`) and leaves the cursor at a position not beyond the
end, whether it succeeds or fails; and the 8-bit legality check, called for
`n + 1` units when more than `n` units remain, reads before the end only. -/
theorem no_over_read (source : List Nat) (hne : source ≠ []) :
    (str8.decode_checked source = some (str8.decode source) ∧
      ∃ k, k ≤ source.length ∧ (str8.decode source).source = source.drop k) ∧
    (u16.decode_checked source = some (u16.decode source) ∧
      ∃ k, k ≤ source.length ∧ (u16.decode source).source = source.drop k) ∧
    (u32.decode_checked source = some (u32.decode source) ∧
      ∃ k, k ≤ source.length ∧ (u32.decode source).source = source.drop k) ∧
    (∀ n, n < source.length →
      isLegalUTF8_checked source (n + 1) = some (isLegalUTF8 source (n + 1))) := by
  refine ⟨⟨str8_decode_checked_eq source hne, str8_decode_cursor source⟩,
    ⟨u16_decode_checked_eq source hne, u16_decode_cursor source hne⟩,
    ⟨u32_decode_checked_eq source hne, ?_⟩, fun n hn => isLegalUTF8_checked_eq source n hn⟩
  obtain ⟨u, rest, rfl⟩ := List.exists_cons_of_ne_nil hne
  exact ⟨1, by simp, rfl⟩

set_option maxRecDepth 100000 in
theorem no_over_read_witness :
    [0xE2, 0x8F] ≠ [] ∧
    str8.decode_checked [0xE2, 0x8F] = some ⟨0, [0xE2, 0x8F], false⟩ ∧
    isLegalUTF8_checked [0xE2, 0x8F] 3 = none ∧
    u16.decode_checked [0xD800] = some ⟨0xD800, [], false⟩ ∧
    (str8.decode_checked [0xE2, 0x8F] = some (str8.decode [0xE2, 0x8F]) ∧
      ∃ k, k ≤ [0xE2, 0x8F].length ∧ (str8.decode [0xE2, 0x8F]).source = [0xE2, 0x8F].drop k) :=
  ⟨by decide, by decide, by decide, by decide, (no_over_read [0xE2, 0x8F] (by decide)).1⟩

/-! ## C27 -/

/-- C27: progress and termination. Every successful decode advances the cursor
by at least one unit: by exactly `trailing_count + 1`, between 1 and 4, for the
8-bit form, by 1 or 2 for the 16-bit form, by 1 for the 32-bit form. So for every
input of length `n` the loops of `is_valid` and `convert` end within `n` decode
calls: a budget of `n` turns, or more, always gives a result, and the same
one. -/
theorem progress_and_termination (source out : List Nat)
    (encode : Nat → List Nat → List Nat) (steps : Nat) :
    (source ≠ [] → (str8.decode source).ok = true →
      trailingBytesForUTF8.getD (uint8_t (source.headD 0)) 0 ≤ 3 ∧
      trailingBytesForUTF8.getD (uint8_t (source.headD 0)) 0 + 1 ≤ source.length ∧
      (str8.decode source).source
        = source.drop (trailingBytesForUTF8.getD (uint8_t (source.headD 0)) 0 + 1)) ∧
    (source ≠ [] → (u16.decode source).ok = true →
      (u16.decode source).source = source.drop 1 ∨
      (2 ≤ source.length ∧ (u16.decode source).source = source.drop 2)) ∧
    (source ≠ [] →
      (u32.decode source).ok = true ∧ (u32.decode source).source = source.drop 1) ∧
    (source.length ≤ steps →
      (∃ v, is_valid_impl str8.decode source.length source = some v ∧
        is_valid_impl str8.decode steps source = some v) ∧
      (∃ v, is_valid_impl u16.decode source.length source = some v ∧
        is_valid_impl u16.decode steps source = some v) ∧
      (∃ r, convert str8.decode encode source.length source out = some r ∧
        convert str8.decode encode steps source out = some r) ∧
      (∃ r, convert u16.decode encode source.length source out = some r ∧
        convert u16.decode encode steps source out = some r) ∧
      (∃ r, convert u32.decode encode source.length source out = some r ∧
        convert u32.decode encode steps source out = some r)) := by
  refine ⟨?_, ?_, ?_, ?_⟩
  · intro _ hok
    have h := str8_decode_source source hok
    have hl := ((str8_decode_ok_iff source).1 hok).1
    exact ⟨h.1, by omega, h.2⟩
  · intro hne hok
    rcases u16_decode_ok_cases source hne hok with ⟨u, rest, rfl, _, hd⟩ |
      ⟨hi, lo, rest, rfl, _, _, hd⟩
    · left; rw [hd]; rfl
    · right; rw [hd]; exact ⟨by simp, rfl⟩
  · intro hne
    obtain ⟨u, rest, rfl⟩ := List.exists_cons_of_ne_nil hne
    exact ⟨rfl, rfl⟩
  · intro h
    exact ⟨(loops_total str8_progress encode source out steps h).1,
      (loops_total u16_progress encode source out steps h).1,
      (loops_total str8_progress encode source out steps h).2,
      (loops_total u16_progress encode source out steps h).2,
      (loops_total u32_progress encode source out steps h).2⟩

theorem progress_and_termination_witness :
    [0xE2, 0x82, 0xAC, 0x41] ≠ [] ∧ (str8.decode [0xE2, 0x82, 0xAC, 0x41]).ok = true ∧
    (str8.decode [0xE2, 0x82, 0xAC, 0x41]).source = [0x41] ∧
    (trailingBytesForUTF8.getD (uint8_t ([0xE2, 0x82, 0xAC, 0x41].headD 0)) 0 ≤ 3 ∧
      trailingBytesForUTF8.getD (uint8_t ([0xE2, 0x82, 0xAC, 0x41].headD 0)) 0 + 1
        ≤ [0xE2, 0x82, 0xAC, 0x41].length ∧
      (str8.decode [0xE2, 0x82, 0xAC, 0x41]).source
        = [0xE2, 0x82, 0xAC, 0x41].drop
            (trailingBytesForUTF8.getD (uint8_t ([0xE2, 0x82, 0xAC, 0x41].headD 0)) 0 + 1)) :=
  ⟨by decide, by decide, by decide,
   (progress_and_termination [0xE2, 0x82, 0xAC, 0x41] [] u32.encode 4).1 (by decide)
     (by decide)⟩

/-! ## C28 -/

/-- C28: a failed 8-bit decode consumes nothing. The 8-bit decoder fails exactly
when too few units remain or the legality check rejects, and then the cursor is
left where it was; a failed 16-bit decode, which happens only at a high
surrogate without a low surrogate after it, leaves the cursor advanced by
exactly 1. -/
theorem failed_decode_cursor (source : List Nat) :
    ((str8.decode source).ok = false ↔
      (trailingBytesForUTF8.getD (uint8_t (source.headD 0)) 0 ≥ source.length ∨
       isLegalUTF8 source (trailingBytesForUTF8.getD (uint8_t (source.headD 0)) 0 + 1)
         = false)) ∧
    ((str8.decode source).ok = false → (str8.decode source).source = source) ∧
    (source ≠ [] → (u16.decode source).ok = false →
      IsHigh (source.headD 0) ∧ (u16.decode source).source = source.drop 1) := by
  refine ⟨?_, ?_, ?_⟩
  · have h := str8_decode_ok_iff source
    constructor
    · intro hf
      by_contra hc
      have : (str8.decode source).ok = true :=
        h.2 ⟨by omega, by
          cases hl : isLegalUTF8 source
            (trailingBytesForUTF8.getD (uint8_t (source.headD 0)) 0 + 1)
          · exact absurd (Or.inr hl) hc
          · rfl⟩
      rw [this] at hf
      exact absurd hf (by simp)
    · intro hc
      cases hok : (str8.decode source).ok
      · rfl
      · obtain ⟨h1, h2⟩ := h.1 hok
        rcases hc with hc | hc
        · omega
        · rw [hc] at h2; exact absurd h2 (by simp)
  · intro hf
    rw [str8_decode_fail source (by rw [hf]; simp)]
  · intro hne hf
    obtain ⟨u, rest, rfl⟩ := List.exists_cons_of_ne_nil hne
    by_cases hu : IsHigh u
    · refine ⟨hu, ?_⟩
      rcases rest with _ | ⟨lo, tl⟩
      · rw [u16_decode_unpaired u [] hu (by simp)]; rfl
      · by_cases hl : IsLow lo
        · rw [u16_decode_pair u lo tl hu hl] at hf
          exact absurd hf (by simp)
        · rw [u16_decode_unpaired u (lo :: tl) hu (by intro lo' tl' e; cases e; exact hl)]
          rfl
    · rw [u16_decode_plain u rest hu] at hf
      exact absurd hf (by simp)

theorem failed_decode_cursor_witness :
    (str8.decode [0xE2, 0x8F]).ok = false ∧ (str8.decode [0xE2, 0x8F]).source = [0xE2, 0x8F] ∧
    (str8.decode [0xE0, 0x9F, 0x80]).ok = false ∧
    (str8.decode [0xE0, 0x9F, 0x80]).source = [0xE0, 0x9F, 0x80] ∧
    [0xD800, 0x41] ≠ [] ∧ (u16.decode [0xD800, 0x41]).ok = false ∧
    (IsHigh ([0xD800, 0x41].headD 0) ∧ (u16.decode [0xD800, 0x41]).source = [0x41]) :=
  ⟨by decide, (failed_decode_cursor [0xE2, 0x8F]).2.1 (by decide), by decide,
   (failed_decode_cursor [0xE0, 0x9F, 0x80]).2.1 (by decide), by decide, by decide,
   (failed_decode_cursor [0xD800, 0x41]).2.2 (by decide) (by decide)⟩

/-! ## C29 -/

theorem walk_u16_range {x cps : List Nat} (hw : Walk u16.decode x cps) (hU : Units16 x) :
    ∀ c ∈ cps, c ≤ 0x10FFFF ∧ ¬ IsHigh c := by
  induction hw with
  | done => simp
  | step source cps hne hok _ ih =>
    rcases u16_decode_ok_cases source hne hok with ⟨u, rest, rfl, hu, hd⟩ |
      ⟨hi, lo, rest, rfl, hh, hl, hd⟩
    · rw [hd] at ih ⊢
      simp only at ih ⊢
      have hu16 : u < 65536 := hU u (by simp)
      intro c hc
      rcases List.mem_cons.1 hc with h | hc
      · rw [h]; exact ⟨by omega, hu⟩
      · exact ih (fun b hb => hU b (by simp [hb])) c hc
    · rw [hd] at ih ⊢
      simp only at ih ⊢
      unfold IsHigh at hh
      unfold IsLow at hl
      intro c hc
      rcases List.mem_cons.1 hc with h | hc
      · rw [h]; unfold IsHigh; omega
      · exact ih (fun b hb => hU b (by simp [hb])) c hc

/-- C29: range of UTF-16 decoding. For every 16-bit sequence `x`, every unit of
`as_u32 x` is at most `0x10FFFF` and none lies in `[0xD800, 0xDBFF]`; and a
decoded unit is at least `0x10000` exactly when the decoder made it from a
surrogate pair, that is when it read a high surrogate and consumed two units. -/
theorem utf16_decoding_range (x src : List Nat) (hx : Units16 x) (hsrc : Units16 src) :
    (∃ y, u16.as_u32 x = some y ∧ ∀ c ∈ y, c ≤ 0x10FFFF ∧ ¬ IsHigh c) ∧
    (src ≠ [] → (u16.decode src).ok = true →
      (0x10000 ≤ (u16.decode src).ch ↔ IsHigh (src.headD 0)) ∧
      (0x10000 ≤ (u16.decode src).ch ↔ src.length = (u16.decode src).source.length + 2) ∧
      ((u16.decode src).ch < 0x10000 ↔ src.length = (u16.decode src).source.length + 1)) := by
  constructor
  · by_cases hv : u16.is_valid x = some true
    · obtain ⟨cps, hw⟩ := (u16_is_valid_iff x).1 hv
      exact ⟨cps, u16_as_u32_of_walk hw, walk_u16_range hw hx⟩
    · exact ⟨[], (u16_invalid x hv).2.2, by simp⟩
  · intro hne hok
    rcases u16_decode_ok_cases src hne hok with ⟨u, rest, rfl, hu, hd⟩ |
      ⟨hi, lo, rest, rfl, hh, hl, hd⟩
    · have hu16 : u < 65536 := hsrc u (by simp)
      rw [hd]
      simp only [List.headD_cons, List.length_cons]
      exact ⟨⟨fun h => by omega, fun h => absurd h hu⟩, ⟨fun h => by omega, fun h => by omega⟩,
        ⟨fun _ => trivial, fun _ => hu16⟩⟩
    · rw [hd]
      simp only [List.headD_cons, List.length_cons]
      exact ⟨⟨fun _ => hh, fun _ => by omega⟩, ⟨fun _ => trivial, fun _ => by omega⟩,
        ⟨fun h => by omega, fun h => by omega⟩⟩

theorem utf16_decoding_range_witness :
    (Units16 [0x41, 0xD800, 0xDF48, 0xDC00, 0xFFFF] ∧ Units16 [0xDBFF, 0xDFFF, 0x41]) ∧
    u16.as_u32 [0x41, 0xD800, 0xDF48, 0xDC00, 0xFFFF] = some [0x41, 0x10348, 0xDC00, 0xFFFF] ∧
    (∃ y, u16.as_u32 [0x41, 0xD800, 0xDF48, 0xDC00, 0xFFFF] = some y ∧
      ∀ c ∈ y, c ≤ 0x10FFFF ∧ ¬ IsHigh c) ∧
    (u16.decode [0xDBFF, 0xDFFF, 0x41]).ch = 0x10FFFF ∧
    (0x10000 ≤ (u16.decode [0xDBFF, 0xDFFF, 0x41]).ch ↔
      IsHigh ([0xDBFF, 0xDFFF, 0x41].headD 0)) :=
  ⟨by decide, by decide,
   (utf16_decoding_range [0x41, 0xD800, 0xDF48, 0xDC00, 0xFFFF] [0xDBFF, 0xDFFF, 0x41]
     (by decide) (by decide)).1,
   by decide,
   ((utf16_decoding_range [0x41, 0xD800, 0xDF48, 0xDC00, 0xFFFF] [0xDBFF, 0xDFFF, 0x41]
     (by decide) (by decide)).2 (by decide) (by decide)).1⟩

/-! ## C30 -/

/-- C30: the legality check never accepts a lead byte whose table trailing count
is 4 or 5. Whenever `isLegalUTF8 (source, trailingBytesForUTF8[lead] + 1)` is
true the trailing count is at most 3, so a successful decode takes one of the
cases 0..3 of its accumulation switch and reads `offsetsFromUTF8` at an index of
at most 3. -/
theorem legal_count_at_most_three (source : List Nat) :
    (isLegalUTF8 source (trailingBytesForUTF8.getD (uint8_t (source.headD 0)) 0 + 1) = true →
      trailingBytesForUTF8.getD (uint8_t (source.headD 0)) 0 ≤ 3) ∧
    ((str8.decode source).ok = true →
      trailingBytesForUTF8.getD (uint8_t (source.headD 0)) 0 ≤ 3 ∧
      (str8.decode source).ch =
        char32_t ((decode_accumulate (trailingBytesForUTF8.getD (uint8_t (source.headD 0)) 0)
          source).1 + (4294967296 - offsetsFromUTF8.getD
            (trailingBytesForUTF8.getD (uint8_t (source.headD 0)) 0) 0))) := by
  have h1 : isLegalUTF8 source (trailingBytesForUTF8.getD (uint8_t (source.headD 0)) 0 + 1)
      = true → trailingBytesForUTF8.getD (uint8_t (source.headD 0)) 0 ≤ 3 := by
    intro hleg
    by_contra hc
    rw [isLegalUTF8_long _ _ (by omega)] at hleg
    exact absurd hleg (by simp)
  refine ⟨h1, fun hok => ⟨h1 ((str8_decode_ok_iff source).1 hok).2, ?_⟩⟩
  rw [str8_decode_eq_accumulate source hok]

theorem legal_count_at_most_three_witness :
    trailingBytesForUTF8.getD (uint8_t ([0xF8, 0x88, 0x80, 0x80, 0x80].headD 0)) 0 = 4 ∧
    isLegalUTF8 [0xF8, 0x88, 0x80, 0x80, 0x80] (4 + 1) = false ∧
    (str8.decode [0xF8, 0x88, 0x80, 0x80, 0x80]).ok = false ∧
    (str8.decode [0xF4, 0x8F, 0xBF, 0xBF]).ok = true ∧
    trailingBytesForUTF8.getD (uint8_t ([0xF4, 0x8F, 0xBF, 0xBF].headD 0)) 0 ≤ 3 :=
  ⟨by decide, by decide, by decide, by decide,
   ((legal_count_at_most_three [0xF4, 0x8F, 0xBF, 0xBF]).2 (by decide)).1⟩

end utf
